import Mathlib

/-!
Shallow embedding of `src/red_black_tree/red_black_tree.py`.

The Python code mutates a pointer-linked node structure, so the embedding
uses an explicit arena: nodes live in an association list indexed by `Nat`
identifiers, and every attribute read or write of the Python code becomes a
lookup or an update of the current arena.  Python attribute access on `None`
raises `AttributeError`; the embedding models that (and the modelling
artifact of a dangling identifier) as `Res.err`.  Unbounded `while` loops
receive explicit fuel; exhausting it yields `Res.fuel`, which on any state
the Python code actually terminates on is never returned for the canonical
fuel choices used by the public operations.
-/

/-- `Colour` from the source: `black = 0`, `red = 1`. -/
inductive Colour where
  | black
  | red
deriving DecidableEq, Repr

/-- `Node` from the source: key, colour and the three relations.
Relations hold arena identifiers rather than object references. -/
structure NodeR where
  key : Int
  colour : Colour
  parent : Option Nat
  left_node : Option Nat
  right_node : Option Nat
deriving DecidableEq, Repr

/-- The arena of allocated nodes: identifier/node association list. -/
abbrev Arena := List (Nat × NodeR)

/-- Read a node from the arena by identifier. -/
def getN (m : Arena) (i : Nat) : Option NodeR :=
  match m with
  | [] => none
  | (j, n) :: rest => if j = i then some n else getN rest i

/-- Overwrite the node stored under identifier `i` (no-op when absent). -/
def setN (m : Arena) (i : Nat) (v : NodeR) : Arena :=
  match m with
  | [] => []
  | (j, n) :: rest =>
      if j = i then (j, v) :: setN rest i v else (j, n) :: setN rest i v

/-- Apply an in-place field update to the node stored under `i`. -/
def updF (m : Arena) (i : Nat) (f : NodeR → NodeR) : Arena :=
  match getN m i with
  | some n => setN m i (f n)
  | none => m

/-- A fresh identifier, strictly larger than every allocated one. -/
def freshId (m : Arena) : Nat :=
  m.foldr (fun p a => max (p.1 + 1) a) 0

/-- Result of running a fragment of the Python code: normal return,
`AttributeError`-style crash, or fuel exhaustion of the model. -/
inductive Res (α : Type) where
  | ok (a : α)
  | err
  | fuel
deriving DecidableEq, Repr

def Res.bind {α β : Type} : Res α → (α → Res β) → Res β
  | .ok a, f => f a
  | .err, _ => .err
  | .fuel, _ => .fuel

instance : Monad Res where
  pure := Res.ok
  bind := Res.bind

/-- Dereference an optional node reference, as Python attribute access does:
`None` (and the artifact of a dangling identifier) crashes. -/
def derefA (m : Arena) : Option Nat → Res NodeR
  | none => .err
  | some i =>
      match getN m i with
      | none => .err
      | some n => .ok n

/-- `Node.is_red`. -/
def NodeR.is_red (n : NodeR) : Bool := n.colour = Colour.red

/-- `Node.is_black`. -/
def NodeR.is_black (n : NodeR) : Bool := n.colour = Colour.black

/-- `Node.has_right_son`. -/
def NodeR.has_right_son (n : NodeR) : Bool := n.right_node.isSome

/-- `Node.has_left_son`. -/
def NodeR.has_left_son (n : NodeR) : Bool := n.left_node.isSome

/-- `Node.has_no_children`. -/
def NodeR.has_no_children (n : NodeR) : Bool :=
  !n.has_right_son && !n.has_left_son

/-- `Node.has_two_children`. -/
def NodeR.has_two_children (n : NodeR) : Bool :=
  n.has_right_son && n.has_left_son

/-- `Node.has_black_children`: both children present and black.
Dereferences the children, hence runs in the arena. -/
def NodeR.has_black_children (m : Arena) (n : NodeR) : Res Bool :=
  if n.has_two_children then do
    let ln ← derefA m n.left_node
    let rn ← derefA m n.right_node
    pure (ln.is_black && rn.is_black)
  else
    pure false

/-- `Node.is_right_son` for the node stored under `i`:
`parent is not None and parent.right_node is not None and self == parent.right_node`. -/
def is_right_sonA (m : Arena) (i : Nat) : Res Bool := do
  let n ← derefA m (some i)
  match n.parent with
  | none => pure false
  | some p => do
      let pn ← derefA m (some p)
      pure (pn.right_node.isSome && pn.right_node == some i)

/-- `Node.is_left_son` for the node stored under `i`. -/
def is_left_sonA (m : Arena) (i : Nat) : Res Bool := do
  let n ← derefA m (some i)
  match n.parent with
  | none => pure false
  | some p => do
      let pn ← derefA m (some p)
      pure (pn.left_node.isSome && pn.left_node == some i)

/-- `Node.grandfather_node`: `self.parent.parent`; crashes when the parent
is absent. -/
def grandfather_nodeA (m : Arena) (i : Nat) : Res (Option Nat) := do
  let n ← derefA m (some i)
  let pn ← derefA m n.parent
  pure pn.parent

/-- `RBTree`: the root reference plus the arena holding every node ever
allocated (Python objects persist while referenced; unlinked nodes simply
become unreachable from the root). -/
structure RBTree where
  root : Option Nat
  nodes : Arena
deriving DecidableEq, Repr

/-- `RBTree._node_is_root`: object identity comparison with the root. -/
def RBTree._node_is_root (t : RBTree) (i : Nat) : Bool :=
  t.root == some i

/-- `RBTree.is_empty`. -/
def RBTree.is_empty (t : RBTree) : Bool :=
  t.root.isNone

/-- `RBTree._left_rotate`, transcribed write by write; every attribute
access rereads the current arena exactly as the Python interpreter does. -/
def RBTree._left_rotate (t : RBTree) (i : Nat) : Res RBTree := do
  let n0 ← derefA t.nodes (some i)
  -- right_son_copy = node.right_node ; node.right_node = right_son_copy.left_node
  let y ← match n0.right_node with
    | none => (Res.err : Res Nat)
    | some y => pure y
  let yn0 ← derefA t.nodes (some y)
  let m1 := updF t.nodes i (fun n => { n with right_node := yn0.left_node })
  -- if right_son_copy.left_node is not None: right_son_copy.left_node.parent = node
  let yn1 ← derefA m1 (some y)
  let m2 := match yn1.left_node with
    | none => m1
    | some b => updF m1 b (fun bn => { bn with parent := some i })
  -- right_son_copy.parent = node.parent
  let n2 ← derefA m2 (some i)
  let m3 := updF m2 y (fun yn => { yn with parent := n2.parent })
  -- root / parent child-slot update
  let n3 ← derefA m3 (some i)
  let (root4, m4) ←
    match n3.parent with
    | none => pure (some y, m3)
    | some p => do
        let ls ← is_left_sonA m3 i
        if ls then
          pure (t.root, updF m3 p (fun pn => { pn with left_node := some y }))
        else
          pure (t.root, updF m3 p (fun pn => { pn with right_node := some y }))
  -- right_son_copy.left_node = node ; node.parent = right_son_copy
  let m5 := updF m4 y (fun yn => { yn with left_node := some i })
  let m6 := updF m5 i (fun n => { n with parent := some y })
  pure { root := root4, nodes := m6 }

/-- `RBTree._right_rotate`, the mirror transcription. -/
def RBTree._right_rotate (t : RBTree) (i : Nat) : Res RBTree := do
  let n0 ← derefA t.nodes (some i)
  let x ← match n0.left_node with
    | none => (Res.err : Res Nat)
    | some x => pure x
  let xn0 ← derefA t.nodes (some x)
  let m1 := updF t.nodes i (fun n => { n with left_node := xn0.right_node })
  let xn1 ← derefA m1 (some x)
  let m2 := match xn1.right_node with
    | none => m1
    | some b => updF m1 b (fun bn => { bn with parent := some i })
  let n2 ← derefA m2 (some i)
  let m3 := updF m2 x (fun xn => { xn with parent := n2.parent })
  let n3 ← derefA m3 (some i)
  let (root4, m4) ←
    match n3.parent with
    | none => pure (some x, m3)
    | some p => do
        let rs ← is_right_sonA m3 i
        if rs then
          pure (t.root, updF m3 p (fun pn => { pn with right_node := some x }))
        else
          pure (t.root, updF m3 p (fun pn => { pn with left_node := some x }))
  let m5 := updF m4 x (fun xn => { xn with right_node := some i })
  let m6 := updF m5 i (fun n => { n with parent := some x })
  pure { root := root4, nodes := m6 }

/-!
Transcription convention: Python re-reads an attribute at every access.  In
the definitions below a node is re-read from the arena after any write that
could have changed it; between two reads with no intervening write the first
read's value is reused, which is semantically identical.
-/

/-- One iteration plus loop control of `RBTree._balance_after_insert`'s
`while` loop, with fuel; mirrors the source line by line. -/
def RBTree._balance_after_insert_loop (fuel : Nat) (t : RBTree) (i : Nat) :
    Res RBTree :=
  match fuel with
  | 0 => .fuel
  | fuel + 1 => do
    -- while inserted_node.parent.is_red():
    let n ← derefA t.nodes (some i)
    let pn ← derefA t.nodes n.parent
    if !pn.is_red then
      -- loop ends: self.root.colour = Colour.black
      match t.root with
      | none => Res.err
      | some r =>
          pure { t with nodes := updF t.nodes r (fun x => { x with colour := Colour.black }) }
    else do
      let p ← match n.parent with
        | none => (Res.err : Res Nat)
        | some p => pure p
      let prs ← is_right_sonA t.nodes p
      let (t1, i1) ←
        if prs then do
          -- uncle = inserted_node.grandfather_node().left_node
          let gOpt ← grandfather_nodeA t.nodes i
          let gn ← derefA t.nodes gOpt
          let uncleRed ← match gn.left_node with
            | none => pure false
            | some u => do
                let un ← derefA t.nodes (some u)
                pure un.is_red
          if uncleRed then do
            let u ← match gn.left_node with
              | none => (Res.err : Res Nat)
              | some u => pure u
            let ta := updF t.nodes u (fun x => { x with colour := Colour.black })
            let na ← derefA ta (some i)
            let pa ← match na.parent with
              | none => (Res.err : Res Nat)
              | some p => pure p
            let tb := updF ta pa (fun x => { x with colour := Colour.black })
            let gb ← grandfather_nodeA tb i
            let g ← match gb with
              | none => (Res.err : Res Nat)
              | some g => pure g
            let tc := updF tb g (fun x => { x with colour := Colour.red })
            -- inserted_node = inserted_node.grandfather_node()
            let gc ← grandfather_nodeA tc i
            let g2 ← match gc with
              | none => (Res.err : Res Nat)
              | some g2 => pure g2
            pure ({ t with nodes := tc }, g2)
          else do
            let ls ← is_left_sonA t.nodes i
            let (ta, ia) ←
              if ls then do
                -- inserted_node = inserted_node.parent; self._right_rotate(inserted_node)
                let np ← match n.parent with
                  | none => (Res.err : Res Nat)
                  | some p => pure p
                let tr ← RBTree._right_rotate t np
                pure (tr, np)
              else
                pure (t, i)
            -- inserted_node.parent.colour = Colour.black
            let nb ← derefA ta.nodes (some ia)
            let pb ← match nb.parent with
              | none => (Res.err : Res Nat)
              | some p => pure p
            let tb := { ta with nodes := updF ta.nodes pb (fun x => { x with colour := Colour.black }) }
            -- inserted_node.grandfather_node().colour = Colour.red
            let gb ← grandfather_nodeA tb.nodes ia
            let g ← match gb with
              | none => (Res.err : Res Nat)
              | some g => pure g
            let tc := { tb with nodes := updF tb.nodes g (fun x => { x with colour := Colour.red }) }
            -- self._left_rotate(inserted_node.grandfather_node())
            let gc ← grandfather_nodeA tc.nodes ia
            let g2 ← match gc with
              | none => (Res.err : Res Nat)
              | some g2 => pure g2
            let td ← RBTree._left_rotate tc g2
            pure (td, ia)
        else do
          -- mirror: uncle = inserted_node.grandfather_node().right_node
          let gOpt ← grandfather_nodeA t.nodes i
          let gn ← derefA t.nodes gOpt
          let uncleRed ← match gn.right_node with
            | none => pure false
            | some u => do
                let un ← derefA t.nodes (some u)
                pure un.is_red
          if uncleRed then do
            let u ← match gn.right_node with
              | none => (Res.err : Res Nat)
              | some u => pure u
            let ta := updF t.nodes u (fun x => { x with colour := Colour.black })
            let na ← derefA ta (some i)
            let pa ← match na.parent with
              | none => (Res.err : Res Nat)
              | some p => pure p
            let tb := updF ta pa (fun x => { x with colour := Colour.black })
            let gb ← grandfather_nodeA tb i
            let g ← match gb with
              | none => (Res.err : Res Nat)
              | some g => pure g
            let tc := updF tb g (fun x => { x with colour := Colour.red })
            let gc ← grandfather_nodeA tc i
            let g2 ← match gc with
              | none => (Res.err : Res Nat)
              | some g2 => pure g2
            pure ({ t with nodes := tc }, g2)
          else do
            let rs ← is_right_sonA t.nodes i
            let (ta, ia) ←
              if rs then do
                let np ← match n.parent with
                  | none => (Res.err : Res Nat)
                  | some p => pure p
                let tr ← RBTree._left_rotate t np
                pure (tr, np)
              else
                pure (t, i)
            let nb ← derefA ta.nodes (some ia)
            let pb ← match nb.parent with
              | none => (Res.err : Res Nat)
              | some p => pure p
            let tb := { ta with nodes := updF ta.nodes pb (fun x => { x with colour := Colour.black }) }
            let gb ← grandfather_nodeA tb.nodes ia
            let g ← match gb with
              | none => (Res.err : Res Nat)
              | some g => pure g
            let tc := { tb with nodes := updF tb.nodes g (fun x => { x with colour := Colour.red }) }
            let gc ← grandfather_nodeA tc.nodes ia
            let g2 ← match gc with
              | none => (Res.err : Res Nat)
              | some g2 => pure g2
            let td ← RBTree._right_rotate tc g2
            pure (td, ia)
      -- if self._node_is_root(inserted_node): break
      if t1._node_is_root i1 then
        match t1.root with
        | none => Res.err
        | some r =>
            pure { t1 with nodes := updF t1.nodes r (fun x => { x with colour := Colour.black }) }
      else
        RBTree._balance_after_insert_loop fuel t1 i1

/-- `RBTree._balance_after_insert`: the validity guard returns early (in
particular without forcing the root black); otherwise the fixup loop runs. -/
def RBTree._balance_after_insert (t : RBTree) (i : Nat) : Res RBTree := do
  let n ← derefA t.nodes (some i)
  match n.parent with
  | none => pure t
  | some p => do
      let pn ← derefA t.nodes (some p)
      match pn.parent with
      | none => pure t
      | some _ =>
          RBTree._balance_after_insert_loop (t.nodes.length + 1) t i

/-- The BST descent loop of `RBTree.insert`: tracks the last non-absent
node visited (`curr_root`). -/
def insert_descend (m : Arena) (key : Int) :
    Nat → Option Nat → Option Nat → Res (Option Nat)
  | 0, _, _ => .fuel
  | fuel + 1, prev, curr =>
      match prev with
      | none => pure curr
      | some p => do
          let pn ← derefA m (some p)
          if key < pn.key then insert_descend m key fuel pn.left_node (some p)
          else insert_descend m key fuel pn.right_node (some p)

/-- `RBTree.insert`. -/
def RBTree.insert (t : RBTree) (key : Int) : Res RBTree :=
  if t.is_empty then
    let z := freshId t.nodes
    pure { root := some z,
           nodes := (z, { key := key, colour := Colour.black,
                          parent := none, left_node := none, right_node := none }) :: t.nodes }
  else do
    let z := freshId t.nodes
    let m : Arena :=
      (z, { key := key, colour := Colour.red,
            parent := none, left_node := none, right_node := none }) :: t.nodes
    let curr ← insert_descend m key (m.length + 1) t.root none
    let m2 := updF m z (fun n => { n with parent := curr })
    match curr with
    | none =>
        -- if curr_root is None: self.root = node_to_insert
        RBTree._balance_after_insert { root := some z, nodes := m2 } z
    | some c => do
        let cn ← derefA m2 (some c)
        let m3 :=
          if key < cn.key then
            updF m2 c (fun n => { n with left_node := some z })
          else
            updF m2 c (fun n => { n with right_node := some z })
        RBTree._balance_after_insert { root := t.root, nodes := m3 } z

/-- `RBTree._find_key_in_subtree` (the recursion gets fuel). -/
def RBTree._find_key_in_subtree (m : Arena) :
    Nat → Option Nat → Int → Res (Option Nat)
  | 0, _, _ => .fuel
  | fuel + 1, root, key =>
      match root with
      | none => pure none
      | some r => do
          let rn ← derefA m (some r)
          if rn.key == key then pure (some r)
          else if rn.key < key then
            RBTree._find_key_in_subtree m fuel rn.right_node key
          else
            RBTree._find_key_in_subtree m fuel rn.left_node key

/-- `RBTree.find_key`. -/
def RBTree.find_key (t : RBTree) (key : Int) : Res (Option Nat) :=
  RBTree._find_key_in_subtree t.nodes (t.nodes.length + 1) t.root key

/-- `RBTree._delete_childless_node`. -/
def RBTree._delete_childless_node (t : RBTree) (i : Nat) : Res RBTree :=
  if t._node_is_root i then
    pure { t with root := none }
  else do
    let rs ← is_right_sonA t.nodes i
    let n ← derefA t.nodes (some i)
    let p ← match n.parent with
      | none => (Res.err : Res Nat)
      | some p => pure p
    if rs then
      pure { t with nodes := updF t.nodes p (fun x => { x with right_node := none }) }
    else
      pure { t with nodes := updF t.nodes p (fun x => { x with left_node := none }) }

/-- The descent loop of `RBTree._find_next_key`. -/
def find_next_loop (m : Arena) : Nat → Nat → Res Nat
  | 0, _ => .fuel
  | fuel + 1, s => do
      let sn ← derefA m (some s)
      if sn.has_left_son then
        match sn.left_node with
        | some l => find_next_loop m fuel l
        | none => Res.err
      else pure s

/-- `RBTree._find_next_key`: leftmost node of the right subtree. -/
def RBTree._find_next_key (m : Arena) (i : Nat) : Res Nat := do
  let n ← derefA m (some i)
  match n.right_node with
  | none => Res.err
  | some s => find_next_loop m (m.length + 1) s

/-- Unwrap a reference that Python is about to use as an object (attribute
write or method call on `None` crashes). -/
def refR : Option Nat → Res Nat
  | none => .err
  | some i => .ok i

/-- Loop-control outcome of one iteration of the delete-fixup loop:
`brk` leaves the loop, `cont` goes round again. -/
inductive DStep where
  | brk (t : RBTree) (i : Nat)
  | cont (t : RBTree) (i : Nat)
deriving DecidableEq, Repr

/-- Source lines 388-392: the final recolour-and-rotate of the left branch
of `_balance_after_delete` (`brother.colour = node.parent.colour; ...;
self._left_rotate(node.parent); node = self.root`). -/
def RBTree._delete_fix_left_finish (t : RBTree) (i br : Nat) : Res DStep := do
  let n ← derefA t.nodes (some i)
  let pn ← derefA t.nodes n.parent
  let t1 := { t with nodes := updF t.nodes br (fun x => { x with colour := pn.colour }) }
  let n1 ← derefA t1.nodes (some i)
  let p1 ← refR n1.parent
  let t2 := { t1 with nodes := updF t1.nodes p1 (fun x => { x with colour := Colour.black }) }
  let brn ← derefA t2.nodes (some br)
  let r ← refR brn.right_node
  let t3 := { t2 with nodes := updF t2.nodes r (fun x => { x with colour := Colour.black }) }
  let n3 ← derefA t3.nodes (some i)
  let p3 ← refR n3.parent
  let t4 ← RBTree._left_rotate t3 p3
  match t4.root with
  | none => Res.err
  | some rt => pure (DStep.cont t4 rt)

/-- Source lines 415-419: the final recolour-and-rotate of the right branch
of `_balance_after_delete`. -/
def RBTree._delete_fix_right_finish (t : RBTree) (i br : Nat) : Res DStep := do
  let n ← derefA t.nodes (some i)
  let pn ← derefA t.nodes n.parent
  let t1 := { t with nodes := updF t.nodes br (fun x => { x with colour := pn.colour }) }
  let n1 ← derefA t1.nodes (some i)
  let p1 ← refR n1.parent
  let t2 := { t1 with nodes := updF t1.nodes p1 (fun x => { x with colour := Colour.black }) }
  let brn ← derefA t2.nodes (some br)
  let l ← refR brn.left_node
  let t3 := { t2 with nodes := updF t2.nodes l (fun x => { x with colour := Colour.black }) }
  let n3 ← derefA t3.nodes (some i)
  let p3 ← refR n3.parent
  let t4 ← RBTree._right_rotate t3 p3
  match t4.root with
  | none => Res.err
  | some rt => pure (DStep.cont t4 rt)

/-- One iteration of the `while` body of `RBTree._balance_after_delete`
(source lines 361-419), transcribed branch by branch. -/
def RBTree._balance_after_delete_body (t : RBTree) (i : Nat) : Res DStep := do
  let n ← derefA t.nodes (some i)
  -- is_left_son = node.has_right_son() and node.right_node.parent == node.parent
  --               or node.is_left_son()
  let ab ←
    if n.has_right_son then do
      let rn ← derefA t.nodes n.right_node
      pure (rn.parent == n.parent)
    else pure false
  let is_ls ← if ab then pure true else is_left_sonA t.nodes i
  -- if (is_left_son and node.parent.right_node is None) and
  --    (node.is_right_son() and node.parent.left_node is None): break
  let brkGuard ←
    if is_ls then do
      let pn ← derefA t.nodes n.parent
      if pn.right_node.isNone then do
        let rs ← is_right_sonA t.nodes i
        if rs then pure pn.left_node.isNone else pure false
      else pure false
    else pure false
  if brkGuard then pure (DStep.brk t i)
  else if is_ls then do
    -- brother = node.parent.right_node
    let pn ← derefA t.nodes n.parent
    match pn.right_node with
    | none => pure (DStep.brk t i)
    | some br => do
        let brn ← derefA t.nodes (some br)
        if brn.is_red then do
          let t1 := { t with nodes := updF t.nodes br (fun x => { x with colour := Colour.black }) }
          let n1 ← derefA t1.nodes (some i)
          let p1 ← refR n1.parent
          let t2 := { t1 with nodes := updF t1.nodes p1 (fun x => { x with colour := Colour.red }) }
          let n2 ← derefA t2.nodes (some i)
          let p2 ← refR n2.parent
          let t3 ← RBTree._left_rotate t2 p2
          -- brother = node.parent.right_node ; if brother is None: break
          let n3 ← derefA t3.nodes (some i)
          let p3n ← derefA t3.nodes n3.parent
          match p3n.right_node with
          | none => pure (DStep.brk t3 i)
          | some _ => pure (DStep.cont t3 i)
        else do
          let hbc ←
            if brn.has_no_children then pure true
            else brn.has_black_children t.nodes
          if hbc then do
            -- brother.colour = red ; node = node.parent
            let t1 := { t with nodes := updF t.nodes br (fun x => { x with colour := Colour.red }) }
            let n1 ← derefA t1.nodes (some i)
            let p1 ← refR n1.parent
            pure (DStep.cont t1 p1)
          else do
            -- if brother.right_node is None or brother.right_node.is_black():
            let nearCase ←
              match brn.right_node with
              | none => pure true
              | some r => do
                  let rn ← derefA t.nodes (some r)
                  pure rn.is_black
            if nearCase then do
              let bl ← refR brn.left_node
              let t1 := { t with nodes := updF t.nodes bl (fun x => { x with colour := Colour.black }) }
              let t2 := { t1 with nodes := updF t1.nodes br (fun x => { x with colour := Colour.red }) }
              let t3 ← RBTree._right_rotate t2 br
              -- brother = node.parent.right_node ; if brother is None: break
              let n3 ← derefA t3.nodes (some i)
              let p3n ← derefA t3.nodes n3.parent
              match p3n.right_node with
              | none => pure (DStep.brk t3 i)
              | some br2 => RBTree._delete_fix_left_finish t3 i br2
            else
              RBTree._delete_fix_left_finish t i br
  else do
    -- brother = node.parent.left_node
    let pn ← derefA t.nodes n.parent
    match pn.left_node with
    | none => pure (DStep.brk t i)
    | some br0 => do
        let brn0 ← derefA t.nodes (some br0)
        let redStep ←
          if brn0.is_red then do
            let t1 := { t with nodes := updF t.nodes br0 (fun x => { x with colour := Colour.black }) }
            let n1 ← derefA t1.nodes (some i)
            let p1 ← refR n1.parent
            let t2 := { t1 with nodes := updF t1.nodes p1 (fun x => { x with colour := Colour.red }) }
            let n2 ← derefA t2.nodes (some i)
            let p2 ← refR n2.parent
            let t3 ← RBTree._right_rotate t2 p2
            -- brother = node.parent.left_node ; if brother is None: break
            let n3 ← derefA t3.nodes (some i)
            let p3n ← derefA t3.nodes n3.parent
            match p3n.left_node with
            | none => pure (Sum.inl (t3, i))
            | some br1 => pure (Sum.inr (t3, br1))
          else pure (Sum.inr (t, br0))
        match redStep with
        | Sum.inl (t3, i3) => pure (DStep.brk t3 i3)
        | Sum.inr (t1, br1) => do
            -- note: in this branch the children test is a plain `if`, so it
            -- also runs right after the red-brother case above
            let brn1 ← derefA t1.nodes (some br1)
            let hbc ←
              if brn1.has_no_children then pure true
              else brn1.has_black_children t1.nodes
            if hbc then do
              let t2 := { t1 with nodes := updF t1.nodes br1 (fun x => { x with colour := Colour.red }) }
              let n2 ← derefA t2.nodes (some i)
              let p2 ← refR n2.parent
              pure (DStep.cont t2 p2)
            else do
              let nearCase ←
                match brn1.left_node with
                | none => pure true
                | some l => do
                    let ln ← derefA t1.nodes (some l)
                    pure ln.is_black
              if nearCase then do
                let brr ← refR brn1.right_node
                let t2 := { t1 with nodes := updF t1.nodes brr (fun x => { x with colour := Colour.black }) }
                let t3 := { t2 with nodes := updF t2.nodes br1 (fun x => { x with colour := Colour.red }) }
                let t4 ← RBTree._left_rotate t3 br1
                let n4 ← derefA t4.nodes (some i)
                let p4n ← derefA t4.nodes n4.parent
                match p4n.left_node with
                | none => pure (DStep.brk t4 i)
                | some br2 => RBTree._delete_fix_right_finish t4 i br2
              else
                RBTree._delete_fix_right_finish t1 i br1

/-- The fueled `while` loop of `RBTree._balance_after_delete`; returns the
state and the working node at loop exit. -/
def RBTree._balance_after_delete_loop (fuel : Nat) (t : RBTree) (i : Nat) :
    Res (RBTree × Nat) :=
  match fuel with
  | 0 => .fuel
  | fuel + 1 =>
      -- while node != self.root and node.is_black():
      if t.root == some i then pure (t, i)
      else do
        let n ← derefA t.nodes (some i)
        if !n.is_black then pure (t, i)
        else do
          let step ← RBTree._balance_after_delete_body t i
          match step with
          | DStep.brk t' i' => pure (t', i')
          | DStep.cont t' i' => RBTree._balance_after_delete_loop fuel t' i'

/-- `RBTree._balance_after_delete`: the loop followed by
`node.colour = Colour.black`. -/
def RBTree._balance_after_delete (t : RBTree) (i : Nat) : Res RBTree := do
  let (t', i') ← RBTree._balance_after_delete_loop (t.nodes.length + 1) t i
  pure { t' with nodes := updF t'.nodes i' (fun x => { x with colour := Colour.black }) }

/-- Source lines 479-486, the shared tail of `RBTree.delete`: copy colour
and key from the physically removed node when it differs from the located
one, force the root black, and run the fixup when the removed node was
black. -/
def RBTree.delete_epilogue (t : RBTree) (v s : Nat) : Res RBTree := do
  let t1 ←
    if s == v then pure t
    else do
      -- key_node.colour = next_key_node.colour ; key_node.key = next_key_node.key
      let sn ← derefA t.nodes (some s)
      let m1 := updF t.nodes v (fun x => { x with colour := sn.colour })
      let sn1 ← derefA m1 (some s)
      let m2 := updF m1 v (fun x => { x with key := sn1.key })
      pure { t with nodes := m2 }
  -- self.root.colour = Colour.black
  let rt ← refR t1.root
  let t2 := { t1 with nodes := updF t1.nodes rt (fun x => { x with colour := Colour.black }) }
  -- if next_key_node.colour == Colour.black: self._balance_after_delete(next_key_node)
  let sn2 ← derefA t2.nodes (some s)
  if sn2.colour == Colour.black then
    RBTree._balance_after_delete t2 s
  else
    pure t2

/-- `RBTree.delete` (source lines 423-487), transcribed branch by branch;
note that both one-child non-root branches write the promoted child into the
parent's *left* slot (source lines 446 and 455). -/
def RBTree.delete (t : RBTree) (key : Int) : Res RBTree := do
  let kOpt ← t.find_key key
  match kOpt with
  | none => pure t
  | some v => do
    let vn ← derefA t.nodes (some v)
    if vn.has_no_children then
      t._delete_childless_node v
    else if vn.has_right_son && !vn.has_left_son then
      if t._node_is_root v then do
        -- key_node.right_node.parent = None; self.root = key_node.right_node
        -- self.root.colour = Colour.black; return
        let r ← refR vn.right_node
        let m1 := updF t.nodes r (fun x => { x with parent := none })
        let vn1 ← derefA m1 (some v)
        let rt ← refR vn1.right_node
        let m2 := updF m1 rt (fun x => { x with colour := Colour.black })
        pure { root := some rt, nodes := m2 }
      else do
        -- key_node.parent.left_node = key_node.right_node
        -- key_node.right_node.parent = key_node.parent
        let p ← refR vn.parent
        let m1 := updF t.nodes p (fun x => { x with left_node := vn.right_node })
        let vn1 ← derefA m1 (some v)
        let r ← refR vn1.right_node
        let m2 := updF m1 r (fun x => { x with parent := vn1.parent })
        -- next_key_node == key_node here, so lines 479-481 do nothing
        RBTree.delete_epilogue { root := t.root, nodes := m2 } v v
    else if !vn.has_right_son && vn.has_left_son then
      if t._node_is_root v then do
        let l ← refR vn.left_node
        let m1 := updF t.nodes l (fun x => { x with parent := none })
        let vn1 ← derefA m1 (some v)
        let lt ← refR vn1.left_node
        let m2 := updF m1 lt (fun x => { x with colour := Colour.black })
        pure { root := some lt, nodes := m2 }
      else do
        -- key_node.parent.left_node = key_node.left_node
        -- key_node.left_node.parent = key_node.parent
        let p ← refR vn.parent
        let m1 := updF t.nodes p (fun x => { x with left_node := vn.left_node })
        let vn1 ← derefA m1 (some v)
        let l ← refR vn1.left_node
        let m2 := updF m1 l (fun x => { x with parent := vn1.parent })
        RBTree.delete_epilogue { root := t.root, nodes := m2 } v v
    else do
      -- two children: next_key_node = self._find_next_key(key_node)
      let s ← RBTree._find_next_key t.nodes v
      let sn ← derefA t.nodes (some s)
      if sn.has_right_son then do
        -- next_key_node.right_node.parent = next_key_node.parent
        let sr ← refR sn.right_node
        let m1 := updF t.nodes sr (fun x => { x with parent := sn.parent })
        let t1 : RBTree := { root := t.root, nodes := m1 }
        let t2 ←
          if t1._node_is_root s then do
            let sn1 ← derefA m1 (some s)
            let sr1 ← refR sn1.right_node
            pure { t1 with root := some sr1 }
          else do
            let sn1 ← derefA m1 (some s)
            if sn1.parent == some v then do
              -- next_key_node.parent.right_node = next_key_node.right_node
              -- next_key_node.right_node.parent = next_key_node.parent
              let p1 ← refR sn1.parent
              let m2 := updF m1 p1 (fun x => { x with right_node := sn1.right_node })
              let sn2 ← derefA m2 (some s)
              let sr2 ← refR sn2.right_node
              let m3 := updF m2 sr2 (fun x => { x with parent := sn2.parent })
              pure { t1 with nodes := m3 }
            else do
              -- next_key_node.parent.left_node = next_key_node.right_node
              -- next_key_node.right_node.parent = next_key_node.parent
              let p1 ← refR sn1.parent
              let m2 := updF m1 p1 (fun x => { x with left_node := sn1.right_node })
              let sn2 ← derefA m2 (some s)
              let sr2 ← refR sn2.right_node
              let m3 := updF m2 sr2 (fun x => { x with parent := sn2.parent })
              pure { t1 with nodes := m3 }
        RBTree.delete_epilogue t2 v s
      else do
        let sn1 ← derefA t.nodes (some s)
        if sn1.parent == some v then do
          -- key_node.right_node = None; key_node.key = next_key_node.key
          -- self.root.colour = Colour.black; fixup when black; return
          let m1 := updF t.nodes v (fun x => { x with right_node := none })
          let sn2 ← derefA m1 (some s)
          let m2 := updF m1 v (fun x => { x with key := sn2.key })
          let rt ← refR t.root
          let m3 := updF m2 rt (fun x => { x with colour := Colour.black })
          let sn3 ← derefA m3 (some s)
          if sn3.colour == Colour.black then
            RBTree._balance_after_delete { root := t.root, nodes := m3 } s
          else
            pure { root := t.root, nodes := m3 }
        else do
          -- next_key_node.parent.left_node = None
          let p ← refR sn1.parent
          let m1 := updF t.nodes p (fun x => { x with left_node := none })
          RBTree.delete_epilogue { root := t.root, nodes := m1 } v s

/-- `RBTree.__init__`: build a tree by inserting the elements in order. -/
def RBTree.init (elements : List Int) : Res RBTree :=
  elements.foldlM (fun t k => t.insert k)
    ({ root := none, nodes := [] } : RBTree)

/-- Control-flow shadow of `RBTree.delete_epilogue`: replays its updates
and reports whether the final colour test invokes `_balance_after_delete`. -/
def RBTree.delete_epilogue_calls_fixup (t : RBTree) (v s : Nat) : Res Bool := do
  let t1 ←
    if s == v then pure t
    else do
      let sn ← derefA t.nodes (some s)
      let m1 := updF t.nodes v (fun x => { x with colour := sn.colour })
      let sn1 ← derefA m1 (some s)
      let m2 := updF m1 v (fun x => { x with key := sn1.key })
      pure { t with nodes := m2 }
  let rt ← refR t1.root
  let t2 := { t1 with nodes := updF t1.nodes rt (fun x => { x with colour := Colour.black }) }
  let sn2 ← derefA t2.nodes (some s)
  pure (sn2.colour == Colour.black)

/-- Control-flow shadow of `RBTree.delete`: follows exactly the same
branches and arena updates, but returns whether `_balance_after_delete`
is invoked during the call (it replays delete's state up to each decision
point, so the colour tests read the same values delete reads). -/
def RBTree.delete_calls_fixup (t : RBTree) (key : Int) : Res Bool := do
  let kOpt ← t.find_key key
  match kOpt with
  | none => pure false
  | some v => do
    let vn ← derefA t.nodes (some v)
    if vn.has_no_children then do
      let _ ← t._delete_childless_node v
      pure false
    else if vn.has_right_son && !vn.has_left_son then
      if t._node_is_root v then pure false
      else do
        let p ← refR vn.parent
        let m1 := updF t.nodes p (fun x => { x with left_node := vn.right_node })
        let vn1 ← derefA m1 (some v)
        let r ← refR vn1.right_node
        let m2 := updF m1 r (fun x => { x with parent := vn1.parent })
        RBTree.delete_epilogue_calls_fixup { root := t.root, nodes := m2 } v v
    else if !vn.has_right_son && vn.has_left_son then
      if t._node_is_root v then pure false
      else do
        let p ← refR vn.parent
        let m1 := updF t.nodes p (fun x => { x with left_node := vn.left_node })
        let vn1 ← derefA m1 (some v)
        let l ← refR vn1.left_node
        let m2 := updF m1 l (fun x => { x with parent := vn1.parent })
        RBTree.delete_epilogue_calls_fixup { root := t.root, nodes := m2 } v v
    else do
      let s ← RBTree._find_next_key t.nodes v
      let sn ← derefA t.nodes (some s)
      if sn.has_right_son then do
        let sr ← refR sn.right_node
        let m1 := updF t.nodes sr (fun x => { x with parent := sn.parent })
        let t1 : RBTree := { root := t.root, nodes := m1 }
        let t2 ←
          if t1._node_is_root s then do
            let sn1 ← derefA m1 (some s)
            let sr1 ← refR sn1.right_node
            pure { t1 with root := some sr1 }
          else do
            let sn1 ← derefA m1 (some s)
            if sn1.parent == some v then do
              let p1 ← refR sn1.parent
              let m2 := updF m1 p1 (fun x => { x with right_node := sn1.right_node })
              let sn2 ← derefA m2 (some s)
              let sr2 ← refR sn2.right_node
              let m3 := updF m2 sr2 (fun x => { x with parent := sn2.parent })
              pure { t1 with nodes := m3 }
            else do
              let p1 ← refR sn1.parent
              let m2 := updF m1 p1 (fun x => { x with left_node := sn1.right_node })
              let sn2 ← derefA m2 (some s)
              let sr2 ← refR sn2.right_node
              let m3 := updF m2 sr2 (fun x => { x with parent := sn2.parent })
              pure { t1 with nodes := m3 }
        RBTree.delete_epilogue_calls_fixup t2 v s
      else do
        let sn1 ← derefA t.nodes (some s)
        if sn1.parent == some v then do
          let m1 := updF t.nodes v (fun x => { x with right_node := none })
          let sn2 ← derefA m1 (some s)
          let m2 := updF m1 v (fun x => { x with key := sn2.key })
          let rt ← refR t.root
          let m3 := updF m2 rt (fun x => { x with colour := Colour.black })
          let sn3 ← derefA m3 (some s)
          pure (sn3.colour == Colour.black)
        else do
          let p ← refR sn1.parent
          let m1 := updF t.nodes p (fun x => { x with left_node := none })
          RBTree.delete_epilogue_calls_fixup { root := t.root, nodes := m1 } v s

/-!
Observation functions used to state the claims: bounded traversals of the
pointer structure reachable from the root, and the five invariants I1-I5.
-/

/-- In-order key sequence of the subtree reachable from `r` (fuel-bounded;
meaningful whenever `withinB` holds for the same fuel). -/
def inorderAux (m : Arena) : Nat → Option Nat → List Int
  | 0, _ => []
  | _ + 1, none => []
  | fuel + 1, some i =>
      match getN m i with
      | none => []
      | some n =>
          inorderAux m fuel n.left_node ++ n.key :: inorderAux m fuel n.right_node

/-- The reachable structure fits in the given traversal depth and has no
dangling identifiers. -/
def withinB (m : Arena) : Nat → Option Nat → Bool
  | 0, none => true
  | 0, some _ => false
  | _ + 1, none => true
  | fuel + 1, some i =>
      match getN m i with
      | none => false
      | some n => withinB m fuel n.left_node && withinB m fuel n.right_node

/-- Pre-order list of reachable identifiers. -/
def idsAux (m : Arena) : Nat → Option Nat → List Nat
  | 0, _ => []
  | _ + 1, none => []
  | fuel + 1, some i =>
      match getN m i with
      | none => [i]
      | some n => i :: (idsAux m fuel n.left_node ++ idsAux m fuel n.right_node)

/-- I1 (BST order) on a subtree: keys in the left subtree are strictly less
than the node's key, keys in the right subtree are greater-or-equal;
`lo` is an inclusive lower bound, `hi` a strict upper bound. -/
def bstOkB (m : Arena) (lo hi : Option Int) : Nat → Option Nat → Bool
  | 0, none => true
  | 0, some _ => false
  | _ + 1, none => true
  | fuel + 1, some i =>
      match getN m i with
      | none => false
      | some n =>
          (match lo with | none => true | some l => decide (l ≤ n.key)) &&
          (match hi with | none => true | some h => decide (n.key < h)) &&
          bstOkB m lo (some n.key) fuel n.left_node &&
          bstOkB m (some n.key) hi fuel n.right_node

/-- An absent child is implicitly black; a present one must be stored. -/
def childBlackB (m : Arena) : Option Nat → Bool
  | none => true
  | some j =>
      match getN m j with
      | none => false
      | some cn => cn.is_black

/-- I2 (red rule): a red node never has a red child. -/
def paintOkB (m : Arena) : Nat → Option Nat → Bool
  | 0, none => true
  | 0, some _ => false
  | _ + 1, none => true
  | fuel + 1, some i =>
      match getN m i with
      | none => false
      | some n =>
          (if n.is_red then childBlackB m n.left_node && childBlackB m n.right_node else true) &&
          paintOkB m fuel n.left_node && paintOkB m fuel n.right_node

/-- I3 (black height): the number of black nodes on every downward path to
an absent child; `none` when two paths disagree (or the structure is not a
bounded tree). -/
def blackHeightB (m : Arena) : Nat → Option Nat → Option Nat
  | 0, none => some 0
  | 0, some _ => none
  | _ + 1, none => some 0
  | fuel + 1, some i =>
      match getN m i with
      | none => none
      | some n =>
          match blackHeightB m fuel n.left_node, blackHeightB m fuel n.right_node with
          | some a, some b =>
              if a = b then some (a + (if n.is_black then 1 else 0)) else none
          | _, _ => none

/-- I5 (ownership), recursive part: every stored child's parent
back-reference points back at this node. -/
def parentOkB (m : Arena) : Nat → Option Nat → Bool
  | 0, none => true
  | 0, some _ => false
  | _ + 1, none => true
  | fuel + 1, some i =>
      match getN m i with
      | none => false
      | some n =>
          (match n.left_node with
           | none => true
           | some c =>
               match getN m c with
               | none => false
               | some cn => cn.parent == some i) &&
          (match n.right_node with
           | none => true
           | some c =>
               match getN m c with
               | none => false
               | some cn => cn.parent == some i) &&
          parentOkB m fuel n.left_node && parentOkB m fuel n.right_node

/-- Canonical traversal fuel for a tree. -/
def tFuel (t : RBTree) : Nat := t.nodes.length + 1

/-- I1: BST order from the root. -/
def invariantI1 (t : RBTree) : Bool :=
  bstOkB t.nodes none none (tFuel t) t.root

/-- I2: no red node with a red child. -/
def invariantI2 (t : RBTree) : Bool :=
  paintOkB t.nodes (tFuel t) t.root

/-- I3: uniform black height over all paths to absent children. -/
def invariantI3 (t : RBTree) : Bool :=
  (blackHeightB t.nodes (tFuel t) t.root).isSome

/-- I4: the root, when present, is black. -/
def invariantI4 (t : RBTree) : Bool :=
  match t.root with
  | none => true
  | some r =>
      match getN t.nodes r with
      | none => false
      | some rn => rn.is_black

/-- I5: the root has no parent, every reachable child points back at its
parent, and no reachable node is the child of two nodes. -/
def invariantI5 (t : RBTree) : Bool :=
  (match t.root with
   | none => true
   | some r =>
       match getN t.nodes r with
       | none => false
       | some rn => rn.parent.isNone) &&
  parentOkB t.nodes (tFuel t) t.root &&
  decide (idsAux t.nodes (tFuel t) t.root).Nodup

/-- All five invariants plus boundedness of the reachable structure. -/
def invariantsB (t : RBTree) : Bool :=
  withinB t.nodes (tFuel t) t.root &&
  invariantI1 t && invariantI2 t && invariantI3 t && invariantI4 t && invariantI5 t

/-- Observe a tree through `f` when the run returned normally. -/
def obsR {α : Type} (f : RBTree → α) : Res RBTree → Option α
  | .ok t => some (f t)
  | _ => none

/-- Key stored at the root, when the tree is non-empty. -/
def rootKeyO (t : RBTree) : Option Int :=
  match t.root with
  | none => none
  | some r => (getN t.nodes r).map NodeR.key

/-- Entry of the node `find_key` locates for `k`, when it finds one. -/
def foundNodeEntry (t : RBTree) (k : Int) : Option NodeR :=
  match t.find_key k with
  | .ok (some i) => getN t.nodes i
  | _ => none

/-- Root key and the colours of the root's two children. -/
def rootInfo (t : RBTree) : Option (Int × Option Colour × Option Colour) :=
  match t.root with
  | none => none
  | some r =>
      match getN t.nodes r with
      | none => none
      | some rn =>
          some (rn.key,
            (match rn.left_node with
             | none => none
             | some l => (getN t.nodes l).map NodeR.colour),
            (match rn.right_node with
             | none => none
             | some c => (getN t.nodes c).map NodeR.colour))

/-- The inorder-relevant part of a node: key and child slots (the parent
back-reference is invisible to traversals). -/
def shapeOf (n : NodeR) : Int × Option Nat × Option Nat :=
  (n.key, n.left_node, n.right_node)

/-- Two arenas agree on entry `j` up to the parent back-reference (enough
for traversals, which never read `parent`). -/
def sameShape (m m2 : Arena) (j : Nat) : Prop :=
  (getN m2 j).map shapeOf = (getN m j).map shapeOf

/-- The pointer part of a node: parent and child slots (everything a
traversal or a parent chain reads; recolouring preserves it). -/
def linksOf (n : NodeR) : Option Nat × Option Nat × Option Nat :=
  (n.parent, n.left_node, n.right_node)

/-- Length of the parent chain from `r` upward, when it terminates within
the given fuel (used to bound fixup-loop iterations). -/
def pchainB (m : Arena) : Nat → Option Nat → Option Nat
  | 0, none => some 0
  | 0, some _ => none
  | _ + 1, none => some 0
  | fuel + 1, some i =>
      match getN m i with
      | none => none
      | some n => (pchainB m fuel n.parent).map (· + 1)

/-- Structural wellformedness used by the rotation and fixup theorems: the
reachable structure is a bounded tree with no dangling identifiers, no
identifier is reached twice, every reachable child points back at its
parent, and the root has no parent. -/
def wfB (t : RBTree) : Bool :=
  withinB t.nodes (tFuel t) t.root &&
  decide (idsAux t.nodes (tFuel t) t.root).Nodup &&
  parentOkB t.nodes (tFuel t) t.root &&
  (match t.root with
   | none => true
   | some r =>
       match getN t.nodes r with
       | none => false
       | some rn => rn.parent.isNone)

/-- A one-node tree (black root with key 1), used as a concrete instance. -/
def tree1 : RBTree :=
  { root := some 0,
    nodes := [(0, { key := 1, colour := Colour.black,
                    parent := none, left_node := none, right_node := none })] }

/-- A five-node tree `2B{1B, 4B{3R, 5R}}`, used as a concrete instance for
the rotation and fixup theorems. -/
def tree5 : RBTree :=
  { root := some 0,
    nodes :=
      [(0, { key := 2, colour := Colour.black,
             parent := none, left_node := some 1, right_node := some 2 }),
       (1, { key := 1, colour := Colour.black,
             parent := some 0, left_node := none, right_node := none }),
       (2, { key := 4, colour := Colour.black,
             parent := some 0, left_node := some 3, right_node := some 4 }),
       (3, { key := 3, colour := Colour.red,
             parent := some 2, left_node := none, right_node := none }),
       (4, { key := 5, colour := Colour.red,
             parent := some 2, left_node := none, right_node := none })] }

/-!
## Theorems

One theorem per claim of the specification audit, plus shared helper
lemmas; witnesses instantiate theorems with hypotheses at concrete trees.
-/

/-- Claim C10: a tree constructed with no initial elements is empty —
`__init__ []` yields an absent root, `is_empty` answers `true`, and for
every key `find_key` returns `None` (a normal result, not an error). -/
theorem C10_empty_tree_basics (k : Int) :
    RBTree.init [] = Res.ok { root := none, nodes := [] } ∧
    RBTree.is_empty { root := none, nodes := [] } = true ∧
    RBTree.find_key { root := none, nodes := [] } k = Res.ok none :=
  ⟨rfl, rfl, rfl⟩

/-- Claim C8, counterexample: inserting 1, 2, 3 into an empty tree gives
root key 2, but the two children are both red, not both black. -/
theorem C8_children_are_red :
    obsR rootInfo (RBTree.init [1, 2, 3])
      = some (some (2, some Colour.red, some Colour.red)) ∧
    Colour.red ≠ Colour.black :=
  ⟨by decide, by decide⟩

/-- Claim C8, amended: inserting 1, 2, 3 into an empty tree produces a tree
whose root has key 2 and whose two children are both red. -/
theorem C8_insert_123_shape :
    obsR rootInfo (RBTree.init [1, 2, 3])
      = some (some (2, some Colour.red, some Colour.red)) := by
  decide

/-- Claim C1 (code bug): from the empty tree, insert 1, 2, 3, 4 (invariants
hold), then delete 1 — the located node is a childless black node, and after
the deletion the black-height invariant I3, hence the conjunction I1-I5,
fails. -/
theorem C1_delete_black_leaf_breaks_invariants :
    obsR invariantsB (RBTree.init [1, 2, 3, 4]) = some true ∧
    obsR invariantI3 ((RBTree.init [1, 2, 3, 4]).bind (fun t => t.delete 1))
      = some false ∧
    obsR invariantsB ((RBTree.init [1, 2, 3, 4]).bind (fun t => t.delete 1))
      = some false :=
  ⟨by decide, by decide, by decide⟩

/-- Claim C2 (code bug): on the valid tree built by inserting 1, 2, 3, 4,
the node located for key 1 is black and childless, yet `delete` returns
without ever invoking `_balance_after_delete` (the control-flow shadow
reports `false`), contrary to the claimed double-black fixup contract. -/
theorem C2_childless_black_delete_skips_fixup :
    obsR invariantsB (RBTree.init [1, 2, 3, 4]) = some true ∧
    obsR (fun t => (foundNodeEntry t 1).map (fun n => (n.colour, n.has_no_children)))
      (RBTree.init [1, 2, 3, 4]) = some (some (Colour.black, true)) ∧
    (RBTree.init [1, 2, 3, 4]).bind (fun t => t.delete_calls_fixup 1)
      = Res.ok false :=
  ⟨by decide, by decide, by decide⟩

/-- Claim C3 (code bug): on the valid tree built by inserting 1, 2, 4, 5,
the node holding 4 is a right son with exactly one (right) child; deleting 4
splices that child into the parent's *left* slot (source line 446), so the
node holding 4 is still reachable — indeed it ends up at the root — instead
of being replaced by its child in its own (right) slot. -/
theorem C3_one_child_splice_uses_wrong_slot :
    obsR invariantsB (RBTree.init [1, 2, 4, 5]) = some true ∧
    obsR (fun t => (foundNodeEntry t 4).map (fun n => (n.has_right_son, n.has_left_son)))
      (RBTree.init [1, 2, 4, 5]) = some (some (true, false)) ∧
    ((RBTree.init [1, 2, 4, 5]).bind (fun t =>
        match t.find_key 4 with
        | Res.ok (some i) => is_right_sonA t.nodes i
        | _ => Res.err))
      = Res.ok true ∧
    ((RBTree.init [1, 2, 4, 5]).bind (fun t => t.delete 4)).bind
        (fun t => t.find_key 4) = Res.ok (some 2) ∧
    obsR rootKeyO ((RBTree.init [1, 2, 4, 5]).bind (fun t => t.delete 4))
      = some (some 4) :=
  ⟨by decide, by decide, by decide, by decide, by decide⟩

/-- Claim C4 (code bug): on the valid tree built by inserting 0..14, the
node holding 7 (arena id 7) is red with two children; its in-order successor
is the black childless node holding 8, not a child of 7.  Deleting 7 copies
the successor's colour onto the located node (source line 480), turning it
from red to black — the claim says only the key is overwritten — and the
resulting tree violates the invariants. -/
theorem C4_two_children_delete_copies_colour :
    obsR invariantsB (RBTree.init [0, 1, 2, 3, 4, 5, 6, 7, 8, 9, 10, 11, 12, 13, 14])
      = some true ∧
    (RBTree.init [0, 1, 2, 3, 4, 5, 6, 7, 8, 9, 10, 11, 12, 13, 14]).bind
        (fun t => t.find_key 7) = Res.ok (some 7) ∧
    obsR (fun t => (getN t.nodes 7).map (fun n => (n.colour, n.has_two_children)))
        (RBTree.init [0, 1, 2, 3, 4, 5, 6, 7, 8, 9, 10, 11, 12, 13, 14])
      = some (some (Colour.red, true)) ∧
    (RBTree.init [0, 1, 2, 3, 4, 5, 6, 7, 8, 9, 10, 11, 12, 13, 14]).bind
        (fun t => RBTree._find_next_key t.nodes 7) = Res.ok 8 ∧
    obsR (fun t => (getN t.nodes 8).map (fun n => (n.colour, n.has_no_children, n.parent)))
        (RBTree.init [0, 1, 2, 3, 4, 5, 6, 7, 8, 9, 10, 11, 12, 13, 14])
      = some (some (Colour.black, true, some 9)) ∧
    obsR (fun t => (getN t.nodes 7).map NodeR.colour)
        ((RBTree.init [0, 1, 2, 3, 4, 5, 6, 7, 8, 9, 10, 11, 12, 13, 14]).bind
          (fun t => t.delete 7))
      = some (some Colour.black) ∧
    obsR invariantsB
        ((RBTree.init [0, 1, 2, 3, 4, 5, 6, 7, 8, 9, 10, 11, 12, 13, 14]).bind
          (fun t => t.delete 7))
      = some false :=
  ⟨by decide, by decide, by decide, by decide, by decide, by decide, by decide⟩

/-- Claim C5 (code bug): after inserting 1, 2, 4, 5 (key 1 is present and
findable) and deleting the unrelated key 4, `find_key 1` reports absence
even though 1 was inserted and never deleted — the wrong-slot splice of
`delete` disconnected it. -/
theorem C5_find_loses_inserted_key_after_delete :
    obsR invariantsB (RBTree.init [1, 2, 4, 5]) = some true ∧
    (RBTree.init [1, 2, 4, 5]).bind (fun t => t.find_key 1) = Res.ok (some 0) ∧
    ((RBTree.init [1, 2, 4, 5]).bind (fun t => t.delete 4)).bind
        (fun t => t.find_key 1) = Res.ok none :=
  ⟨by decide, by decide, by decide⟩

/-- Claim C6: for every tree and key on which `find_key` reports absence,
`delete` is a no-op returning the tree unchanged (structure, keys and
colours identical), and hence deleting the same absent key twice leaves the
tree unchanged both times. -/
theorem C6_delete_absent_is_noop (t : RBTree) (k : Int)
    (h : t.find_key k = Res.ok none) :
    t.delete k = Res.ok t ∧
    (t.delete k).bind (fun t2 => t2.delete k) = Res.ok t := by
  have h1 : t.delete k = Res.ok t := by
    unfold RBTree.delete
    rw [h]
    rfl
  refine ⟨h1, ?_⟩
  rw [h1]
  exact h1

/-- Witness for C6 at a concrete input: key 5 is absent from the one-node
tree, so deleting it (twice) leaves the tree untouched. -/
theorem C6_witness :
    RBTree.find_key tree1 5 = Res.ok none ∧
    (RBTree.delete tree1 5 = Res.ok tree1 ∧
     (RBTree.delete tree1 5).bind (fun t2 => t2.delete 5) = Res.ok tree1) :=
  ⟨by decide, C6_delete_absent_is_noop tree1 5 (by decide)⟩

/-! ### Arena access lemmas -/

theorem getN_setN_ne (m : Arena) (i u : Nat) (v : NodeR) (h : u ≠ i) :
    getN (setN m i v) u = getN m u := by
  induction m with
  | nil => rfl
  | cons hd tl ih =>
      obtain ⟨j, n⟩ := hd
      simp only [setN]
      by_cases hji : j = i
      · have hiu : ¬ (i = u) := fun hc => h hc.symm
        simp [hji, getN, hiu, ih]
      · by_cases hju : j = u
        · simp [hji, hju, getN, h]
        · simp [hji, hju, getN, ih]

theorem getN_setN_self (m : Arena) (i : Nat) (v : NodeR)
    (h : (getN m i).isSome) : getN (setN m i v) i = some v := by
  induction m with
  | nil => simp [getN] at h
  | cons hd tl ih =>
      obtain ⟨j, n⟩ := hd
      simp only [setN]
      by_cases hji : j = i
      · simp [hji, getN]
      · simp only [getN, hji, if_neg] at h
        simp [hji, getN, ih h]

theorem getN_updF_ne (m : Arena) (i u : Nat) (f : NodeR → NodeR) (h : u ≠ i) :
    getN (updF m i f) u = getN m u := by
  unfold updF
  cases hg : getN m i with
  | none => rfl
  | some n => exact getN_setN_ne m i u (f n) h

theorem getN_updF_self (m : Arena) (i : Nat) (f : NodeR → NodeR) (n : NodeR)
    (h : getN m i = some n) : getN (updF m i f) i = some (f n) := by
  unfold updF
  rw [h]
  exact getN_setN_self m i (f n) (by simp [h])

theorem setN_length (m : Arena) (i : Nat) (v : NodeR) :
    (setN m i v).length = m.length := by
  induction m with
  | nil => rfl
  | cons hd tl ih =>
      obtain ⟨j, n⟩ := hd
      by_cases hji : j = i <;> simp [setN, hji, ih]

theorem updF_length (m : Arena) (i : Nat) (f : NodeR → NodeR) :
    (updF m i f).length = m.length := by
  unfold updF
  cases hg : getN m i with
  | none => rfl
  | some n => exact setN_length m i (f n)

/-! ### Traversal lemmas -/

theorem withinB_none (m : Arena) (f : Nat) : withinB m f none = true := by
  cases f <;> rfl

theorem withinB_mono (m : Arena) :
    ∀ (f g : Nat) (r : Option Nat), withinB m f r = true → f ≤ g →
      withinB m g r = true := by
  intro f
  induction f with
  | zero =>
      intro g r hw _
      cases r with
      | none => exact withinB_none m g
      | some i => simp [withinB] at hw
  | succ f ih =>
      intro g r hw hle
      cases r with
      | none => exact withinB_none m g
      | some i =>
          obtain ⟨g', rfl⟩ : ∃ g', g = g' + 1 := ⟨g - 1, by omega⟩
          simp only [withinB] at hw ⊢
          cases hg : getN m i with
          | none => rw [hg] at hw; simp at hw
          | some n =>
              rw [hg] at hw
              simp only [Bool.and_eq_true] at hw ⊢
              exact ⟨ih g' n.left_node hw.1 (by omega), ih g' n.right_node hw.2 (by omega)⟩

theorem inorderAux_mono (m : Arena) :
    ∀ (f g : Nat) (r : Option Nat), withinB m f r = true → f ≤ g →
      inorderAux m g r = inorderAux m f r := by
  intro f
  induction f with
  | zero =>
      intro g r hw _
      cases r with
      | none => cases g <;> rfl
      | some i => simp [withinB] at hw
  | succ f ih =>
      intro g r hw hle
      cases r with
      | none => cases g <;> rfl
      | some i =>
          obtain ⟨g', rfl⟩ : ∃ g', g = g' + 1 := ⟨g - 1, by omega⟩
          simp only [withinB] at hw
          cases hg : getN m i with
          | none => rw [hg] at hw; simp at hw
          | some n =>
              rw [hg] at hw
              simp only [Bool.and_eq_true] at hw
              simp only [inorderAux, hg]
              rw [ih g' n.left_node hw.1 (by omega), ih g' n.right_node hw.2 (by omega)]

theorem idsAux_mono (m : Arena) :
    ∀ (f g : Nat) (r : Option Nat), withinB m f r = true → f ≤ g →
      idsAux m g r = idsAux m f r := by
  intro f
  induction f with
  | zero =>
      intro g r hw _
      cases r with
      | none => cases g <;> rfl
      | some i => simp [withinB] at hw
  | succ f ih =>
      intro g r hw hle
      cases r with
      | none => cases g <;> rfl
      | some i =>
          obtain ⟨g', rfl⟩ : ∃ g', g = g' + 1 := ⟨g - 1, by omega⟩
          simp only [withinB] at hw
          cases hg : getN m i with
          | none => rw [hg] at hw; simp at hw
          | some n =>
              rw [hg] at hw
              simp only [Bool.and_eq_true] at hw
              simp only [idsAux, hg]
              rw [ih g' n.left_node hw.1 (by omega), ih g' n.right_node hw.2 (by omega)]

theorem head_mem_ids (m : Arena) (f : Nat) (i : Nat) :
    i ∈ idsAux m (f + 1) (some i) := by
  simp only [idsAux]
  cases hg : getN m i with
  | none => simp
  | some n => simp

theorem mem_ids_left (m : Arena) (f : Nat) (i j : Nat) (n : NodeR)
    (hg : getN m i = some n) (hj : j ∈ idsAux m f n.left_node) :
    j ∈ idsAux m (f + 1) (some i) := by
  simp only [idsAux, hg]
  simp [hj]

theorem mem_ids_right (m : Arena) (f : Nat) (i j : Nat) (n : NodeR)
    (hg : getN m i = some n) (hj : j ∈ idsAux m f n.right_node) :
    j ∈ idsAux m (f + 1) (some i) := by
  simp only [idsAux, hg]
  simp [hj]

theorem mem_ids_elim (m : Arena) (f : Nat) (i j : Nat) (n : NodeR)
    (hg : getN m i = some n) (hj : j ∈ idsAux m (f + 1) (some i)) :
    j = i ∨ j ∈ idsAux m f n.left_node ∨ j ∈ idsAux m f n.right_node := by
  simp only [idsAux, hg] at hj
  simpa using hj

theorem shapeOf_fields {n n2 : NodeR} (h : shapeOf n2 = shapeOf n) :
    n2.key = n.key ∧ n2.left_node = n.left_node ∧ n2.right_node = n.right_node := by
  unfold shapeOf at h
  exact ⟨congrArg Prod.fst h, congrArg (fun p => p.2.1) h, congrArg (fun p => p.2.2) h⟩

/-- Traversals only look at keys and child slots, so two arenas that agree
in shape on every identifier the traversal visits produce identical
traversals. -/
theorem traversal_congr (m m2 : Arena) :
    ∀ (f : Nat) (r : Option Nat),
      (∀ j, j ∈ idsAux m f r → sameShape m m2 j) →
      inorderAux m2 f r = inorderAux m f r ∧ idsAux m2 f r = idsAux m f r ∧
        withinB m2 f r = withinB m f r := by
  intro f
  induction f with
  | zero =>
      intro r _
      cases r <;> exact ⟨rfl, rfl, rfl⟩
  | succ f ih =>
      intro r h
      cases r with
      | none => exact ⟨rfl, rfl, rfl⟩
      | some i =>
          have hs : sameShape m m2 i := h i (head_mem_ids m f i)
          unfold sameShape at hs
          cases hg : getN m i with
          | none =>
              rw [hg] at hs
              have hg2 : getN m2 i = none := by
                cases hg2 : getN m2 i with
                | none => rfl
                | some n2 => rw [hg2] at hs; simp at hs
              simp [inorderAux, idsAux, withinB, hg, hg2]
          | some n =>
              rw [hg] at hs
              obtain ⟨n2, hg2, hsh⟩ : ∃ n2, getN m2 i = some n2 ∧ shapeOf n2 = shapeOf n := by
                cases hg2 : getN m2 i with
                | none => rw [hg2] at hs; simp at hs
                | some n2 =>
                    rw [hg2] at hs
                    simp at hs
                    exact ⟨n2, rfl, hs⟩
              obtain ⟨hkey, hleft, hright⟩ := shapeOf_fields hsh
              have hL := ih n.left_node (fun j hj => h j (mem_ids_left m f i j n hg hj))
              have hR := ih n.right_node (fun j hj => h j (mem_ids_right m f i j n hg hj))
              refine ⟨?_, ?_, ?_⟩
              · simp only [inorderAux, hg, hg2, hkey, hleft, hright, hL.1, hR.1]
              · simp only [idsAux, hg, hg2, hleft, hright, hL.2.1, hR.2.1]
              · simp only [withinB, hg, hg2, hleft, hright, hL.2.2, hR.2.2]

theorem within_fuel_pos (m : Arena) (f : Nat) (i : Nat)
    (hw : withinB m f (some i) = true) : f ≠ 0 := by
  intro hf
  subst hf
  simp [withinB] at hw

theorem within_getN_some (m : Arena) (f : Nat) (i : Nat)
    (hw : withinB m (f + 1) (some i) = true) : ∃ n, getN m i = some n := by
  simp only [withinB] at hw
  cases hg : getN m i with
  | none => rw [hg] at hw; simp at hw
  | some n => exact ⟨n, rfl⟩

theorem within_children (m : Arena) (f : Nat) (i : Nat) (n : NodeR)
    (hw : withinB m (f + 1) (some i) = true) (hg : getN m i = some n) :
    withinB m f n.left_node = true ∧ withinB m f n.right_node = true := by
  simp only [withinB] at hw
  rw [hg] at hw
  simpa using hw

theorem child_left_mem_ids (m : Arena) (f : Nat) (i c : Nat) (n : NodeR)
    (hw : withinB m (f + 1) (some i) = true) (hg : getN m i = some n)
    (hc : n.left_node = some c) : c ∈ idsAux m (f + 1) (some i) := by
  have hwc := (within_children m f i n hw hg).1
  rw [hc] at hwc
  obtain ⟨f', rfl⟩ : ∃ f', f = f' + 1 :=
    ⟨f - 1, by have := within_fuel_pos m f c hwc; omega⟩
  exact mem_ids_left m (f' + 1) i c n hg (by rw [hc]; exact head_mem_ids m f' c)

theorem child_right_mem_ids (m : Arena) (f : Nat) (i c : Nat) (n : NodeR)
    (hw : withinB m (f + 1) (some i) = true) (hg : getN m i = some n)
    (hc : n.right_node = some c) : c ∈ idsAux m (f + 1) (some i) := by
  have hwc := (within_children m f i n hw hg).2
  rw [hc] at hwc
  obtain ⟨f', rfl⟩ : ∃ f', f = f' + 1 :=
    ⟨f - 1, by have := within_fuel_pos m f c hwc; omega⟩
  exact mem_ids_right m (f' + 1) i c n hg (by rw [hc]; exact head_mem_ids m f' c)

theorem ids_present (m : Arena) :
    ∀ (f : Nat) (r : Option Nat) (j : Nat), withinB m f r = true →
      j ∈ idsAux m f r → ∃ n, getN m j = some n := by
  intro f
  induction f with
  | zero =>
      intro r j hw hj
      cases r with
      | none => simp [idsAux] at hj
      | some i => simp [withinB] at hw
  | succ f ih =>
      intro r j hw hj
      cases r with
      | none => simp [idsAux] at hj
      | some i =>
          obtain ⟨n, hg⟩ := within_getN_some m f i hw
          have hch := within_children m f i n hw hg
          rcases mem_ids_elim m f i j n hg hj with rfl | hjl | hjr
          · exact ⟨n, hg⟩
          · exact ih n.left_node j hch.1 hjl
          · exact ih n.right_node j hch.2 hjr

/-- Membership in a traversal propagates to stored children: if `x` is
visited and has stored child `c`, then `c` is visited as well. -/
theorem descendant_mem_ids (m : Arena) :
    ∀ (f : Nat) (r : Option Nat) (x c : Nat) (nx : NodeR),
      withinB m f r = true → x ∈ idsAux m f r → getN m x = some nx →
      (nx.left_node = some c ∨ nx.right_node = some c) →
      c ∈ idsAux m f r := by
  intro f
  induction f with
  | zero =>
      intro r x c nx hw hx _ _
      cases r with
      | none => simp [idsAux] at hx
      | some i => simp [withinB] at hw
  | succ f ih =>
      intro r x c nx hw hx hgx hc
      cases r with
      | none => simp [idsAux] at hx
      | some i =>
          obtain ⟨n, hg⟩ := within_getN_some m f i hw
          have hch := within_children m f i n hw hg
          rcases mem_ids_elim m f i x n hg hx with rfl | hxl | hxr
          · rw [hg] at hgx
            cases hgx
            rcases hc with hc | hc
            · exact child_left_mem_ids m f x c nx hw hg hc
            · exact child_right_mem_ids m f x c nx hw hg hc
          · exact mem_ids_left m f i c n hg (ih n.left_node x c nx hch.1 hxl hgx hc)
          · exact mem_ids_right m f i c n hg (ih n.right_node x c nx hch.2 hxr hgx hc)

/-- The traversal of a visited node's subtree is a sublist of the whole
traversal (with a possibly smaller fuel). -/
theorem sub_ids_sublist (m : Arena) :
    ∀ (f : Nat) (r : Option Nat) (x : Nat),
      withinB m f r = true → x ∈ idsAux m f r →
      ∃ g, g ≤ f ∧ withinB m g (some x) = true ∧
        (idsAux m g (some x)).Sublist (idsAux m f r) := by
  intro f
  induction f with
  | zero =>
      intro r x hw hx
      cases r with
      | none => simp [idsAux] at hx
      | some i => simp [withinB] at hw
  | succ f ih =>
      intro r x hw hx
      cases r with
      | none => simp [idsAux] at hx
      | some i =>
          obtain ⟨n, hg⟩ := within_getN_some m f i hw
          have hch := within_children m f i n hw hg
          rcases mem_ids_elim m f i x n hg hx with rfl | hxl | hxr
          · exact ⟨f + 1, le_refl _, hw, List.Sublist.refl _⟩
          · obtain ⟨g, hgle, hgw, hsub⟩ := ih n.left_node x hch.1 hxl
            refine ⟨g, by omega, hgw, ?_⟩
            simp only [idsAux, hg]
            exact (hsub.trans (List.sublist_append_left _ _)).cons _
          · obtain ⟨g, hgle, hgw, hsub⟩ := ih n.right_node x hch.2 hxr
            refine ⟨g, by omega, hgw, ?_⟩
            simp only [idsAux, hg]
            exact (hsub.trans (List.sublist_append_right _ _)).cons _

theorem parentOk_elim (m : Arena) (f : Nat) (i : Nat) (n : NodeR)
    (hp : parentOkB m (f + 1) (some i) = true) (hg : getN m i = some n) :
    (∀ c, n.left_node = some c → ∃ cn, getN m c = some cn ∧ cn.parent = some i) ∧
    (∀ c, n.right_node = some c → ∃ cn, getN m c = some cn ∧ cn.parent = some i) ∧
    parentOkB m f n.left_node = true ∧ parentOkB m f n.right_node = true := by
  simp only [parentOkB] at hp
  rw [hg] at hp
  simp only [Bool.and_eq_true] at hp
  obtain ⟨⟨⟨hl, hr⟩, hrl⟩, hrr⟩ := hp
  refine ⟨?_, ?_, hrl, hrr⟩
  · intro c hc
    rw [hc] at hl
    cases hgc : getN m c with
    | none => simp [hgc] at hl
    | some cn =>
        simp only [hgc, beq_iff_eq] at hl
        exact ⟨cn, rfl, hl⟩
  · intro c hc
    rw [hc] at hr
    cases hgc : getN m c with
    | none => simp [hgc] at hr
    | some cn =>
        simp only [hgc, beq_iff_eq] at hr
        exact ⟨cn, rfl, hr⟩

theorem idsAux_none (m : Arena) (f : Nat) : idsAux m f none = [] := by
  cases f <;> rfl

/-- In a parent-consistent traversal, every visited node other than the
subtree root has a visited parent holding it in one of its child slots, and
its back-reference points there. -/
theorem find_parent (m : Arena) :
    ∀ (f : Nat) (r : Option Nat) (x : Nat) (nx : NodeR),
      withinB m f r = true → parentOkB m f r = true → x ∈ idsAux m f r →
      r ≠ some x → getN m x = some nx →
      ∃ q nq, getN m q = some nq ∧ nx.parent = some q ∧ q ∈ idsAux m f r ∧
        (nq.left_node = some x ∨ nq.right_node = some x) := by
  intro f
  induction f with
  | zero =>
      intro r x nx hw _ hx _ _
      cases r with
      | none => simp [idsAux] at hx
      | some i => simp [withinB] at hw
  | succ f ih =>
      intro r x nx hw hp hx hr hgx
      cases r with
      | none => simp [idsAux] at hx
      | some i =>
          obtain ⟨n, hg⟩ := within_getN_some m f i hw
          have hch := within_children m f i n hw hg
          have hpe := parentOk_elim m f i n hp hg
          have hine : x ≠ i := fun hc => hr (by rw [hc])
          rcases mem_ids_elim m f i x n hg hx with rfl | hxl | hxr
          · exact absurd rfl hine
          · -- x is in the left subtree
            cases hcl : n.left_node with
            | none => rw [hcl, idsAux_none] at hxl; simp at hxl
            | some l =>
                by_cases hlx : l = x
                · subst hlx
                  obtain ⟨cn, hgc, hcp⟩ := hpe.1 l hcl
                  rw [hgx] at hgc
                  cases hgc
                  exact ⟨i, n, hg, hcp, head_mem_ids m f i, Or.inl hcl⟩
                · rw [hcl] at hxl
                  have hrne : (some l : Option Nat) ≠ some x :=
                    fun hcc => hlx (Option.some.inj hcc)
                  obtain ⟨q, nq, hq, hqp, hqm, hslot⟩ :=
                    ih (some l) x nx (by rw [← hcl]; exact hch.1)
                      (by have := hpe.2.2.1; rw [hcl] at this; exact this)
                      hxl hrne hgx
                  exact ⟨q, nq, hq, hqp,
                    mem_ids_left m f i q n hg (by rw [hcl]; exact hqm), hslot⟩
          · cases hcr : n.right_node with
            | none => rw [hcr, idsAux_none] at hxr; simp at hxr
            | some c =>
                by_cases hcx : c = x
                · subst hcx
                  obtain ⟨cn, hgc, hcp⟩ := hpe.2.1 c hcr
                  rw [hgx] at hgc
                  cases hgc
                  exact ⟨i, n, hg, hcp, head_mem_ids m f i, Or.inr hcr⟩
                · rw [hcr] at hxr
                  have hrne : (some c : Option Nat) ≠ some x :=
                    fun hcc => hcx (Option.some.inj hcc)
                  obtain ⟨q, nq, hq, hqp, hqm, hslot⟩ :=
                    ih (some c) x nx (by rw [← hcr]; exact hch.2)
                      (by have := hpe.2.2.2; rw [hcr] at this; exact this)
                      hxr hrne hgx
                  exact ⟨q, nq, hq, hqp,
                    mem_ids_right m f i q n hg (by rw [hcr]; exact hqm), hslot⟩

/-! ### Symbolic execution of the rotation primitives

`left_rotate_exec` runs `_left_rotate` on a node `x` with right child `y`
whose referenced neighbours are stored and pairwise distinct, and
characterises every entry of the resulting arena. -/

theorem left_rotate_exec (t : RBTree) (x y : Nat) (nx ny : NodeR)
    (hgx : getN t.nodes x = some nx) (hxy : nx.right_node = some y)
    (hgy : getN t.nodes y = some ny) (hyx : y ≠ x)
    (hbb : ∀ bb, ny.left_node = some bb → ∃ nb, getN t.nodes bb = some nb ∧ bb ≠ x ∧ bb ≠ y)
    (hqq : ∀ q, nx.parent = some q → ∃ nq, getN t.nodes q = some nq ∧ q ≠ x ∧ q ≠ y ∧
        ∀ bb, ny.left_node = some bb → q ≠ bb) :
    ∃ m6, RBTree._left_rotate t x =
        Res.ok { root := (match nx.parent with | none => some y | some _ => t.root),
                 nodes := m6 } ∧
      getN m6 x = some { nx with right_node := ny.left_node, parent := some y } ∧
      getN m6 y = some { ny with left_node := some x, parent := nx.parent } ∧
      (∀ bb nb, ny.left_node = some bb → getN t.nodes bb = some nb →
          getN m6 bb = some { nb with parent := some x }) ∧
      (∀ q nq, nx.parent = some q → getN t.nodes q = some nq →
          getN m6 q = some (if nq.left_node = some x then { nq with left_node := some y }
            else { nq with right_node := some y })) ∧
      (∀ j, j ≠ x → j ≠ y → (∀ bb, ny.left_node = some bb → j ≠ bb) →
          (∀ q, nx.parent = some q → j ≠ q) → getN m6 j = getN t.nodes j) ∧
      m6.length = t.nodes.length := by
  have hxy' : x ≠ y := fun hc => hyx hc.symm
  cases hbc : ny.left_node with
  | none =>
      unfold RBTree._left_rotate
      simp only [derefA, hgx, hxy, hgy, bind, Res.bind, hbc]
      set m1 := updF t.nodes x fun n => { n with right_node := (none : Option Nat) } with hm1
      have h1x : getN m1 x = some { nx with right_node := none } := by
        rw [hm1]
        exact getN_updF_self _ _ _ _ hgx
      have h1y : getN m1 y = some ny := by
        rw [hm1, getN_updF_ne _ _ _ _ hyx]
        exact hgy
      simp only [h1y, h1x, hbc]
      set m3 := updF m1 y fun yn => { yn with parent := nx.parent } with hm3
      have h3x : getN m3 x = some { nx with right_node := none } := by
        rw [hm3, getN_updF_ne _ _ _ _ hxy']
        exact h1x
      have h3y : getN m3 y = some { ny with parent := nx.parent } := by
        rw [hm3]
        exact getN_updF_self _ _ _ _ h1y
      simp only [h3x]
      cases hpc : nx.parent with
      | none =>
          rw [hpc] at h3y
          refine ⟨_, rfl, ?_, ?_, ?_, ?_, ?_, ?_⟩
          · have h5x : getN (updF m3 y fun yn => { yn with left_node := some x }) x
                = some { nx with right_node := none } := by
              rw [getN_updF_ne _ _ _ _ hxy']
              exact h3x
            rw [getN_updF_self _ _ _ _ h5x]
          · rw [getN_updF_ne _ _ _ _ hyx, getN_updF_self _ _ _ _ h3y]
          · exact fun bb nb h => Option.noConfusion h
          · exact fun q nq h => Option.noConfusion h
          · intro j hjx hjy _ _
            rw [getN_updF_ne _ _ _ _ hjx, getN_updF_ne _ _ _ _ hjy, hm3,
              getN_updF_ne _ _ _ _ hjy, hm1, getN_updF_ne _ _ _ _ hjx]
          · simp [updF_length, hm3, hm1]
      | some q =>
          obtain ⟨nq, hgq, hqx, hqy, _⟩ := hqq q hpc
          rw [hpc] at h3y
          have h3q : getN m3 q = some nq := by
            rw [hm3, getN_updF_ne _ _ _ _ hqy, hm1, getN_updF_ne _ _ _ _ hqx]
            exact hgq
          have hils : is_left_sonA m3 x
              = Res.ok (nq.left_node.isSome && (nq.left_node == some x)) := by
            unfold is_left_sonA
            simp only [derefA, h3x, bind, Res.bind, hpc, h3q, pure]
          simp only [hils, bind, Res.bind]
          by_cases hsl : nq.left_node = some x
          · have hcond : (nq.left_node.isSome && (nq.left_node == some x)) = true := by
              simp [hsl]
            simp only [hcond, if_true]
            set m4 := updF m3 q fun pn => { pn with left_node := some y } with hm4
            have h4x : getN m4 x = some { nx with right_node := none } := by
              rw [hm4, getN_updF_ne _ _ _ _ hqx.symm]
              exact h3x
            have h4y : getN m4 y = some { ny with parent := some q } := by
              rw [hm4, getN_updF_ne _ _ _ _ hqy.symm]
              exact h3y
            have h4q : getN m4 q = some { nq with left_node := some y } := by
              rw [hm4]
              exact getN_updF_self _ _ _ _ h3q
            refine ⟨_, rfl, ?_, ?_, ?_, ?_, ?_, ?_⟩
            · have h5x : getN (updF m4 y fun yn => { yn with left_node := some x }) x
                  = some { nx with right_node := none } := by
                rw [getN_updF_ne _ _ _ _ hxy']
                exact h4x
              rw [getN_updF_self _ _ _ _ h5x]
            · rw [getN_updF_ne _ _ _ _ hyx, getN_updF_self _ _ _ _ h4y]
            · exact fun bb nb h => Option.noConfusion h
            · intro q1 nq1 hq1 hgq1
              cases Option.some.inj hq1
              rw [hgq] at hgq1
              cases Option.some.inj hgq1
              rw [getN_updF_ne _ _ _ _ hqx, getN_updF_ne _ _ _ _ hqy, h4q, if_pos hsl]
            · intro j hjx hjy _ hjq
              have hjq' : j ≠ q := hjq q rfl
              rw [getN_updF_ne _ _ _ _ hjx, getN_updF_ne _ _ _ _ hjy, hm4,
                getN_updF_ne _ _ _ _ hjq', hm3, getN_updF_ne _ _ _ _ hjy, hm1,
                getN_updF_ne _ _ _ _ hjx]
            · simp [updF_length, hm4, hm3, hm1]
          · have hcond : (nq.left_node.isSome && (nq.left_node == some x)) = false := by
              cases hno : nq.left_node with
              | none => rfl
              | some z =>
                  rw [hno] at hsl
                  simp only [Option.isSome_some, Bool.true_and]
                  exact beq_eq_false_iff_ne.mpr hsl
            simp only [hcond, Bool.false_eq_true, if_false]
            set m4 := updF m3 q fun pn => { pn with right_node := some y } with hm4
            have h4x : getN m4 x = some { nx with right_node := none } := by
              rw [hm4, getN_updF_ne _ _ _ _ hqx.symm]
              exact h3x
            have h4y : getN m4 y = some { ny with parent := some q } := by
              rw [hm4, getN_updF_ne _ _ _ _ hqy.symm]
              exact h3y
            have h4q : getN m4 q = some { nq with right_node := some y } := by
              rw [hm4]
              exact getN_updF_self _ _ _ _ h3q
            refine ⟨_, rfl, ?_, ?_, ?_, ?_, ?_, ?_⟩
            · have h5x : getN (updF m4 y fun yn => { yn with left_node := some x }) x
                  = some { nx with right_node := none } := by
                rw [getN_updF_ne _ _ _ _ hxy']
                exact h4x
              rw [getN_updF_self _ _ _ _ h5x]
            · rw [getN_updF_ne _ _ _ _ hyx, getN_updF_self _ _ _ _ h4y]
            · exact fun bb nb h => Option.noConfusion h
            · intro q1 nq1 hq1 hgq1
              cases Option.some.inj hq1
              rw [hgq] at hgq1
              cases Option.some.inj hgq1
              rw [getN_updF_ne _ _ _ _ hqx, getN_updF_ne _ _ _ _ hqy, h4q, if_neg hsl]
            · intro j hjx hjy _ hjq
              have hjq' : j ≠ q := hjq q rfl
              rw [getN_updF_ne _ _ _ _ hjx, getN_updF_ne _ _ _ _ hjy, hm4,
                getN_updF_ne _ _ _ _ hjq', hm3, getN_updF_ne _ _ _ _ hjy, hm1,
                getN_updF_ne _ _ _ _ hjx]
            · simp [updF_length, hm4, hm3, hm1]
  | some bb =>
      obtain ⟨nb, hgb, hbx, hby⟩ := hbb bb hbc
      unfold RBTree._left_rotate
      simp only [derefA, hgx, hxy, hgy, bind, Res.bind, hbc]
      set m1 := updF t.nodes x fun n => { n with right_node := some bb } with hm1
      have h1x : getN m1 x = some { nx with right_node := some bb } := by
        rw [hm1]
        exact getN_updF_self _ _ _ _ hgx
      have h1y : getN m1 y = some ny := by
        rw [hm1, getN_updF_ne _ _ _ _ hyx]
        exact hgy
      have h1b : getN m1 bb = some nb := by
        rw [hm1, getN_updF_ne _ _ _ _ hbx]
        exact hgb
      simp only [h1y, hbc]
      set m2 := updF m1 bb fun bn => { bn with parent := some x } with hm2
      have h2x : getN m2 x = some { nx with right_node := some bb } := by
        rw [hm2, getN_updF_ne _ _ _ _ hbx.symm]
        exact h1x
      have h2y : getN m2 y = some ny := by
        rw [hm2, getN_updF_ne _ _ _ _ hby.symm]
        exact h1y
      have h2b : getN m2 bb = some { nb with parent := some x } := by
        rw [hm2]
        exact getN_updF_self _ _ _ _ h1b
      simp only [h2x]
      set m3 := updF m2 y fun yn => { yn with parent := nx.parent } with hm3
      have h3x : getN m3 x = some { nx with right_node := some bb } := by
        rw [hm3, getN_updF_ne _ _ _ _ hxy']
        exact h2x
      have h3y : getN m3 y = some { ny with parent := nx.parent } := by
        rw [hm3]
        exact getN_updF_self _ _ _ _ h2y
      have h3b : getN m3 bb = some { nb with parent := some x } := by
        rw [hm3, getN_updF_ne _ _ _ _ hby]
        exact h2b
      simp only [h3x]
      cases hpc : nx.parent with
      | none =>
          rw [hpc] at h3y
          refine ⟨_, rfl, ?_, ?_, ?_, ?_, ?_, ?_⟩
          · have h5x : getN (updF m3 y fun yn => { yn with left_node := some x }) x
                = some { nx with right_node := some bb } := by
              rw [getN_updF_ne _ _ _ _ hxy']
              exact h3x
            rw [getN_updF_self _ _ _ _ h5x]
          · rw [getN_updF_ne _ _ _ _ hyx, getN_updF_self _ _ _ _ h3y]
          · intro bb1 nb1 hb1 hgb1
            cases Option.some.inj hb1
            rw [hgb] at hgb1
            cases Option.some.inj hgb1
            rw [getN_updF_ne _ _ _ _ hbx, getN_updF_ne _ _ _ _ hby, h3b]
          · exact fun q nq h => Option.noConfusion h
          · intro j hjx hjy hjb _
            have hjb' : j ≠ bb := hjb bb rfl
            rw [getN_updF_ne _ _ _ _ hjx, getN_updF_ne _ _ _ _ hjy, hm3,
              getN_updF_ne _ _ _ _ hjy, hm2, getN_updF_ne _ _ _ _ hjb', hm1,
              getN_updF_ne _ _ _ _ hjx]
          · simp [updF_length, hm3, hm2, hm1]
      | some q =>
          obtain ⟨nq, hgq, hqx, hqy, hqb0⟩ := hqq q hpc
          have hqb : q ≠ bb := hqb0 bb hbc
          rw [hpc] at h3y
          have h3q : getN m3 q = some nq := by
            rw [hm3, getN_updF_ne _ _ _ _ hqy, hm2, getN_updF_ne _ _ _ _ hqb, hm1,
              getN_updF_ne _ _ _ _ hqx]
            exact hgq
          have hils : is_left_sonA m3 x
              = Res.ok (nq.left_node.isSome && (nq.left_node == some x)) := by
            unfold is_left_sonA
            simp only [derefA, h3x, bind, Res.bind, hpc, h3q, pure]
          simp only [hils, bind, Res.bind]
          by_cases hsl : nq.left_node = some x
          · have hcond : (nq.left_node.isSome && (nq.left_node == some x)) = true := by
              simp [hsl]
            simp only [hcond, if_true]
            set m4 := updF m3 q fun pn => { pn with left_node := some y } with hm4
            have h4x : getN m4 x = some { nx with right_node := some bb } := by
              rw [hm4, getN_updF_ne _ _ _ _ hqx.symm]
              exact h3x
            have h4y : getN m4 y = some { ny with parent := some q } := by
              rw [hm4, getN_updF_ne _ _ _ _ hqy.symm]
              exact h3y
            have h4b : getN m4 bb = some { nb with parent := some x } := by
              rw [hm4, getN_updF_ne _ _ _ _ hqb.symm]
              exact h3b
            have h4q : getN m4 q = some { nq with left_node := some y } := by
              rw [hm4]
              exact getN_updF_self _ _ _ _ h3q
            refine ⟨_, rfl, ?_, ?_, ?_, ?_, ?_, ?_⟩
            · have h5x : getN (updF m4 y fun yn => { yn with left_node := some x }) x
                  = some { nx with right_node := some bb } := by
                rw [getN_updF_ne _ _ _ _ hxy']
                exact h4x
              rw [getN_updF_self _ _ _ _ h5x]
            · rw [getN_updF_ne _ _ _ _ hyx, getN_updF_self _ _ _ _ h4y]
            · intro bb1 nb1 hb1 hgb1
              cases Option.some.inj hb1
              rw [hgb] at hgb1
              cases Option.some.inj hgb1
              rw [getN_updF_ne _ _ _ _ hbx, getN_updF_ne _ _ _ _ hby, h4b]
            · intro q1 nq1 hq1 hgq1
              cases Option.some.inj hq1
              rw [hgq] at hgq1
              cases Option.some.inj hgq1
              rw [getN_updF_ne _ _ _ _ hqx, getN_updF_ne _ _ _ _ hqy, h4q, if_pos hsl]
            · intro j hjx hjy hjb hjq
              have hjb' : j ≠ bb := hjb bb rfl
              have hjq' : j ≠ q := hjq q rfl
              rw [getN_updF_ne _ _ _ _ hjx, getN_updF_ne _ _ _ _ hjy, hm4,
                getN_updF_ne _ _ _ _ hjq', hm3, getN_updF_ne _ _ _ _ hjy, hm2,
                getN_updF_ne _ _ _ _ hjb', hm1, getN_updF_ne _ _ _ _ hjx]
            · simp [updF_length, hm4, hm3, hm2, hm1]
          · have hcond : (nq.left_node.isSome && (nq.left_node == some x)) = false := by
              cases hno : nq.left_node with
              | none => rfl
              | some z =>
                  rw [hno] at hsl
                  simp only [Option.isSome_some, Bool.true_and]
                  exact beq_eq_false_iff_ne.mpr hsl
            simp only [hcond, Bool.false_eq_true, if_false]
            set m4 := updF m3 q fun pn => { pn with right_node := some y } with hm4
            have h4x : getN m4 x = some { nx with right_node := some bb } := by
              rw [hm4, getN_updF_ne _ _ _ _ hqx.symm]
              exact h3x
            have h4y : getN m4 y = some { ny with parent := some q } := by
              rw [hm4, getN_updF_ne _ _ _ _ hqy.symm]
              exact h3y
            have h4b : getN m4 bb = some { nb with parent := some x } := by
              rw [hm4, getN_updF_ne _ _ _ _ hqb.symm]
              exact h3b
            have h4q : getN m4 q = some { nq with right_node := some y } := by
              rw [hm4]
              exact getN_updF_self _ _ _ _ h3q
            refine ⟨_, rfl, ?_, ?_, ?_, ?_, ?_, ?_⟩
            · have h5x : getN (updF m4 y fun yn => { yn with left_node := some x }) x
                  = some { nx with right_node := some bb } := by
                rw [getN_updF_ne _ _ _ _ hxy']
                exact h4x
              rw [getN_updF_self _ _ _ _ h5x]
            · rw [getN_updF_ne _ _ _ _ hyx, getN_updF_self _ _ _ _ h4y]
            · intro bb1 nb1 hb1 hgb1
              cases Option.some.inj hb1
              rw [hgb] at hgb1
              cases Option.some.inj hgb1
              rw [getN_updF_ne _ _ _ _ hbx, getN_updF_ne _ _ _ _ hby, h4b]
            · intro q1 nq1 hq1 hgq1
              cases Option.some.inj hq1
              rw [hgq] at hgq1
              cases Option.some.inj hgq1
              rw [getN_updF_ne _ _ _ _ hqx, getN_updF_ne _ _ _ _ hqy, h4q, if_neg hsl]
            · intro j hjx hjy hjb hjq
              have hjb' : j ≠ bb := hjb bb rfl
              have hjq' : j ≠ q := hjq q rfl
              rw [getN_updF_ne _ _ _ _ hjx, getN_updF_ne _ _ _ _ hjy, hm4,
                getN_updF_ne _ _ _ _ hjq', hm3, getN_updF_ne _ _ _ _ hjy, hm2,
                getN_updF_ne _ _ _ _ hjb', hm1, getN_updF_ne _ _ _ _ hjx]
            · simp [updF_length, hm4, hm3, hm2, hm1]

/-- Mirror of `left_rotate_exec` for `_right_rotate`. -/
theorem right_rotate_exec (t : RBTree) (x y : Nat) (nx ny : NodeR)
    (hgx : getN t.nodes x = some nx) (hxy : nx.left_node = some y)
    (hgy : getN t.nodes y = some ny) (hyx : y ≠ x)
    (hbb : ∀ bb, ny.right_node = some bb → ∃ nb, getN t.nodes bb = some nb ∧ bb ≠ x ∧ bb ≠ y)
    (hqq : ∀ q, nx.parent = some q → ∃ nq, getN t.nodes q = some nq ∧ q ≠ x ∧ q ≠ y ∧
        ∀ bb, ny.right_node = some bb → q ≠ bb) :
    ∃ m6, RBTree._right_rotate t x =
        Res.ok { root := (match nx.parent with | none => some y | some _ => t.root),
                 nodes := m6 } ∧
      getN m6 x = some { nx with left_node := ny.right_node, parent := some y } ∧
      getN m6 y = some { ny with right_node := some x, parent := nx.parent } ∧
      (∀ bb nb, ny.right_node = some bb → getN t.nodes bb = some nb →
          getN m6 bb = some { nb with parent := some x }) ∧
      (∀ q nq, nx.parent = some q → getN t.nodes q = some nq →
          getN m6 q = some (if nq.right_node = some x then { nq with right_node := some y }
            else { nq with left_node := some y })) ∧
      (∀ j, j ≠ x → j ≠ y → (∀ bb, ny.right_node = some bb → j ≠ bb) →
          (∀ q, nx.parent = some q → j ≠ q) → getN m6 j = getN t.nodes j) ∧
      m6.length = t.nodes.length := by
  have hxy' : x ≠ y := fun hc => hyx hc.symm
  cases hbc : ny.right_node with
  | none =>
      unfold RBTree._right_rotate
      simp only [derefA, hgx, hxy, hgy, bind, Res.bind, hbc]
      set m1 := updF t.nodes x fun n => { n with left_node := (none : Option Nat) } with hm1
      have h1x : getN m1 x = some { nx with left_node := none } := by
        rw [hm1]
        exact getN_updF_self _ _ _ _ hgx
      have h1y : getN m1 y = some ny := by
        rw [hm1, getN_updF_ne _ _ _ _ hyx]
        exact hgy
      simp only [h1y, h1x, hbc]
      set m3 := updF m1 y fun yn => { yn with parent := nx.parent } with hm3
      have h3x : getN m3 x = some { nx with left_node := none } := by
        rw [hm3, getN_updF_ne _ _ _ _ hxy']
        exact h1x
      have h3y : getN m3 y = some { ny with parent := nx.parent } := by
        rw [hm3]
        exact getN_updF_self _ _ _ _ h1y
      simp only [h3x]
      cases hpc : nx.parent with
      | none =>
          rw [hpc] at h3y
          refine ⟨_, rfl, ?_, ?_, ?_, ?_, ?_, ?_⟩
          · have h5x : getN (updF m3 y fun yn => { yn with right_node := some x }) x
                = some { nx with left_node := none } := by
              rw [getN_updF_ne _ _ _ _ hxy']
              exact h3x
            rw [getN_updF_self _ _ _ _ h5x]
          · rw [getN_updF_ne _ _ _ _ hyx, getN_updF_self _ _ _ _ h3y]
          · exact fun bb nb h => Option.noConfusion h
          · exact fun q nq h => Option.noConfusion h
          · intro j hjx hjy _ _
            rw [getN_updF_ne _ _ _ _ hjx, getN_updF_ne _ _ _ _ hjy, hm3,
              getN_updF_ne _ _ _ _ hjy, hm1, getN_updF_ne _ _ _ _ hjx]
          · simp [updF_length, hm3, hm1]
      | some q =>
          obtain ⟨nq, hgq, hqx, hqy, _⟩ := hqq q hpc
          rw [hpc] at h3y
          have h3q : getN m3 q = some nq := by
            rw [hm3, getN_updF_ne _ _ _ _ hqy, hm1, getN_updF_ne _ _ _ _ hqx]
            exact hgq
          have hils : is_right_sonA m3 x
              = Res.ok (nq.right_node.isSome && (nq.right_node == some x)) := by
            unfold is_right_sonA
            simp only [derefA, h3x, bind, Res.bind, hpc, h3q, pure]
          simp only [hils, bind, Res.bind]
          by_cases hsl : nq.right_node = some x
          · have hcond : (nq.right_node.isSome && (nq.right_node == some x)) = true := by
              simp [hsl]
            simp only [hcond, if_true]
            set m4 := updF m3 q fun pn => { pn with right_node := some y } with hm4
            have h4x : getN m4 x = some { nx with left_node := none } := by
              rw [hm4, getN_updF_ne _ _ _ _ hqx.symm]
              exact h3x
            have h4y : getN m4 y = some { ny with parent := some q } := by
              rw [hm4, getN_updF_ne _ _ _ _ hqy.symm]
              exact h3y
            have h4q : getN m4 q = some { nq with right_node := some y } := by
              rw [hm4]
              exact getN_updF_self _ _ _ _ h3q
            refine ⟨_, rfl, ?_, ?_, ?_, ?_, ?_, ?_⟩
            · have h5x : getN (updF m4 y fun yn => { yn with right_node := some x }) x
                  = some { nx with left_node := none } := by
                rw [getN_updF_ne _ _ _ _ hxy']
                exact h4x
              rw [getN_updF_self _ _ _ _ h5x]
            · rw [getN_updF_ne _ _ _ _ hyx, getN_updF_self _ _ _ _ h4y]
            · exact fun bb nb h => Option.noConfusion h
            · intro q1 nq1 hq1 hgq1
              cases Option.some.inj hq1
              rw [hgq] at hgq1
              cases Option.some.inj hgq1
              rw [getN_updF_ne _ _ _ _ hqx, getN_updF_ne _ _ _ _ hqy, h4q, if_pos hsl]
            · intro j hjx hjy _ hjq
              have hjq' : j ≠ q := hjq q rfl
              rw [getN_updF_ne _ _ _ _ hjx, getN_updF_ne _ _ _ _ hjy, hm4,
                getN_updF_ne _ _ _ _ hjq', hm3, getN_updF_ne _ _ _ _ hjy, hm1,
                getN_updF_ne _ _ _ _ hjx]
            · simp [updF_length, hm4, hm3, hm1]
          · have hcond : (nq.right_node.isSome && (nq.right_node == some x)) = false := by
              cases hno : nq.right_node with
              | none => rfl
              | some z =>
                  rw [hno] at hsl
                  simp only [Option.isSome_some, Bool.true_and]
                  exact beq_eq_false_iff_ne.mpr hsl
            simp only [hcond, Bool.false_eq_true, if_false]
            set m4 := updF m3 q fun pn => { pn with left_node := some y } with hm4
            have h4x : getN m4 x = some { nx with left_node := none } := by
              rw [hm4, getN_updF_ne _ _ _ _ hqx.symm]
              exact h3x
            have h4y : getN m4 y = some { ny with parent := some q } := by
              rw [hm4, getN_updF_ne _ _ _ _ hqy.symm]
              exact h3y
            have h4q : getN m4 q = some { nq with left_node := some y } := by
              rw [hm4]
              exact getN_updF_self _ _ _ _ h3q
            refine ⟨_, rfl, ?_, ?_, ?_, ?_, ?_, ?_⟩
            · have h5x : getN (updF m4 y fun yn => { yn with right_node := some x }) x
                  = some { nx with left_node := none } := by
                rw [getN_updF_ne _ _ _ _ hxy']
                exact h4x
              rw [getN_updF_self _ _ _ _ h5x]
            · rw [getN_updF_ne _ _ _ _ hyx, getN_updF_self _ _ _ _ h4y]
            · exact fun bb nb h => Option.noConfusion h
            · intro q1 nq1 hq1 hgq1
              cases Option.some.inj hq1
              rw [hgq] at hgq1
              cases Option.some.inj hgq1
              rw [getN_updF_ne _ _ _ _ hqx, getN_updF_ne _ _ _ _ hqy, h4q, if_neg hsl]
            · intro j hjx hjy _ hjq
              have hjq' : j ≠ q := hjq q rfl
              rw [getN_updF_ne _ _ _ _ hjx, getN_updF_ne _ _ _ _ hjy, hm4,
                getN_updF_ne _ _ _ _ hjq', hm3, getN_updF_ne _ _ _ _ hjy, hm1,
                getN_updF_ne _ _ _ _ hjx]
            · simp [updF_length, hm4, hm3, hm1]
  | some bb =>
      obtain ⟨nb, hgb, hbx, hby⟩ := hbb bb hbc
      unfold RBTree._right_rotate
      simp only [derefA, hgx, hxy, hgy, bind, Res.bind, hbc]
      set m1 := updF t.nodes x fun n => { n with left_node := some bb } with hm1
      have h1x : getN m1 x = some { nx with left_node := some bb } := by
        rw [hm1]
        exact getN_updF_self _ _ _ _ hgx
      have h1y : getN m1 y = some ny := by
        rw [hm1, getN_updF_ne _ _ _ _ hyx]
        exact hgy
      have h1b : getN m1 bb = some nb := by
        rw [hm1, getN_updF_ne _ _ _ _ hbx]
        exact hgb
      simp only [h1y, hbc]
      set m2 := updF m1 bb fun bn => { bn with parent := some x } with hm2
      have h2x : getN m2 x = some { nx with left_node := some bb } := by
        rw [hm2, getN_updF_ne _ _ _ _ hbx.symm]
        exact h1x
      have h2y : getN m2 y = some ny := by
        rw [hm2, getN_updF_ne _ _ _ _ hby.symm]
        exact h1y
      have h2b : getN m2 bb = some { nb with parent := some x } := by
        rw [hm2]
        exact getN_updF_self _ _ _ _ h1b
      simp only [h2x]
      set m3 := updF m2 y fun yn => { yn with parent := nx.parent } with hm3
      have h3x : getN m3 x = some { nx with left_node := some bb } := by
        rw [hm3, getN_updF_ne _ _ _ _ hxy']
        exact h2x
      have h3y : getN m3 y = some { ny with parent := nx.parent } := by
        rw [hm3]
        exact getN_updF_self _ _ _ _ h2y
      have h3b : getN m3 bb = some { nb with parent := some x } := by
        rw [hm3, getN_updF_ne _ _ _ _ hby]
        exact h2b
      simp only [h3x]
      cases hpc : nx.parent with
      | none =>
          rw [hpc] at h3y
          refine ⟨_, rfl, ?_, ?_, ?_, ?_, ?_, ?_⟩
          · have h5x : getN (updF m3 y fun yn => { yn with right_node := some x }) x
                = some { nx with left_node := some bb } := by
              rw [getN_updF_ne _ _ _ _ hxy']
              exact h3x
            rw [getN_updF_self _ _ _ _ h5x]
          · rw [getN_updF_ne _ _ _ _ hyx, getN_updF_self _ _ _ _ h3y]
          · intro bb1 nb1 hb1 hgb1
            cases Option.some.inj hb1
            rw [hgb] at hgb1
            cases Option.some.inj hgb1
            rw [getN_updF_ne _ _ _ _ hbx, getN_updF_ne _ _ _ _ hby, h3b]
          · exact fun q nq h => Option.noConfusion h
          · intro j hjx hjy hjb _
            have hjb' : j ≠ bb := hjb bb rfl
            rw [getN_updF_ne _ _ _ _ hjx, getN_updF_ne _ _ _ _ hjy, hm3,
              getN_updF_ne _ _ _ _ hjy, hm2, getN_updF_ne _ _ _ _ hjb', hm1,
              getN_updF_ne _ _ _ _ hjx]
          · simp [updF_length, hm3, hm2, hm1]
      | some q =>
          obtain ⟨nq, hgq, hqx, hqy, hqb0⟩ := hqq q hpc
          have hqb : q ≠ bb := hqb0 bb hbc
          rw [hpc] at h3y
          have h3q : getN m3 q = some nq := by
            rw [hm3, getN_updF_ne _ _ _ _ hqy, hm2, getN_updF_ne _ _ _ _ hqb, hm1,
              getN_updF_ne _ _ _ _ hqx]
            exact hgq
          have hils : is_right_sonA m3 x
              = Res.ok (nq.right_node.isSome && (nq.right_node == some x)) := by
            unfold is_right_sonA
            simp only [derefA, h3x, bind, Res.bind, hpc, h3q, pure]
          simp only [hils, bind, Res.bind]
          by_cases hsl : nq.right_node = some x
          · have hcond : (nq.right_node.isSome && (nq.right_node == some x)) = true := by
              simp [hsl]
            simp only [hcond, if_true]
            set m4 := updF m3 q fun pn => { pn with right_node := some y } with hm4
            have h4x : getN m4 x = some { nx with left_node := some bb } := by
              rw [hm4, getN_updF_ne _ _ _ _ hqx.symm]
              exact h3x
            have h4y : getN m4 y = some { ny with parent := some q } := by
              rw [hm4, getN_updF_ne _ _ _ _ hqy.symm]
              exact h3y
            have h4b : getN m4 bb = some { nb with parent := some x } := by
              rw [hm4, getN_updF_ne _ _ _ _ hqb.symm]
              exact h3b
            have h4q : getN m4 q = some { nq with right_node := some y } := by
              rw [hm4]
              exact getN_updF_self _ _ _ _ h3q
            refine ⟨_, rfl, ?_, ?_, ?_, ?_, ?_, ?_⟩
            · have h5x : getN (updF m4 y fun yn => { yn with right_node := some x }) x
                  = some { nx with left_node := some bb } := by
                rw [getN_updF_ne _ _ _ _ hxy']
                exact h4x
              rw [getN_updF_self _ _ _ _ h5x]
            · rw [getN_updF_ne _ _ _ _ hyx, getN_updF_self _ _ _ _ h4y]
            · intro bb1 nb1 hb1 hgb1
              cases Option.some.inj hb1
              rw [hgb] at hgb1
              cases Option.some.inj hgb1
              rw [getN_updF_ne _ _ _ _ hbx, getN_updF_ne _ _ _ _ hby, h4b]
            · intro q1 nq1 hq1 hgq1
              cases Option.some.inj hq1
              rw [hgq] at hgq1
              cases Option.some.inj hgq1
              rw [getN_updF_ne _ _ _ _ hqx, getN_updF_ne _ _ _ _ hqy, h4q, if_pos hsl]
            · intro j hjx hjy hjb hjq
              have hjb' : j ≠ bb := hjb bb rfl
              have hjq' : j ≠ q := hjq q rfl
              rw [getN_updF_ne _ _ _ _ hjx, getN_updF_ne _ _ _ _ hjy, hm4,
                getN_updF_ne _ _ _ _ hjq', hm3, getN_updF_ne _ _ _ _ hjy, hm2,
                getN_updF_ne _ _ _ _ hjb', hm1, getN_updF_ne _ _ _ _ hjx]
            · simp [updF_length, hm4, hm3, hm2, hm1]
          · have hcond : (nq.right_node.isSome && (nq.right_node == some x)) = false := by
              cases hno : nq.right_node with
              | none => rfl
              | some z =>
                  rw [hno] at hsl
                  simp only [Option.isSome_some, Bool.true_and]
                  exact beq_eq_false_iff_ne.mpr hsl
            simp only [hcond, Bool.false_eq_true, if_false]
            set m4 := updF m3 q fun pn => { pn with left_node := some y } with hm4
            have h4x : getN m4 x = some { nx with left_node := some bb } := by
              rw [hm4, getN_updF_ne _ _ _ _ hqx.symm]
              exact h3x
            have h4y : getN m4 y = some { ny with parent := some q } := by
              rw [hm4, getN_updF_ne _ _ _ _ hqy.symm]
              exact h3y
            have h4b : getN m4 bb = some { nb with parent := some x } := by
              rw [hm4, getN_updF_ne _ _ _ _ hqb.symm]
              exact h3b
            have h4q : getN m4 q = some { nq with left_node := some y } := by
              rw [hm4]
              exact getN_updF_self _ _ _ _ h3q
            refine ⟨_, rfl, ?_, ?_, ?_, ?_, ?_, ?_⟩
            · have h5x : getN (updF m4 y fun yn => { yn with right_node := some x }) x
                  = some { nx with left_node := some bb } := by
                rw [getN_updF_ne _ _ _ _ hxy']
                exact h4x
              rw [getN_updF_self _ _ _ _ h5x]
            · rw [getN_updF_ne _ _ _ _ hyx, getN_updF_self _ _ _ _ h4y]
            · intro bb1 nb1 hb1 hgb1
              cases Option.some.inj hb1
              rw [hgb] at hgb1
              cases Option.some.inj hgb1
              rw [getN_updF_ne _ _ _ _ hbx, getN_updF_ne _ _ _ _ hby, h4b]
            · intro q1 nq1 hq1 hgq1
              cases Option.some.inj hq1
              rw [hgq] at hgq1
              cases Option.some.inj hgq1
              rw [getN_updF_ne _ _ _ _ hqx, getN_updF_ne _ _ _ _ hqy, h4q, if_neg hsl]
            · intro j hjx hjy hjb hjq
              have hjb' : j ≠ bb := hjb bb rfl
              have hjq' : j ≠ q := hjq q rfl
              rw [getN_updF_ne _ _ _ _ hjx, getN_updF_ne _ _ _ _ hjy, hm4,
                getN_updF_ne _ _ _ _ hjq', hm3, getN_updF_ne _ _ _ _ hjy, hm2,
                getN_updF_ne _ _ _ _ hjb', hm1, getN_updF_ne _ _ _ _ hjx]
            · simp [updF_length, hm4, hm3, hm2, hm1]

theorem inorderAux_some (m : Arena) (f : Nat) (i : Nat) (n : NodeR)
    (hg : getN m i = some n) :
    inorderAux m (f + 1) (some i)
      = inorderAux m f n.left_node ++ n.key :: inorderAux m f n.right_node := by
  simp [inorderAux, hg]

theorem idsAux_some (m : Arena) (f : Nat) (i : Nat) (n : NodeR)
    (hg : getN m i = some n) :
    idsAux m (f + 1) (some i)
      = i :: (idsAux m f n.left_node ++ idsAux m f n.right_node) := by
  simp [idsAux, hg]

theorem withinB_some_intro (m : Arena) (f : Nat) (i : Nat) (n : NodeR)
    (hg : getN m i = some n) (hl : withinB m f n.left_node = true)
    (hr : withinB m f n.right_node = true) :
    withinB m (f + 1) (some i) = true := by
  simp [withinB, hg, hl, hr]
/-- After a left rotation at `x` (with right child `y`), the in-order key
sequence of the subtree now rooted at `y` equals that of the old subtree
rooted at `x`, and the rotated subtree still fits in one more unit of
fuel. -/
theorem rotate_subtree_inorder_left (m m6 : Arena) (x y : Nat) (nx ny : NodeR)
    (hgx : getN m x = some nx) (hxy : nx.right_node = some y)
    (hgy : getN m y = some ny) (f : Nat)
    (hw : withinB m (f + 1) (some x) = true)
    (hnd : (idsAux m (f + 1) (some x)).Nodup)
    (hx6 : getN m6 x = some { nx with right_node := ny.left_node, parent := some y })
    (hy6 : getN m6 y = some { ny with left_node := some x, parent := nx.parent })
    (hoth : ∀ j, j ∈ idsAux m (f + 1) (some x) → j ≠ x → j ≠ y → sameShape m m6 j) :
    inorderAux m6 (f + 2) (some y) = inorderAux m (f + 1) (some x) ∧
    withinB m6 (f + 2) (some y) = true := by
  have hch := within_children m f x nx hw hgx
  have hwy : withinB m f (some y) = true := by rw [← hxy]; exact hch.2
  obtain ⟨f', rfl⟩ : ∃ f', f = f' + 1 :=
    ⟨f - 1, by have := within_fuel_pos m f y hwy; omega⟩
  have hchy := within_children m f' y ny hwy hgy
  -- traversal decompositions
  have hidx := idsAux_some m (f' + 1) x nx hgx
  have hidy := idsAux_some m f' y ny hgy
  rw [hxy] at hidx
  -- Nodup bookkeeping
  rw [hidx] at hnd
  have hxnotin := (List.nodup_cons.mp hnd).1
  have hnd2 := (List.nodup_cons.mp hnd).2
  rw [hidy] at hnd2
  have hndA := (List.nodup_append.mp hnd2).1
  have hndY := (List.nodup_append.mp hnd2).2.1
  have hdisA := (List.nodup_append.mp hnd2).2.2
  have hynotA : y ∉ idsAux m (f' + 1) nx.left_node :=
    fun hy => hdisA hy (List.mem_cons_self _ _)
  have hynotin := (List.nodup_cons.mp hndY).1
  have hxnotA : x ∉ idsAux m (f' + 1) nx.left_node := by
    intro hx
    exact hxnotin (List.mem_append_left _ hx)
  have hxnotBC : x ∉ idsAux m f' ny.left_node ++ idsAux m f' ny.right_node := by
    intro hx
    exact hxnotin (List.mem_append_right _ (by rw [hidy]; exact List.mem_cons_of_mem _ hx))
  -- memberships of subtree ids in the whole traversal
  have hmemA : ∀ j, j ∈ idsAux m (f' + 1) nx.left_node →
      j ∈ idsAux m (f' + 2) (some x) := by
    intro j hj
    exact mem_ids_left m (f' + 1) x j nx hgx hj
  have hmemY : ∀ j, j ∈ idsAux m (f' + 1) nx.right_node →
      j ∈ idsAux m (f' + 2) (some x) := by
    intro j hj
    exact mem_ids_right m (f' + 1) x j nx hgx hj
  have hmemB : ∀ j, j ∈ idsAux m f' ny.left_node →
      j ∈ idsAux m (f' + 2) (some x) := by
    intro j hj
    refine hmemY j ?_
    rw [hxy, hidy]
    exact List.mem_cons_of_mem _ (List.mem_append_left _ hj)
  have hmemC : ∀ j, j ∈ idsAux m f' ny.right_node →
      j ∈ idsAux m (f' + 2) (some x) := by
    intro j hj
    refine hmemY j ?_
    rw [hxy, hidy]
    exact List.mem_cons_of_mem _ (List.mem_append_right _ hj)
  -- frame transfers on the three untouched subtrees
  have hA := traversal_congr m m6 (f' + 1) nx.left_node (fun j hj =>
    hoth j (hmemA j hj) (fun hc => hxnotA (hc ▸ hj)) (fun hc => hynotA (hc ▸ hj)))
  have hB := traversal_congr m m6 f' ny.left_node (fun j hj =>
    hoth j (hmemB j hj) (fun hc => hxnotBC (hc ▸ (List.mem_append_left _ hj)))
      (fun hc => hynotin (hc ▸ (List.mem_append_left _ hj))))
  have hC := traversal_congr m m6 f' ny.right_node (fun j hj =>
    hoth j (hmemC j hj) (fun hc => hxnotBC (hc ▸ (List.mem_append_right _ hj)))
      (fun hc => hynotin (hc ▸ (List.mem_append_right _ hj))))
  -- the two rotated traversals
  have hw6A : withinB m6 (f' + 1) nx.left_node = true := hA.2.2.trans hch.1
  have hw6B : withinB m6 f' ny.left_node = true := hB.2.2.trans hchy.1
  have hw6C : withinB m6 f' ny.right_node = true := hC.2.2.trans hchy.2
  constructor
  · rw [inorderAux_some m6 (f' + 2) y _ hy6]
    rw [inorderAux_some m6 (f' + 1) x _ hx6]
    rw [inorderAux_some m (f' + 1) x nx hgx, hxy,
      inorderAux_some m f' y ny hgy]
    rw [hA.1]
    rw [inorderAux_mono m6 f' (f' + 1) ny.left_node hw6B (by omega)]
    rw [hB.1]
    rw [inorderAux_mono m6 f' (f' + 2) ny.right_node hw6C (by omega)]
    rw [hC.1]
    simp [List.append_assoc]
  · refine withinB_some_intro m6 (f' + 2) y _ hy6 ?_ ?_
    · refine withinB_some_intro m6 (f' + 1) x _ hx6 ?_ ?_
      · exact hw6A
      · exact withinB_mono m6 f' (f' + 1) _ hw6B (by omega)
    · exact withinB_mono m6 f' (f' + 2) _ hw6C (by omega)
/-- Mirror of `rotate_subtree_inorder_left` for a right rotation at `x`
(with left child `y`). -/
theorem rotate_subtree_inorder_right (m m6 : Arena) (x y : Nat) (nx ny : NodeR)
    (hgx : getN m x = some nx) (hxy : nx.left_node = some y)
    (hgy : getN m y = some ny) (f : Nat)
    (hw : withinB m (f + 1) (some x) = true)
    (hnd : (idsAux m (f + 1) (some x)).Nodup)
    (hx6 : getN m6 x = some { nx with left_node := ny.right_node, parent := some y })
    (hy6 : getN m6 y = some { ny with right_node := some x, parent := nx.parent })
    (hoth : ∀ j, j ∈ idsAux m (f + 1) (some x) → j ≠ x → j ≠ y → sameShape m m6 j) :
    inorderAux m6 (f + 2) (some y) = inorderAux m (f + 1) (some x) ∧
    withinB m6 (f + 2) (some y) = true := by
  have hch := within_children m f x nx hw hgx
  have hwy : withinB m f (some y) = true := by rw [← hxy]; exact hch.1
  obtain ⟨f', rfl⟩ : ∃ f', f = f' + 1 :=
    ⟨f - 1, by have := within_fuel_pos m f y hwy; omega⟩
  have hchy := within_children m f' y ny hwy hgy
  have hidx := idsAux_some m (f' + 1) x nx hgx
  have hidy := idsAux_some m f' y ny hgy
  rw [hxy] at hidx
  rw [hidx] at hnd
  have hxnotin := (List.nodup_cons.mp hnd).1
  have hnd2 := (List.nodup_cons.mp hnd).2
  rw [hidy] at hnd2
  have hndY := (List.nodup_append.mp hnd2).1
  have hndA := (List.nodup_append.mp hnd2).2.1
  have hdisY := (List.nodup_append.mp hnd2).2.2
  have hynotA : y ∉ idsAux m (f' + 1) nx.right_node :=
    hdisY (List.mem_cons_self _ _)
  have hynotin := (List.nodup_cons.mp hndY).1
  have hxnotA : x ∉ idsAux m (f' + 1) nx.right_node := by
    intro hx
    exact hxnotin (List.mem_append_right _ hx)
  have hxnotBC : x ∉ idsAux m f' ny.left_node ++ idsAux m f' ny.right_node := by
    intro hx
    exact hxnotin (List.mem_append_left _ (by rw [hidy]; exact List.mem_cons_of_mem _ hx))
  have hmemA : ∀ j, j ∈ idsAux m (f' + 1) nx.right_node →
      j ∈ idsAux m (f' + 2) (some x) := by
    intro j hj
    exact mem_ids_right m (f' + 1) x j nx hgx hj
  have hmemY : ∀ j, j ∈ idsAux m (f' + 1) nx.left_node →
      j ∈ idsAux m (f' + 2) (some x) := by
    intro j hj
    exact mem_ids_left m (f' + 1) x j nx hgx hj
  have hmemB : ∀ j, j ∈ idsAux m f' ny.left_node →
      j ∈ idsAux m (f' + 2) (some x) := by
    intro j hj
    refine hmemY j ?_
    rw [hxy, hidy]
    exact List.mem_cons_of_mem _ (List.mem_append_left _ hj)
  have hmemC : ∀ j, j ∈ idsAux m f' ny.right_node →
      j ∈ idsAux m (f' + 2) (some x) := by
    intro j hj
    refine hmemY j ?_
    rw [hxy, hidy]
    exact List.mem_cons_of_mem _ (List.mem_append_right _ hj)
  have hA := traversal_congr m m6 (f' + 1) nx.right_node (fun j hj =>
    hoth j (hmemA j hj) (fun hc => hxnotA (hc ▸ hj)) (fun hc => hynotA (hc ▸ hj)))
  have hB := traversal_congr m m6 f' ny.left_node (fun j hj =>
    hoth j (hmemB j hj) (fun hc => hxnotBC (hc ▸ (List.mem_append_left _ hj)))
      (fun hc => hynotin (hc ▸ (List.mem_append_left _ hj))))
  have hC := traversal_congr m m6 f' ny.right_node (fun j hj =>
    hoth j (hmemC j hj) (fun hc => hxnotBC (hc ▸ (List.mem_append_right _ hj)))
      (fun hc => hynotin (hc ▸ (List.mem_append_right _ hj))))
  have hw6A : withinB m6 (f' + 1) nx.right_node = true := hA.2.2.trans hch.2
  have hw6B : withinB m6 f' ny.left_node = true := hB.2.2.trans hchy.1
  have hw6C : withinB m6 f' ny.right_node = true := hC.2.2.trans hchy.2
  constructor
  · rw [inorderAux_some m6 (f' + 2) y _ hy6]
    rw [inorderAux_some m6 (f' + 1) x _ hx6]
    rw [inorderAux_some m (f' + 1) x nx hgx, hxy,
      inorderAux_some m f' y ny hgy]
    rw [hA.1]
    rw [inorderAux_mono m6 f' (f' + 2) ny.left_node hw6B (by omega)]
    rw [hB.1]
    rw [inorderAux_mono m6 f' (f' + 1) ny.right_node hw6C (by omega)]
    rw [hC.1]
    simp [List.append_assoc]
  · refine withinB_some_intro m6 (f' + 2) y _ hy6 ?_ ?_
    · exact withinB_mono m6 f' (f' + 2) _ hw6B (by omega)
    · refine withinB_some_intro m6 (f' + 1) x _ hx6 ?_ ?_
      · exact withinB_mono m6 f' (f' + 1) _ hw6C (by omega)
      · exact hw6A
/-- Walking the context from a subtree root down to `x`: a left rotation at
`x` (below `q`, the parent of `x`) leaves the in-order sequence of any
enclosing traversal unchanged. -/
theorem rotate_ctx_inorder_left (m m6 : Arena) (x y q : Nat) (nx ny nq : NodeR)
    (hgx : getN m x = some nx) (hxy : nx.right_node = some y)
    (hgy : getN m y = some ny) (hqpar : nx.parent = some q)
    (hgq : getN m q = some nq)
    (hx6 : getN m6 x = some { nx with right_node := ny.left_node, parent := some y })
    (hy6 : getN m6 y = some { ny with left_node := some x, parent := nx.parent })
    (hq6 : getN m6 q = some (if nq.left_node = some x then { nq with left_node := some y }
        else { nq with right_node := some y }))
    (hoth : ∀ j, j ≠ x → j ≠ y → j ≠ q → sameShape m m6 j) :
    ∀ (f : Nat) (r : Option Nat),
      withinB m f r = true → parentOkB m f r = true → (idsAux m f r).Nodup →
      x ∈ idsAux m f r → r ≠ some x →
      inorderAux m6 (f + 1) r = inorderAux m f r ∧ withinB m6 (f + 1) r = true := by
  intro f
  induction f with
  | zero =>
      intro r hw _ _ hx _
      cases r with
      | none => simp [idsAux] at hx
      | some i => simp [withinB] at hw
  | succ f ih =>
      intro r hw hp hnd hx hr
      cases r with
      | none => simp [idsAux] at hx
      | some i =>
          obtain ⟨n, hg⟩ := within_getN_some m f i hw
          have hch := within_children m f i n hw hg
          have hpe := parentOk_elim m f i n hp hg
          have hine : x ≠ i := fun hc => hr (by rw [hc])
          have hidi := idsAux_some m f i n hg
          rw [hidi] at hnd hx
          have hinotin := (List.nodup_cons.mp hnd).1
          have hnd2 := (List.nodup_cons.mp hnd).2
          have hndL := (List.nodup_append.mp hnd2).1
          have hndR := (List.nodup_append.mp hnd2).2.1
          have hdis := (List.nodup_append.mp hnd2).2.2
          have hxm : x ∈ idsAux m f n.left_node ∨ x ∈ idsAux m f n.right_node := by
            rcases List.mem_cons.mp hx with hc | hc
            · exact absurd hc hine
            · exact List.mem_append.mp hc
          rcases hxm with hxl | hxr
          · -- x in the left subtree of i
            have hxL : x ∈ idsAux m f n.left_node := hxl
            have hymem : y ∈ idsAux m f n.left_node :=
              descendant_mem_ids m f n.left_node x y nx hch.1 hxl hgx (Or.inr hxy)
            have hiny : i ≠ y := fun hc =>
              hinotin (List.mem_append_left _ (hc ▸ hymem))
            have hxnotR : x ∉ idsAux m f n.right_node := fun hc => hdis hxL hc
            have hynotR : y ∉ idsAux m f n.right_node := fun hc => hdis hymem hc
            cases hnl : n.left_node with
            | none => rw [hnl, idsAux_none] at hxl; simp at hxl
            | some l =>
                rw [hnl] at hxl
                by_cases hlx : l = x
                · -- x is i's left child, so i = q
                  have hnlx : n.left_node = some x := by rw [hnl, hlx]
                  obtain ⟨cn, hgc, hcp⟩ := hpe.1 x hnlx
                  have hcn : cn = nx := by rw [hgx] at hgc; exact (Option.some.inj hgc).symm
                  have hiq : i = q := by
                    rw [hcn, hqpar] at hcp
                    exact (Option.some.inj hcp).symm
                  have hqi : q = i := hiq.symm
                  have hnq : nq = n := by
                    rw [← hiq, hg] at hgq
                    exact (Option.some.inj hgq).symm
                  have hq6i : getN m6 i = some { n with left_node := some y } := by
                    rw [hiq, hq6, if_pos (by rw [hnq, hnlx]), hnq]
                  have hwx : withinB m f (some x) = true := by rw [← hnlx]; exact hch.1
                  obtain ⟨f2, rfl⟩ : ∃ f2, f = f2 + 1 :=
                    ⟨f - 1, by have := within_fuel_pos m f x hwx; omega⟩
                  have hndX : (idsAux m (f2 + 1) (some x)).Nodup := by
                    rw [hnlx] at hndL
                    exact hndL
                  have hsub := rotate_subtree_inorder_left m m6 x y nx ny hgx hxy hgy f2
                    hwx hndX hx6 hy6 (fun j hj hjx hjy =>
                      hoth j hjx hjy (fun hc =>
                        hinotin (List.mem_append_left _
                          (by rw [hnlx]; exact (hc.trans hqi) ▸ hj))))
                  have hinotR : i ∉ idsAux m (f2 + 1) n.right_node := fun hc =>
                    hinotin (List.mem_append_right _ hc)
                  have hR := traversal_congr m m6 (f2 + 1) n.right_node (fun j hj =>
                    hoth j (fun hc => hxnotR (hc ▸ hj)) (fun hc => hynotR (hc ▸ hj))
                      (fun hc => hinotR ((hc.trans hqi) ▸ hj)))
                  have hw6R : withinB m6 (f2 + 1) n.right_node = true := hR.2.2.trans hch.2
                  constructor
                  · rw [inorderAux_some m6 (f2 + 2) i _ hq6i]
                    rw [inorderAux_some m (f2 + 1) i n hg, hnlx]
                    rw [hsub.1]
                    rw [inorderAux_mono m6 (f2 + 1) (f2 + 2) n.right_node hw6R (by omega),
                      hR.1]
                  · refine withinB_some_intro m6 (f2 + 2) i _ hq6i ?_ ?_
                    · exact hsub.2
                    · exact withinB_mono m6 (f2 + 1) (f2 + 2) _ hw6R (by omega)
                · -- recurse into the left subtree
                  have hwl : withinB m f (some l) = true := by rw [← hnl]; exact hch.1
                  have hpl : parentOkB m f (some l) = true := by
                    have := hpe.2.2.1
                    rw [hnl] at this
                    exact this
                  have hndl : (idsAux m f (some l)).Nodup := by
                    rw [hnl] at hndL
                    exact hndL
                  have hctx := ih (some l) hwl hpl hndl hxl
                    (fun hc => hlx (Option.some.inj hc))
                  obtain ⟨q', nq', hq', hqp', hqm', _⟩ :=
                    find_parent m f (some l) x nx hwl hpl hxl
                      (fun hc => hlx (Option.some.inj hc)) hgx
                  have hq'q : q' = q := by
                    rw [hqpar] at hqp'
                    exact (Option.some.inj hqp').symm
                  have hqL : q ∈ idsAux m f n.left_node := by
                    rw [hnl]
                    exact hq'q ▸ hqm'
                  have hinq : i ≠ q := fun hc =>
                    hinotin (List.mem_append_left _ (hc ▸ hqL))
                  have hsi : sameShape m m6 i := hoth i (Ne.symm hine) hiny hinq
                  obtain ⟨n', hgi6, hsh⟩ : ∃ n', getN m6 i = some n' ∧ shapeOf n' = shapeOf n := by
                    unfold sameShape at hsi
                    rw [hg] at hsi
                    cases hgi6 : getN m6 i with
                    | none => rw [hgi6] at hsi; simp at hsi
                    | some n' =>
                        rw [hgi6] at hsi
                        simp at hsi
                        exact ⟨n', rfl, hsi⟩
                  obtain ⟨hkey, hleft, hright⟩ := shapeOf_fields hsh
                  have hqnotR : q ∉ idsAux m f n.right_node := fun hc => hdis hqL hc
                  have hR := traversal_congr m m6 f n.right_node (fun j hj =>
                    hoth j (fun hc => hxnotR (hc ▸ hj)) (fun hc => hynotR (hc ▸ hj))
                      (fun hc => hqnotR (hc ▸ hj)))
                  have hw6R : withinB m6 f n.right_node = true := hR.2.2.trans hch.2
                  constructor
                  · rw [inorderAux_some m6 (f + 1) i n' hgi6, hkey, hleft, hright, hnl]
                    rw [inorderAux_some m f i n hg, hnl]
                    rw [hctx.1]
                    rw [inorderAux_mono m6 f (f + 1) n.right_node hw6R (by omega), hR.1]
                  · refine withinB_some_intro m6 (f + 1) i n' hgi6 ?_ ?_
                    · rw [hleft, hnl]
                      exact hctx.2
                    · rw [hright]
                      exact withinB_mono m6 f (f + 1) _ hw6R (by omega)
          · -- x in the right subtree of i (mirror)
            have hxR : x ∈ idsAux m f n.right_node := hxr
            have hymem : y ∈ idsAux m f n.right_node :=
              descendant_mem_ids m f n.right_node x y nx hch.2 hxr hgx (Or.inr hxy)
            have hiny : i ≠ y := fun hc =>
              hinotin (List.mem_append_right _ (hc ▸ hymem))
            have hxnotL : x ∉ idsAux m f n.left_node := fun hc => hdis hc hxR
            have hynotL : y ∉ idsAux m f n.left_node := fun hc => hdis hc hymem
            cases hnr : n.right_node with
            | none => rw [hnr, idsAux_none] at hxr; simp at hxr
            | some l =>
                rw [hnr] at hxr
                by_cases hlx : l = x
                · -- x is i's right child, so i = q, and x is not i's left child
                  have hnrx : n.right_node = some x := by rw [hnr, hlx]
                  obtain ⟨cn, hgc, hcp⟩ := hpe.2.1 x hnrx
                  have hcn : cn = nx := by rw [hgx] at hgc; exact (Option.some.inj hgc).symm
                  have hiq : i = q := by
                    rw [hcn, hqpar] at hcp
                    exact (Option.some.inj hcp).symm
                  have hqi : q = i := hiq.symm
                  have hnq : nq = n := by
                    rw [← hiq, hg] at hgq
                    exact (Option.some.inj hgq).symm
                  have hnoleft : n.left_node ≠ some x := by
                    intro hc
                    have hwx0 : withinB m f (some x) = true := by rw [← hnrx]; exact hch.2
                    obtain ⟨f9, hf9⟩ : ∃ f9, f = f9 + 1 :=
                      ⟨f - 1, by have := within_fuel_pos m f x hwx0; omega⟩
                    subst hf9
                    exact hdis (by rw [hc]; exact head_mem_ids m f9 x)
                      (by rw [hnrx]; exact head_mem_ids m f9 x)
                  have hq6i : getN m6 i = some { n with right_node := some y } := by
                    rw [hiq, hq6, if_neg (by rw [hnq]; exact hnoleft), hnq]
                  have hwx : withinB m f (some x) = true := by rw [← hnrx]; exact hch.2
                  obtain ⟨f2, rfl⟩ : ∃ f2, f = f2 + 1 :=
                    ⟨f - 1, by have := within_fuel_pos m f x hwx; omega⟩
                  have hndX : (idsAux m (f2 + 1) (some x)).Nodup := by
                    rw [hnrx] at hndR
                    exact hndR
                  have hsub := rotate_subtree_inorder_left m m6 x y nx ny hgx hxy hgy f2
                    hwx hndX hx6 hy6 (fun j hj hjx hjy =>
                      hoth j hjx hjy (fun hc =>
                        hinotin (List.mem_append_right _
                          (by rw [hnrx]; exact (hc.trans hqi) ▸ hj))))
                  have hinotL : i ∉ idsAux m (f2 + 1) n.left_node := fun hc =>
                    hinotin (List.mem_append_left _ hc)
                  have hL := traversal_congr m m6 (f2 + 1) n.left_node (fun j hj =>
                    hoth j (fun hc => hxnotL (hc ▸ hj)) (fun hc => hynotL (hc ▸ hj))
                      (fun hc => hinotL ((hc.trans hqi) ▸ hj)))
                  have hw6L : withinB m6 (f2 + 1) n.left_node = true := hL.2.2.trans hch.1
                  constructor
                  · rw [inorderAux_some m6 (f2 + 2) i _ hq6i]
                    rw [inorderAux_some m (f2 + 1) i n hg, hnrx]
                    rw [hsub.1]
                    rw [inorderAux_mono m6 (f2 + 1) (f2 + 2) n.left_node hw6L (by omega),
                      hL.1]
                  · refine withinB_some_intro m6 (f2 + 2) i _ hq6i ?_ ?_
                    · exact withinB_mono m6 (f2 + 1) (f2 + 2) _ hw6L (by omega)
                    · exact hsub.2
                · -- recurse into the right subtree
                  have hwl : withinB m f (some l) = true := by rw [← hnr]; exact hch.2
                  have hpl : parentOkB m f (some l) = true := by
                    have := hpe.2.2.2
                    rw [hnr] at this
                    exact this
                  have hndl : (idsAux m f (some l)).Nodup := by
                    rw [hnr] at hndR
                    exact hndR
                  have hctx := ih (some l) hwl hpl hndl hxr
                    (fun hc => hlx (Option.some.inj hc))
                  obtain ⟨q', nq', hq', hqp', hqm', _⟩ :=
                    find_parent m f (some l) x nx hwl hpl hxr
                      (fun hc => hlx (Option.some.inj hc)) hgx
                  have hq'q : q' = q := by
                    rw [hqpar] at hqp'
                    exact (Option.some.inj hqp').symm
                  have hqR : q ∈ idsAux m f n.right_node := by
                    rw [hnr]
                    exact hq'q ▸ hqm'
                  have hinq : i ≠ q := fun hc =>
                    hinotin (List.mem_append_right _ (hc ▸ hqR))
                  have hsi : sameShape m m6 i := hoth i (Ne.symm hine) hiny hinq
                  obtain ⟨n', hgi6, hsh⟩ : ∃ n', getN m6 i = some n' ∧ shapeOf n' = shapeOf n := by
                    unfold sameShape at hsi
                    rw [hg] at hsi
                    cases hgi6 : getN m6 i with
                    | none => rw [hgi6] at hsi; simp at hsi
                    | some n' =>
                        rw [hgi6] at hsi
                        simp at hsi
                        exact ⟨n', rfl, hsi⟩
                  obtain ⟨hkey, hleft, hright⟩ := shapeOf_fields hsh
                  have hqnotL : q ∉ idsAux m f n.left_node := fun hc => hdis hc hqR
                  have hL := traversal_congr m m6 f n.left_node (fun j hj =>
                    hoth j (fun hc => hxnotL (hc ▸ hj)) (fun hc => hynotL (hc ▸ hj))
                      (fun hc => hqnotL (hc ▸ hj)))
                  have hw6L : withinB m6 f n.left_node = true := hL.2.2.trans hch.1
                  constructor
                  · rw [inorderAux_some m6 (f + 1) i n' hgi6, hkey, hleft, hright, hnr]
                    rw [inorderAux_some m f i n hg, hnr]
                    rw [hctx.1]
                    rw [inorderAux_mono m6 f (f + 1) n.left_node hw6L (by omega), hL.1]
                  · refine withinB_some_intro m6 (f + 1) i n' hgi6 ?_ ?_
                    · rw [hleft]
                      exact withinB_mono m6 f (f + 1) _ hw6L (by omega)
                    · rw [hright, hnr]
                      exact hctx.2
/-- Mirror of `rotate_ctx_inorder_left` for a right rotation at `x`. -/
theorem rotate_ctx_inorder_right (m m6 : Arena) (x y q : Nat) (nx ny nq : NodeR)
    (hgx : getN m x = some nx) (hxy : nx.left_node = some y)
    (hgy : getN m y = some ny) (hqpar : nx.parent = some q)
    (hgq : getN m q = some nq)
    (hx6 : getN m6 x = some { nx with left_node := ny.right_node, parent := some y })
    (hy6 : getN m6 y = some { ny with right_node := some x, parent := nx.parent })
    (hq6 : getN m6 q = some (if nq.right_node = some x then { nq with right_node := some y }
        else { nq with left_node := some y }))
    (hoth : ∀ j, j ≠ x → j ≠ y → j ≠ q → sameShape m m6 j) :
    ∀ (f : Nat) (r : Option Nat),
      withinB m f r = true → parentOkB m f r = true → (idsAux m f r).Nodup →
      x ∈ idsAux m f r → r ≠ some x →
      inorderAux m6 (f + 1) r = inorderAux m f r ∧ withinB m6 (f + 1) r = true := by
  intro f
  induction f with
  | zero =>
      intro r hw _ _ hx _
      cases r with
      | none => simp [idsAux] at hx
      | some i => simp [withinB] at hw
  | succ f ih =>
      intro r hw hp hnd hx hr
      cases r with
      | none => simp [idsAux] at hx
      | some i =>
          obtain ⟨n, hg⟩ := within_getN_some m f i hw
          have hch := within_children m f i n hw hg
          have hpe := parentOk_elim m f i n hp hg
          have hine : x ≠ i := fun hc => hr (by rw [hc])
          have hidi := idsAux_some m f i n hg
          rw [hidi] at hnd hx
          have hinotin := (List.nodup_cons.mp hnd).1
          have hnd2 := (List.nodup_cons.mp hnd).2
          have hndL := (List.nodup_append.mp hnd2).1
          have hndR := (List.nodup_append.mp hnd2).2.1
          have hdis := (List.nodup_append.mp hnd2).2.2
          have hxm : x ∈ idsAux m f n.left_node ∨ x ∈ idsAux m f n.right_node := by
            rcases List.mem_cons.mp hx with hc | hc
            · exact absurd hc hine
            · exact List.mem_append.mp hc
          rcases hxm with hxl | hxr
          · -- x in the left subtree of i
            have hxL : x ∈ idsAux m f n.left_node := hxl
            have hymem : y ∈ idsAux m f n.left_node :=
              descendant_mem_ids m f n.left_node x y nx hch.1 hxl hgx (Or.inl hxy)
            have hiny : i ≠ y := fun hc =>
              hinotin (List.mem_append_left _ (hc ▸ hymem))
            have hxnotR : x ∉ idsAux m f n.right_node := fun hc => hdis hxL hc
            have hynotR : y ∉ idsAux m f n.right_node := fun hc => hdis hymem hc
            cases hnl : n.left_node with
            | none => rw [hnl, idsAux_none] at hxl; simp at hxl
            | some l =>
                rw [hnl] at hxl
                by_cases hlx : l = x
                · -- x is i's left child, so i = q
                  have hnlx : n.left_node = some x := by rw [hnl, hlx]
                  obtain ⟨cn, hgc, hcp⟩ := hpe.1 x hnlx
                  have hcn : cn = nx := by rw [hgx] at hgc; exact (Option.some.inj hgc).symm
                  have hiq : i = q := by
                    rw [hcn, hqpar] at hcp
                    exact (Option.some.inj hcp).symm
                  have hqi : q = i := hiq.symm
                  have hnq : nq = n := by
                    rw [← hiq, hg] at hgq
                    exact (Option.some.inj hgq).symm
                  have hnoright : n.right_node ≠ some x := by
                    intro hc
                    have hwx0 : withinB m f (some x) = true := by rw [← hnlx]; exact hch.1
                    obtain ⟨f9, hf9⟩ : ∃ f9, f = f9 + 1 :=
                      ⟨f - 1, by have := within_fuel_pos m f x hwx0; omega⟩
                    subst hf9
                    exact hdis (by rw [hnlx]; exact head_mem_ids m f9 x)
                      (by rw [hc]; exact head_mem_ids m f9 x)
                  have hq6i : getN m6 i = some { n with left_node := some y } := by
                    rw [hiq, hq6, if_neg (by rw [hnq]; exact hnoright), hnq]
                  have hwx : withinB m f (some x) = true := by rw [← hnlx]; exact hch.1
                  obtain ⟨f2, rfl⟩ : ∃ f2, f = f2 + 1 :=
                    ⟨f - 1, by have := within_fuel_pos m f x hwx; omega⟩
                  have hndX : (idsAux m (f2 + 1) (some x)).Nodup := by
                    rw [hnlx] at hndL
                    exact hndL
                  have hsub := rotate_subtree_inorder_right m m6 x y nx ny hgx hxy hgy f2
                    hwx hndX hx6 hy6 (fun j hj hjx hjy =>
                      hoth j hjx hjy (fun hc =>
                        hinotin (List.mem_append_left _
                          (by rw [hnlx]; exact (hc.trans hqi) ▸ hj))))
                  have hinotR : i ∉ idsAux m (f2 + 1) n.right_node := fun hc =>
                    hinotin (List.mem_append_right _ hc)
                  have hR := traversal_congr m m6 (f2 + 1) n.right_node (fun j hj =>
                    hoth j (fun hc => hxnotR (hc ▸ hj)) (fun hc => hynotR (hc ▸ hj))
                      (fun hc => hinotR ((hc.trans hqi) ▸ hj)))
                  have hw6R : withinB m6 (f2 + 1) n.right_node = true := hR.2.2.trans hch.2
                  constructor
                  · rw [inorderAux_some m6 (f2 + 2) i _ hq6i]
                    rw [inorderAux_some m (f2 + 1) i n hg, hnlx]
                    rw [hsub.1]
                    rw [inorderAux_mono m6 (f2 + 1) (f2 + 2) n.right_node hw6R (by omega),
                      hR.1]
                  · refine withinB_some_intro m6 (f2 + 2) i _ hq6i ?_ ?_
                    · exact hsub.2
                    · exact withinB_mono m6 (f2 + 1) (f2 + 2) _ hw6R (by omega)
                · -- recurse into the left subtree
                  have hwl : withinB m f (some l) = true := by rw [← hnl]; exact hch.1
                  have hpl : parentOkB m f (some l) = true := by
                    have := hpe.2.2.1
                    rw [hnl] at this
                    exact this
                  have hndl : (idsAux m f (some l)).Nodup := by
                    rw [hnl] at hndL
                    exact hndL
                  have hctx := ih (some l) hwl hpl hndl hxl
                    (fun hc => hlx (Option.some.inj hc))
                  obtain ⟨q', nq', hq', hqp', hqm', _⟩ :=
                    find_parent m f (some l) x nx hwl hpl hxl
                      (fun hc => hlx (Option.some.inj hc)) hgx
                  have hq'q : q' = q := by
                    rw [hqpar] at hqp'
                    exact (Option.some.inj hqp').symm
                  have hqL : q ∈ idsAux m f n.left_node := by
                    rw [hnl]
                    exact hq'q ▸ hqm'
                  have hinq : i ≠ q := fun hc =>
                    hinotin (List.mem_append_left _ (hc ▸ hqL))
                  have hsi : sameShape m m6 i := hoth i (Ne.symm hine) hiny hinq
                  obtain ⟨n', hgi6, hsh⟩ : ∃ n', getN m6 i = some n' ∧ shapeOf n' = shapeOf n := by
                    unfold sameShape at hsi
                    rw [hg] at hsi
                    cases hgi6 : getN m6 i with
                    | none => rw [hgi6] at hsi; simp at hsi
                    | some n' =>
                        rw [hgi6] at hsi
                        simp at hsi
                        exact ⟨n', rfl, hsi⟩
                  obtain ⟨hkey, hleft, hright⟩ := shapeOf_fields hsh
                  have hqnotR : q ∉ idsAux m f n.right_node := fun hc => hdis hqL hc
                  have hR := traversal_congr m m6 f n.right_node (fun j hj =>
                    hoth j (fun hc => hxnotR (hc ▸ hj)) (fun hc => hynotR (hc ▸ hj))
                      (fun hc => hqnotR (hc ▸ hj)))
                  have hw6R : withinB m6 f n.right_node = true := hR.2.2.trans hch.2
                  constructor
                  · rw [inorderAux_some m6 (f + 1) i n' hgi6, hkey, hleft, hright, hnl]
                    rw [inorderAux_some m f i n hg, hnl]
                    rw [hctx.1]
                    rw [inorderAux_mono m6 f (f + 1) n.right_node hw6R (by omega), hR.1]
                  · refine withinB_some_intro m6 (f + 1) i n' hgi6 ?_ ?_
                    · rw [hleft, hnl]
                      exact hctx.2
                    · rw [hright]
                      exact withinB_mono m6 f (f + 1) _ hw6R (by omega)
          · -- x in the right subtree of i (mirror)
            have hxR : x ∈ idsAux m f n.right_node := hxr
            have hymem : y ∈ idsAux m f n.right_node :=
              descendant_mem_ids m f n.right_node x y nx hch.2 hxr hgx (Or.inl hxy)
            have hiny : i ≠ y := fun hc =>
              hinotin (List.mem_append_right _ (hc ▸ hymem))
            have hxnotL : x ∉ idsAux m f n.left_node := fun hc => hdis hc hxR
            have hynotL : y ∉ idsAux m f n.left_node := fun hc => hdis hc hymem
            cases hnr : n.right_node with
            | none => rw [hnr, idsAux_none] at hxr; simp at hxr
            | some l =>
                rw [hnr] at hxr
                by_cases hlx : l = x
                · -- x is i's right child, so i = q, and x is not i's left child
                  have hnrx : n.right_node = some x := by rw [hnr, hlx]
                  obtain ⟨cn, hgc, hcp⟩ := hpe.2.1 x hnrx
                  have hcn : cn = nx := by rw [hgx] at hgc; exact (Option.some.inj hgc).symm
                  have hiq : i = q := by
                    rw [hcn, hqpar] at hcp
                    exact (Option.some.inj hcp).symm
                  have hqi : q = i := hiq.symm
                  have hnq : nq = n := by
                    rw [← hiq, hg] at hgq
                    exact (Option.some.inj hgq).symm
                  have hq6i : getN m6 i = some { n with right_node := some y } := by
                    rw [hiq, hq6, if_pos (by rw [hnq, hnrx]), hnq]
                  have hwx : withinB m f (some x) = true := by rw [← hnrx]; exact hch.2
                  obtain ⟨f2, rfl⟩ : ∃ f2, f = f2 + 1 :=
                    ⟨f - 1, by have := within_fuel_pos m f x hwx; omega⟩
                  have hndX : (idsAux m (f2 + 1) (some x)).Nodup := by
                    rw [hnrx] at hndR
                    exact hndR
                  have hsub := rotate_subtree_inorder_right m m6 x y nx ny hgx hxy hgy f2
                    hwx hndX hx6 hy6 (fun j hj hjx hjy =>
                      hoth j hjx hjy (fun hc =>
                        hinotin (List.mem_append_right _
                          (by rw [hnrx]; exact (hc.trans hqi) ▸ hj))))
                  have hinotL : i ∉ idsAux m (f2 + 1) n.left_node := fun hc =>
                    hinotin (List.mem_append_left _ hc)
                  have hL := traversal_congr m m6 (f2 + 1) n.left_node (fun j hj =>
                    hoth j (fun hc => hxnotL (hc ▸ hj)) (fun hc => hynotL (hc ▸ hj))
                      (fun hc => hinotL ((hc.trans hqi) ▸ hj)))
                  have hw6L : withinB m6 (f2 + 1) n.left_node = true := hL.2.2.trans hch.1
                  constructor
                  · rw [inorderAux_some m6 (f2 + 2) i _ hq6i]
                    rw [inorderAux_some m (f2 + 1) i n hg, hnrx]
                    rw [hsub.1]
                    rw [inorderAux_mono m6 (f2 + 1) (f2 + 2) n.left_node hw6L (by omega),
                      hL.1]
                  · refine withinB_some_intro m6 (f2 + 2) i _ hq6i ?_ ?_
                    · exact withinB_mono m6 (f2 + 1) (f2 + 2) _ hw6L (by omega)
                    · exact hsub.2
                · -- recurse into the right subtree
                  have hwl : withinB m f (some l) = true := by rw [← hnr]; exact hch.2
                  have hpl : parentOkB m f (some l) = true := by
                    have := hpe.2.2.2
                    rw [hnr] at this
                    exact this
                  have hndl : (idsAux m f (some l)).Nodup := by
                    rw [hnr] at hndR
                    exact hndR
                  have hctx := ih (some l) hwl hpl hndl hxr
                    (fun hc => hlx (Option.some.inj hc))
                  obtain ⟨q', nq', hq', hqp', hqm', _⟩ :=
                    find_parent m f (some l) x nx hwl hpl hxr
                      (fun hc => hlx (Option.some.inj hc)) hgx
                  have hq'q : q' = q := by
                    rw [hqpar] at hqp'
                    exact (Option.some.inj hqp').symm
                  have hqR : q ∈ idsAux m f n.right_node := by
                    rw [hnr]
                    exact hq'q ▸ hqm'
                  have hinq : i ≠ q := fun hc =>
                    hinotin (List.mem_append_right _ (hc ▸ hqR))
                  have hsi : sameShape m m6 i := hoth i (Ne.symm hine) hiny hinq
                  obtain ⟨n', hgi6, hsh⟩ : ∃ n', getN m6 i = some n' ∧ shapeOf n' = shapeOf n := by
                    unfold sameShape at hsi
                    rw [hg] at hsi
                    cases hgi6 : getN m6 i with
                    | none => rw [hgi6] at hsi; simp at hsi
                    | some n' =>
                        rw [hgi6] at hsi
                        simp at hsi
                        exact ⟨n', rfl, hsi⟩
                  obtain ⟨hkey, hleft, hright⟩ := shapeOf_fields hsh
                  have hqnotL : q ∉ idsAux m f n.left_node := fun hc => hdis hc hqR
                  have hL := traversal_congr m m6 f n.left_node (fun j hj =>
                    hoth j (fun hc => hxnotL (hc ▸ hj)) (fun hc => hynotL (hc ▸ hj))
                      (fun hc => hqnotL (hc ▸ hj)))
                  have hw6L : withinB m6 f n.left_node = true := hL.2.2.trans hch.1
                  constructor
                  · rw [inorderAux_some m6 (f + 1) i n' hgi6, hkey, hleft, hright, hnr]
                    rw [inorderAux_some m f i n hg, hnr]
                    rw [hctx.1]
                    rw [inorderAux_mono m6 f (f + 1) n.left_node hw6L (by omega), hL.1]
                  · refine withinB_some_intro m6 (f + 1) i n' hgi6 ?_ ?_
                    · rw [hleft]
                      exact withinB_mono m6 f (f + 1) _ hw6L (by omega)
                    · rw [hright, hnr]
                      exact hctx.2
theorem wfB_elim (t : RBTree) (hwf : wfB t = true) :
    withinB t.nodes (tFuel t) t.root = true ∧
    (idsAux t.nodes (tFuel t) t.root).Nodup ∧
    parentOkB t.nodes (tFuel t) t.root = true ∧
    (∀ r nr, t.root = some r → getN t.nodes r = some nr → nr.parent = none) := by
  unfold wfB at hwf
  simp only [Bool.and_eq_true, decide_eq_true_eq] at hwf
  refine ⟨hwf.1.1.1, hwf.1.1.2, hwf.1.2, ?_⟩
  intro r nr hr hgr
  have h := hwf.2
  simp only [hr, hgr] at h
  simpa using h

example (l1 l2 : List Nat) (h : l1.Sublist l2) (h2 : l2.Nodup) : l1.Nodup :=
  h2.sublist h
/-- In a wellformed tree, the nodes a left rotation at `x` touches (the
right child `y`, `y`'s left child, and `x`'s parent) are stored and
pairwise distinct. -/
theorem rotate_neighbours_left (t : RBTree) (x y : Nat) (nx : NodeR)
    (hwf : wfB t = true) (hmem : x ∈ idsAux t.nodes (tFuel t) t.root)
    (hgx : getN t.nodes x = some nx) (hxy : nx.right_node = some y) :
    ∃ ny, getN t.nodes y = some ny ∧ y ≠ x ∧
      (∀ bb, ny.left_node = some bb → ∃ nb, getN t.nodes bb = some nb ∧ bb ≠ x ∧ bb ≠ y) ∧
      (∀ q, nx.parent = some q → ∃ nq, getN t.nodes q = some nq ∧ q ≠ x ∧ q ≠ y ∧
          ∀ bb, ny.left_node = some bb → q ≠ bb) := by
  obtain ⟨hw, hnd, hpo, hrp⟩ := wfB_elim t hwf
  obtain ⟨g, hgle, hwx, hsubl⟩ := sub_ids_sublist t.nodes (tFuel t) t.root x hw hmem
  have hndx : (idsAux t.nodes g (some x)).Nodup := hnd.sublist hsubl
  obtain ⟨g', rfl⟩ : ∃ g', g = g' + 1 :=
    ⟨g - 1, by have := within_fuel_pos t.nodes g x hwx; omega⟩
  have hchx := within_children t.nodes g' x nx hwx hgx
  have hwy : withinB t.nodes g' (some y) = true := by rw [← hxy]; exact hchx.2
  obtain ⟨g2, rfl⟩ : ∃ g2, g' = g2 + 1 :=
    ⟨g' - 1, by have := within_fuel_pos t.nodes g' y hwy; omega⟩
  obtain ⟨ny, hgy⟩ := within_getN_some t.nodes g2 y hwy
  have hchy := within_children t.nodes g2 y ny hwy hgy
  have hexp := idsAux_some t.nodes (g2 + 1) x nx hgx
  rw [hexp] at hndx
  have hxnt := (List.nodup_cons.mp hndx).1
  have hndt := (List.nodup_cons.mp hndx).2
  have hytail : y ∈ idsAux t.nodes (g2 + 1) nx.right_node := by
    rw [hxy]
    exact head_mem_ids t.nodes g2 y
  have hyx : y ≠ x := fun hc => hxnt (List.mem_append_right _ (hc ▸ hytail))
  have hndy : (idsAux t.nodes (g2 + 1) (some y)).Nodup := by
    have h := (List.nodup_append.mp hndt).2.1
    rw [hxy] at h
    exact h
  refine ⟨ny, hgy, hyx, ?_, ?_⟩
  · intro bb hbc
    have hwb : withinB t.nodes g2 (some bb) = true := by rw [← hbc]; exact hchy.1
    obtain ⟨g3, hg3⟩ : ∃ g3, g2 = g3 + 1 :=
      ⟨g2 - 1, by have := within_fuel_pos t.nodes g2 bb hwb; omega⟩
    obtain ⟨nb, hgb⟩ := by rw [hg3] at hwb; exact within_getN_some t.nodes g3 bb hwb
    have hbty : bb ∈ idsAux t.nodes g2 ny.left_node := by
      rw [hbc, hg3]
      exact head_mem_ids t.nodes g3 bb
    have hbtaily : bb ∈ idsAux t.nodes (g2 + 1) (some y) :=
      mem_ids_left t.nodes g2 y bb ny hgy hbty
    have hbtail : bb ∈ idsAux t.nodes (g2 + 1) nx.right_node := by
      rw [hxy]
      exact hbtaily
    have hbx : bb ≠ x := fun hc => hxnt (List.mem_append_right _ (hc ▸ hbtail))
    have hby : bb ≠ y := by
      intro hc
      have hy2 := hndy
      rw [idsAux_some t.nodes g2 y ny hgy] at hy2
      exact (List.nodup_cons.mp hy2).1 (List.mem_append_left _ (hc ▸ hbty))
    exact ⟨nb, hgb, hbx, hby⟩
  · intro q hqp
    have hrx : t.root ≠ some x := by
      intro hc
      have h0 := hrp x nx hc hgx
      rw [hqp] at h0
      exact Option.noConfusion h0
    obtain ⟨q0, nq0, hgq0, hqp0, hq0m, hslot0⟩ :=
      find_parent t.nodes (tFuel t) t.root x nx hw hpo hmem hrx hgx
    have hqq0 : q0 = q := by
      rw [hqp] at hqp0
      exact (Option.some.inj hqp0).symm
    subst hqq0
    refine ⟨nq0, hgq0, ?_, ?_, ?_⟩
    · intro hc
      have hnqx : nq0 = nx := by
        rw [hc, hgx] at hgq0
        exact (Option.some.inj hgq0).symm
      rw [hnqx] at hslot0
      rcases hslot0 with hs | hs
      · exact hxnt (List.mem_append_left _
          (by rw [hs]; exact head_mem_ids t.nodes g2 x))
      · rw [hxy] at hs
        exact hyx (Option.some.inj hs)
    · intro hc
      have hnqy : nq0 = ny := by
        rw [hc, hgy] at hgq0
        exact (Option.some.inj hgq0).symm
      rw [hnqy] at hslot0
      have hxin : x ∈ idsAux t.nodes (g2 + 1) (some y) := by
        rcases hslot0 with hs | hs
        · exact child_left_mem_ids t.nodes g2 y x ny hwy hgy hs
        · exact child_right_mem_ids t.nodes g2 y x ny hwy hgy hs
      exact hxnt (List.mem_append_right _ (by rw [hxy]; exact hxin))
    · intro bb hbc hc
      have hwb : withinB t.nodes g2 (some bb) = true := by rw [← hbc]; exact hchy.1
      obtain ⟨g3, hg3⟩ : ∃ g3, g2 = g3 + 1 :=
        ⟨g2 - 1, by have := within_fuel_pos t.nodes g2 bb hwb; omega⟩
      have hwb3 : withinB t.nodes (g3 + 1) (some bb) = true := by
        rw [← hg3]
        exact hwb
      obtain ⟨nb, hgb⟩ := within_getN_some t.nodes g3 bb hwb3
      have hnqb : nq0 = nb := by
        rw [hc, hgb] at hgq0
        exact (Option.some.inj hgq0).symm
      rw [hnqb] at hslot0
      have hxin_b : x ∈ idsAux t.nodes g2 (some bb) := by
        rw [hg3]
        rcases hslot0 with hs | hs
        · exact child_left_mem_ids t.nodes g3 bb x nb hwb3 hgb hs
        · exact child_right_mem_ids t.nodes g3 bb x nb hwb3 hgb hs
      have hxin_y : x ∈ idsAux t.nodes (g2 + 1) (some y) :=
        mem_ids_left t.nodes g2 y x ny hgy (by rw [hbc]; exact hxin_b)
      exact hxnt (List.mem_append_right _ (by rw [hxy]; exact hxin_y))
/-- Mirror of `rotate_neighbours_left` for a right rotation at `x` (left
child `y`, `y`'s right child, and `x`'s parent). -/
theorem rotate_neighbours_right (t : RBTree) (x y : Nat) (nx : NodeR)
    (hwf : wfB t = true) (hmem : x ∈ idsAux t.nodes (tFuel t) t.root)
    (hgx : getN t.nodes x = some nx) (hxy : nx.left_node = some y) :
    ∃ ny, getN t.nodes y = some ny ∧ y ≠ x ∧
      (∀ bb, ny.right_node = some bb → ∃ nb, getN t.nodes bb = some nb ∧ bb ≠ x ∧ bb ≠ y) ∧
      (∀ q, nx.parent = some q → ∃ nq, getN t.nodes q = some nq ∧ q ≠ x ∧ q ≠ y ∧
          ∀ bb, ny.right_node = some bb → q ≠ bb) := by
  obtain ⟨hw, hnd, hpo, hrp⟩ := wfB_elim t hwf
  obtain ⟨g, hgle, hwx, hsubl⟩ := sub_ids_sublist t.nodes (tFuel t) t.root x hw hmem
  have hndx : (idsAux t.nodes g (some x)).Nodup := hnd.sublist hsubl
  obtain ⟨g', rfl⟩ : ∃ g', g = g' + 1 :=
    ⟨g - 1, by have := within_fuel_pos t.nodes g x hwx; omega⟩
  have hchx := within_children t.nodes g' x nx hwx hgx
  have hwy : withinB t.nodes g' (some y) = true := by rw [← hxy]; exact hchx.1
  obtain ⟨g2, rfl⟩ : ∃ g2, g' = g2 + 1 :=
    ⟨g' - 1, by have := within_fuel_pos t.nodes g' y hwy; omega⟩
  obtain ⟨ny, hgy⟩ := within_getN_some t.nodes g2 y hwy
  have hchy := within_children t.nodes g2 y ny hwy hgy
  have hexp := idsAux_some t.nodes (g2 + 1) x nx hgx
  rw [hexp] at hndx
  have hxnt := (List.nodup_cons.mp hndx).1
  have hndt := (List.nodup_cons.mp hndx).2
  have hytail : y ∈ idsAux t.nodes (g2 + 1) nx.left_node := by
    rw [hxy]
    exact head_mem_ids t.nodes g2 y
  have hyx : y ≠ x := fun hc => hxnt (List.mem_append_left _ (hc ▸ hytail))
  have hndy : (idsAux t.nodes (g2 + 1) (some y)).Nodup := by
    have h := (List.nodup_append.mp hndt).1
    rw [hxy] at h
    exact h
  refine ⟨ny, hgy, hyx, ?_, ?_⟩
  · intro bb hbc
    have hwb : withinB t.nodes g2 (some bb) = true := by rw [← hbc]; exact hchy.2
    obtain ⟨g3, hg3⟩ : ∃ g3, g2 = g3 + 1 :=
      ⟨g2 - 1, by have := within_fuel_pos t.nodes g2 bb hwb; omega⟩
    have hwb3 : withinB t.nodes (g3 + 1) (some bb) = true := by
      rw [← hg3]
      exact hwb
    obtain ⟨nb, hgb⟩ := within_getN_some t.nodes g3 bb hwb3
    have hbty : bb ∈ idsAux t.nodes g2 ny.right_node := by
      rw [hbc, hg3]
      exact head_mem_ids t.nodes g3 bb
    have hbtaily : bb ∈ idsAux t.nodes (g2 + 1) (some y) :=
      mem_ids_right t.nodes g2 y bb ny hgy hbty
    have hbtail : bb ∈ idsAux t.nodes (g2 + 1) nx.left_node := by
      rw [hxy]
      exact hbtaily
    have hbx : bb ≠ x := fun hc => hxnt (List.mem_append_left _ (hc ▸ hbtail))
    have hby : bb ≠ y := by
      intro hc
      have hy2 := hndy
      rw [idsAux_some t.nodes g2 y ny hgy] at hy2
      exact (List.nodup_cons.mp hy2).1 (List.mem_append_right _ (hc ▸ hbty))
    exact ⟨nb, hgb, hbx, hby⟩
  · intro q hqp
    have hrx : t.root ≠ some x := by
      intro hc
      have h0 := hrp x nx hc hgx
      rw [hqp] at h0
      exact Option.noConfusion h0
    obtain ⟨q0, nq0, hgq0, hqp0, hq0m, hslot0⟩ :=
      find_parent t.nodes (tFuel t) t.root x nx hw hpo hmem hrx hgx
    have hqq0 : q0 = q := by
      rw [hqp] at hqp0
      exact (Option.some.inj hqp0).symm
    subst hqq0
    refine ⟨nq0, hgq0, ?_, ?_, ?_⟩
    · intro hc
      have hnqx : nq0 = nx := by
        rw [hc, hgx] at hgq0
        exact (Option.some.inj hgq0).symm
      rw [hnqx] at hslot0
      rcases hslot0 with hs | hs
      · rw [hxy] at hs
        exact hyx (Option.some.inj hs)
      · exact hxnt (List.mem_append_right _
          (by rw [hs]; exact head_mem_ids t.nodes g2 x))
    · intro hc
      have hnqy : nq0 = ny := by
        rw [hc, hgy] at hgq0
        exact (Option.some.inj hgq0).symm
      rw [hnqy] at hslot0
      have hxin : x ∈ idsAux t.nodes (g2 + 1) (some y) := by
        rcases hslot0 with hs | hs
        · exact child_left_mem_ids t.nodes g2 y x ny hwy hgy hs
        · exact child_right_mem_ids t.nodes g2 y x ny hwy hgy hs
      exact hxnt (List.mem_append_left _ (by rw [hxy]; exact hxin))
    · intro bb hbc hc
      have hwb : withinB t.nodes g2 (some bb) = true := by rw [← hbc]; exact hchy.2
      obtain ⟨g3, hg3⟩ : ∃ g3, g2 = g3 + 1 :=
        ⟨g2 - 1, by have := within_fuel_pos t.nodes g2 bb hwb; omega⟩
      have hwb3 : withinB t.nodes (g3 + 1) (some bb) = true := by
        rw [← hg3]
        exact hwb
      obtain ⟨nb, hgb⟩ := within_getN_some t.nodes g3 bb hwb3
      have hnqb : nq0 = nb := by
        rw [hc, hgb] at hgq0
        exact (Option.some.inj hgq0).symm
      rw [hnqb] at hslot0
      have hxin_b : x ∈ idsAux t.nodes g2 (some bb) := by
        rw [hg3]
        rcases hslot0 with hs | hs
        · exact child_left_mem_ids t.nodes g3 bb x nb hwb3 hgb hs
        · exact child_right_mem_ids t.nodes g3 bb x nb hwb3 hgb hs
      have hxin_y : x ∈ idsAux t.nodes (g2 + 1) (some y) :=
        mem_ids_right t.nodes g2 y x ny hgy (by rw [hbc]; exact hxin_b)
      exact hxnt (List.mem_append_left _ (by rw [hxy]; exact hxin_y))
/-- Claim C7 (amended): for every structurally wellformed tree and node `x`
with a right child `y`, `_left_rotate x` succeeds and re-links so that `y`'s
former left subtree becomes `x`'s right subtree, `y` takes `x`'s former
position relative to `x`'s parent (or becomes root when `x` was root, and is
installed in the same child slot of the parent otherwise), and `x` becomes
`y`'s left child; the in-order key sequence of the whole tree is unchanged;
and only the child slots of `x`, `y` and the parent, the parent
back-references of `x`, `y` *and of `y`'s former left child when present*,
and (in the root case) the root reference change.  The mirror statement
holds for `_right_rotate` on a node with a left child. -/
theorem C7_rotate_left_and_right (t : RBTree) (x : Nat) (nx : NodeR)
    (hwf : wfB t = true) (hmem : x ∈ idsAux t.nodes (tFuel t) t.root)
    (hgx : getN t.nodes x = some nx) :
    (∀ y, nx.right_node = some y →
      ∃ t' ny, RBTree._left_rotate t x = Res.ok t' ∧ getN t.nodes y = some ny ∧
        getN t'.nodes x = some { nx with right_node := ny.left_node, parent := some y } ∧
        getN t'.nodes y = some { ny with left_node := some x, parent := nx.parent } ∧
        (nx.parent = none → t'.root = some y) ∧
        (∀ q nq, nx.parent = some q → getN t.nodes q = some nq →
            t'.root = t.root ∧
            getN t'.nodes q = some (if nq.left_node = some x
              then { nq with left_node := some y }
              else { nq with right_node := some y })) ∧
        (∀ bb nb, ny.left_node = some bb → getN t.nodes bb = some nb →
            getN t'.nodes bb = some { nb with parent := some x }) ∧
        inorderAux t'.nodes (tFuel t + 1) t'.root = inorderAux t.nodes (tFuel t) t.root ∧
        withinB t'.nodes (tFuel t + 1) t'.root = true ∧
        (∀ j, j ≠ x → j ≠ y → (∀ bb, ny.left_node = some bb → j ≠ bb) →
            (∀ q, nx.parent = some q → j ≠ q) → getN t'.nodes j = getN t.nodes j) ∧
        t'.nodes.length = t.nodes.length) ∧
    (∀ y, nx.left_node = some y →
      ∃ t' ny, RBTree._right_rotate t x = Res.ok t' ∧ getN t.nodes y = some ny ∧
        getN t'.nodes x = some { nx with left_node := ny.right_node, parent := some y } ∧
        getN t'.nodes y = some { ny with right_node := some x, parent := nx.parent } ∧
        (nx.parent = none → t'.root = some y) ∧
        (∀ q nq, nx.parent = some q → getN t.nodes q = some nq →
            t'.root = t.root ∧
            getN t'.nodes q = some (if nq.right_node = some x
              then { nq with right_node := some y }
              else { nq with left_node := some y })) ∧
        (∀ bb nb, ny.right_node = some bb → getN t.nodes bb = some nb →
            getN t'.nodes bb = some { nb with parent := some x }) ∧
        inorderAux t'.nodes (tFuel t + 1) t'.root = inorderAux t.nodes (tFuel t) t.root ∧
        withinB t'.nodes (tFuel t + 1) t'.root = true ∧
        (∀ j, j ≠ x → j ≠ y → (∀ bb, ny.right_node = some bb → j ≠ bb) →
            (∀ q, nx.parent = some q → j ≠ q) → getN t'.nodes j = getN t.nodes j) ∧
        t'.nodes.length = t.nodes.length) := by
  obtain ⟨hw, hnd, hpo, hrp⟩ := wfB_elim t hwf
  constructor
  · intro y hxy
    obtain ⟨ny, hgy, hyx, hbb, hqq⟩ := rotate_neighbours_left t x y nx hwf hmem hgx hxy
    obtain ⟨m6, hrun, hx6, hy6, hb6, hq6, hfr, hlen⟩ :=
      left_rotate_exec t x y nx ny hgx hxy hgy hyx hbb hqq
    have hshape : ∀ j, j ≠ x → j ≠ y →
        (∀ q0, nx.parent = some q0 → j ≠ q0) → sameShape t.nodes m6 j := by
      intro j hjx hjy hjq
      by_cases hjb : ∃ bb, ny.left_node = some bb ∧ j = bb
      · obtain ⟨bb, hbc, hjbb⟩ := hjb
        obtain ⟨nb, hgb, _, _⟩ := hbb bb hbc
        unfold sameShape
        rw [hjbb, hb6 bb nb hbc hgb, hgb]
        rfl
      · have hne : ∀ bb, ny.left_node = some bb → j ≠ bb :=
          fun bb hbc hc => hjb ⟨bb, hbc, hc⟩
        unfold sameShape
        rw [hfr j hjx hjy hne hjq]
    by_cases hroot : t.root = some x
    · have hpn : nx.parent = none := hrp x nx hroot hgx
      simp only [hpn] at hrun
      have hsub := rotate_subtree_inorder_left t.nodes m6 x y nx ny hgx hxy hgy
        t.nodes.length (by rw [← hroot]; exact hw) (by rw [← hroot]; exact hnd)
        hx6 hy6
        (fun j hj hjx hjy => hshape j hjx hjy
          (fun q0 hq0 => absurd (hpn ▸ hq0) (by simp)))
      refine ⟨{ root := some y, nodes := m6 }, ny, hrun, hgy, hx6, hy6,
        fun _ => rfl, ?_, hb6, ?_, ?_, hfr, hlen⟩
      · intro q nq hqp _
        rw [hpn] at hqp
        exact Option.noConfusion hqp
      · show inorderAux m6 (tFuel t + 1) (some y) = inorderAux t.nodes (tFuel t) t.root
        rw [hroot]
        exact hsub.1
      · exact hsub.2
    · obtain ⟨q, nq, hgq, hqp, hqm, hslot⟩ :=
        find_parent t.nodes (tFuel t) t.root x nx hw hpo hmem
          (fun hc => hroot hc) hgx
      have hq6q := hq6 q nq hqp hgq
      have hctx := rotate_ctx_inorder_left t.nodes m6 x y q nx ny nq hgx hxy hgy
        hqp hgq hx6 hy6 hq6q
        (fun j a b c => hshape j a b
          (fun q0 hq0 => by
            rw [hqp] at hq0
            exact (Option.some.inj hq0) ▸ c))
        (tFuel t) t.root hw hpo hnd hmem (fun hc => hroot hc)
      simp only [hqp] at hrun
      refine ⟨{ root := t.root, nodes := m6 }, ny, hrun, hgy, hx6, hy6, ?_, ?_,
        hb6, hctx.1, hctx.2, hfr, hlen⟩
      · intro hc
        rw [hqp] at hc
        exact Option.noConfusion hc
      · intro q1 nq1 hqp1 hgq1
        have hq1 : q1 = q := by
          rw [hqp] at hqp1
          exact (Option.some.inj hqp1).symm
        subst hq1
        have hnq1 : nq1 = nq := by
          rw [hgq] at hgq1
          exact (Option.some.inj hgq1).symm
        subst hnq1
        exact ⟨rfl, hq6q⟩
  · intro y hxy
    obtain ⟨ny, hgy, hyx, hbb, hqq⟩ := rotate_neighbours_right t x y nx hwf hmem hgx hxy
    obtain ⟨m6, hrun, hx6, hy6, hb6, hq6, hfr, hlen⟩ :=
      right_rotate_exec t x y nx ny hgx hxy hgy hyx hbb hqq
    have hshape : ∀ j, j ≠ x → j ≠ y →
        (∀ q0, nx.parent = some q0 → j ≠ q0) → sameShape t.nodes m6 j := by
      intro j hjx hjy hjq
      by_cases hjb : ∃ bb, ny.right_node = some bb ∧ j = bb
      · obtain ⟨bb, hbc, hjbb⟩ := hjb
        obtain ⟨nb, hgb, _, _⟩ := hbb bb hbc
        unfold sameShape
        rw [hjbb, hb6 bb nb hbc hgb, hgb]
        rfl
      · have hne : ∀ bb, ny.right_node = some bb → j ≠ bb :=
          fun bb hbc hc => hjb ⟨bb, hbc, hc⟩
        unfold sameShape
        rw [hfr j hjx hjy hne hjq]
    by_cases hroot : t.root = some x
    · have hpn : nx.parent = none := hrp x nx hroot hgx
      simp only [hpn] at hrun
      have hsub := rotate_subtree_inorder_right t.nodes m6 x y nx ny hgx hxy hgy
        t.nodes.length (by rw [← hroot]; exact hw) (by rw [← hroot]; exact hnd)
        hx6 hy6
        (fun j hj hjx hjy => hshape j hjx hjy
          (fun q0 hq0 => absurd (hpn ▸ hq0) (by simp)))
      refine ⟨{ root := some y, nodes := m6 }, ny, hrun, hgy, hx6, hy6,
        fun _ => rfl, ?_, hb6, ?_, ?_, hfr, hlen⟩
      · intro q nq hqp _
        rw [hpn] at hqp
        exact Option.noConfusion hqp
      · show inorderAux m6 (tFuel t + 1) (some y) = inorderAux t.nodes (tFuel t) t.root
        rw [hroot]
        exact hsub.1
      · exact hsub.2
    · obtain ⟨q, nq, hgq, hqp, hqm, hslot⟩ :=
        find_parent t.nodes (tFuel t) t.root x nx hw hpo hmem
          (fun hc => hroot hc) hgx
      have hq6q := hq6 q nq hqp hgq
      have hctx := rotate_ctx_inorder_right t.nodes m6 x y q nx ny nq hgx hxy hgy
        hqp hgq hx6 hy6 hq6q
        (fun j a b c => hshape j a b
          (fun q0 hq0 => by
            rw [hqp] at hq0
            exact (Option.some.inj hq0) ▸ c))
        (tFuel t) t.root hw hpo hnd hmem (fun hc => hroot hc)
      simp only [hqp] at hrun
      refine ⟨{ root := t.root, nodes := m6 }, ny, hrun, hgy, hx6, hy6, ?_, ?_,
        hb6, hctx.1, hctx.2, hfr, hlen⟩
      · intro hc
        rw [hqp] at hc
        exact Option.noConfusion hc
      · intro q1 nq1 hqp1 hgq1
        have hq1 : q1 = q := by
          rw [hqp] at hqp1
          exact (Option.some.inj hqp1).symm
        subst hq1
        have hnq1 : nq1 = nq := by
          rw [hgq] at hgq1
          exact (Option.some.inj hgq1).symm
        subst hnq1
        exact ⟨rfl, hq6q⟩
/-- Claim C7, counterexample: rotating left at the root of `tree5` (node 0,
whose right child is node 2 with left child node 3) changes the parent
back-reference of node 3 — a node that is neither `x` nor `y` — from node 2
to node 0, so the claim's list of the only changed locations (the child
slots, the parent back-references of `x` and `y`, and the grandparent's
child slot) is violated. -/
theorem C7_third_parent_reference_changes :
    wfB tree5 = true ∧
    (getN tree5.nodes 0).map NodeR.right_node = some (some 2) ∧
    (getN tree5.nodes 2).map NodeR.left_node = some (some 3) ∧
    (getN tree5.nodes 3).map NodeR.parent = some (some 2) ∧
    obsR (fun t2 => (getN t2.nodes 3).map NodeR.parent) (RBTree._left_rotate tree5 0)
      = some (some (some 0)) ∧
    ((3 : Nat) ≠ 0 ∧ (3 : Nat) ≠ 2 ∧ (some 0 : Option Nat) ≠ some 2) :=
  ⟨by decide, by decide, by decide, by decide, by decide, by decide⟩

/-- Witness for C7 at a concrete input: `tree5` is wellformed, node 2 is
reachable and has right child 4, and the rotation theorem applies, so
`_left_rotate` succeeds there. -/
theorem C7_witness :
    wfB tree5 = true ∧
    2 ∈ idsAux tree5.nodes (tFuel tree5) tree5.root ∧
    getN tree5.nodes 2 = some (⟨4, Colour.black, some 0, some 3, some 4⟩ : NodeR) ∧
    RBTree._left_rotate tree5 2 ≠ Res.err := by
  refine ⟨by decide, by decide, rfl, ?_⟩
  obtain ⟨t', ny, hrun, -⟩ :=
    (C7_rotate_left_and_right tree5 2 _ (by decide) (by decide) rfl).1 4 rfl
  rw [hrun]
  intro h
  exact Res.noConfusion h
/-! ### Recolouring and parent-chain machinery for the insert-fixup analysis -/

theorem updF_absent (m : Arena) (u : Nat) (f : NodeR → NodeR)
    (h : getN m u = none) : updF m u f = m := by
  unfold updF
  rw [h]

theorem getN_some_length_pos (m : Arena) (i : Nat) (n : NodeR)
    (h : getN m i = some n) : 1 ≤ m.length := by
  cases m with
  | nil => simp [getN] at h
  | cons e rest => simp

theorem linksOf_fields {n n2 : NodeR} (h : linksOf n2 = linksOf n) :
    n2.parent = n.parent ∧ n2.left_node = n.left_node ∧ n2.right_node = n.right_node := by
  unfold linksOf at h
  exact ⟨congrArg Prod.fst h, congrArg (fun p => p.2.1) h, congrArg (fun p => p.2.2) h⟩

/-- A recolouring write preserves the pointer part of every entry. -/
theorem colour_upd_links (m : Arena) (u : Nat) (c : Colour) (j : Nat) :
    (getN (updF m u fun x => { x with colour := c }) j).map linksOf
      = (getN m j).map linksOf := by
  cases hgu : getN m u with
  | none => rw [updF_absent m u _ hgu]
  | some nu =>
      by_cases hj : j = u
      · subst hj
        rw [getN_updF_self m j _ nu hgu, hgu]
        rfl
      · rw [getN_updF_ne m u j _ hj]

/-- A recolouring write preserves the traversal-visible shape of every entry. -/
theorem colour_upd_shape (m : Arena) (u : Nat) (c : Colour) (j : Nat) :
    sameShape m (updF m u fun x => { x with colour := c }) j := by
  unfold sameShape
  cases hgu : getN m u with
  | none => rw [updF_absent m u _ hgu]
  | some nu =>
      by_cases hj : j = u
      · subst hj
        rw [getN_updF_self m j _ nu hgu, hgu]
        rfl
      · rw [getN_updF_ne m u j _ hj]

/-- The parent-consistency check only reads pointers, so it is stable under
writes that preserve every entry's pointer part. -/
theorem parentOk_congr (m m2 : Arena)
    (h : ∀ j, (getN m2 j).map linksOf = (getN m j).map linksOf) :
    ∀ (f : Nat) (r : Option Nat), parentOkB m2 f r = parentOkB m f r := by
  intro f
  induction f with
  | zero => intro r; cases r <;> rfl
  | succ f ih =>
      intro r
      cases r with
      | none => rfl
      | some i =>
          have hi := h i
          cases hg : getN m i with
          | none =>
              rw [hg] at hi
              have hg2 : getN m2 i = none := by
                cases hg2 : getN m2 i with
                | none => rfl
                | some n2 => rw [hg2] at hi; simp at hi
              simp [parentOkB, hg, hg2]
          | some n =>
              rw [hg] at hi
              obtain ⟨n2, hg2, hlk⟩ : ∃ n2, getN m2 i = some n2 ∧ linksOf n2 = linksOf n := by
                cases hg2 : getN m2 i with
                | none => rw [hg2] at hi; simp at hi
                | some n2 =>
                    rw [hg2] at hi
                    simp at hi
                    exact ⟨n2, rfl, hi⟩
              obtain ⟨hpar, hleft, hright⟩ := linksOf_fields hlk
              have hslot : ∀ (c : Option Nat),
                  (match c with
                   | none => true
                   | some cc =>
                       match getN m2 cc with
                       | none => false
                       | some cn => cn.parent == some i) =
                  (match c with
                   | none => true
                   | some cc =>
                       match getN m cc with
                       | none => false
                       | some cn => cn.parent == some i) := by
                intro c
                cases c with
                | none => rfl
                | some cc =>
                    have hc := h cc
                    cases hgc : getN m cc with
                    | none =>
                        rw [hgc] at hc
                        have hgc2 : getN m2 cc = none := by
                          cases hgc2 : getN m2 cc with
                          | none => rfl
                          | some cn2 => rw [hgc2] at hc; simp at hc
                        simp only [hgc, hgc2]
                    | some cn =>
                        rw [hgc] at hc
                        obtain ⟨cn2, hgc2, hlk2⟩ : ∃ cn2, getN m2 cc = some cn2 ∧
                            linksOf cn2 = linksOf cn := by
                          cases hgc2 : getN m2 cc with
                          | none => rw [hgc2] at hc; simp at hc
                          | some cn2 =>
                              rw [hgc2] at hc
                              simp at hc
                              exact ⟨cn2, rfl, hc⟩
                        simp only [hgc, hgc2, (linksOf_fields hlk2).1]
              simp only [parentOkB, hg, hg2, hleft, hright, hslot n.left_node,
                hslot n.right_node, ih n.left_node, ih n.right_node]

/-- The parent-chain length only reads pointers, so it is stable under
writes that preserve every entry's pointer part. -/
theorem pchain_congr (m m2 : Arena)
    (h : ∀ j, (getN m2 j).map linksOf = (getN m j).map linksOf) :
    ∀ (f : Nat) (r : Option Nat), pchainB m2 f r = pchainB m f r := by
  intro f
  induction f with
  | zero => intro r; cases r <;> rfl
  | succ f ih =>
      intro r
      cases r with
      | none => rfl
      | some i =>
          have hi := h i
          cases hg : getN m i with
          | none =>
              rw [hg] at hi
              have hg2 : getN m2 i = none := by
                cases hg2 : getN m2 i with
                | none => rfl
                | some n2 => rw [hg2] at hi; simp at hi
              simp [pchainB, hg, hg2]
          | some n =>
              rw [hg] at hi
              obtain ⟨n2, hg2, hlk⟩ : ∃ n2, getN m2 i = some n2 ∧ linksOf n2 = linksOf n := by
                cases hg2 : getN m2 i with
                | none => rw [hg2] at hi; simp at hi
                | some n2 =>
                    rw [hg2] at hi
                    simp at hi
                    exact ⟨n2, rfl, hi⟩
              simp only [pchainB, hg, hg2, (linksOf_fields hlk).1, ih n.parent]

/-- A terminating parent chain keeps its length at any larger fuel. -/
theorem pchain_mono (m : Arena) :
    ∀ (f : Nat) (r : Option Nat) (d : Nat), pchainB m f r = some d →
      ∀ f2, f ≤ f2 → pchainB m f2 r = some d := by
  intro f
  induction f with
  | zero =>
      intro r d h f2 _
      cases r with
      | none =>
          cases f2 with
          | zero => exact h
          | succ f2 => simpa [pchainB] using h
      | some i => simp [pchainB] at h
  | succ f ih =>
      intro r d h f2 hle
      cases r with
      | none =>
          cases f2 with
          | zero => simpa [pchainB] using h
          | succ f2 => simpa [pchainB] using h
      | some i =>
          obtain ⟨f2', rfl⟩ : ∃ f2', f2 = f2' + 1 := ⟨f2 - 1, by omega⟩
          simp only [pchainB] at h ⊢
          cases hg : getN m i with
          | none => rw [hg] at h; simp at h
          | some n =>
              simp only [hg] at h ⊢
              cases hc : pchainB m f n.parent with
              | none => rw [hc] at h; simp at h
              | some d1 =>
                  rw [hc] at h
                  rw [ih n.parent d1 hc f2' (by omega)]
                  exact h

/-- Inside a duplicate-free subtree no strict descendant of the subtree root
stores the root as a child again (and none equals the root). -/
theorem no_child_back (m : Arena) (f : Nat) (g : Nat) (gn : NodeR)
    (hw : withinB m (f + 1) (some g) = true)
    (hnd : (idsAux m (f + 1) (some g)).Nodup)
    (hgg : getN m g = some gn) :
    ∀ z, z ∈ idsAux m f gn.left_node ++ idsAux m f gn.right_node →
      z ≠ g ∧ ∀ nz, getN m z = some nz →
        nz.left_node ≠ some g ∧ nz.right_node ≠ some g := by
  intro z hz
  have hexp := idsAux_some m f g gn hgg
  rw [hexp] at hnd
  have hgnt := (List.nodup_cons.mp hnd).1
  have hch := within_children m f g gn hw hgg
  constructor
  · intro hc
    exact hgnt (hc ▸ hz)
  · intro nz hgz
    constructor
    · intro hc
      rcases List.mem_append.mp hz with hzl | hzr
      · exact hgnt (List.mem_append_left _
          (descendant_mem_ids m f gn.left_node z g nz hch.1 hzl hgz (Or.inl hc)))
      · exact hgnt (List.mem_append_right _
          (descendant_mem_ids m f gn.right_node z g nz hch.2 hzr hgz (Or.inl hc)))
    · intro hc
      rcases List.mem_append.mp hz with hzl | hzr
      · exact hgnt (List.mem_append_left _
          (descendant_mem_ids m f gn.left_node z g nz hch.1 hzl hgz (Or.inr hc)))
      · exact hgnt (List.mem_append_right _
          (descendant_mem_ids m f gn.right_node z g nz hch.2 hzr hgz (Or.inr hc)))

/-- All the stored-entry, slot and distinctness facts the fixup-loop
analysis needs about a node `i`, its parent `p` and its grandparent `g`
in a wellformed tree. -/
theorem fixup_cluster (t : RBTree) (i p g : Nat) (n pn : NodeR)
    (hwf : wfB t = true) (hmem : i ∈ idsAux t.nodes (tFuel t) t.root)
    (hgi : getN t.nodes i = some n) (hip : n.parent = some p)
    (hgp : getN t.nodes p = some pn) (hpg : pn.parent = some g) :
    ∃ gn, getN t.nodes g = some gn ∧
      p ∈ idsAux t.nodes (tFuel t) t.root ∧
      g ∈ idsAux t.nodes (tFuel t) t.root ∧
      i ≠ p ∧ i ≠ g ∧ p ≠ g ∧
      (pn.left_node = some i ∨ pn.right_node = some i) ∧
      (gn.left_node = some p ∨ gn.right_node = some p) ∧
      ¬(pn.left_node = some i ∧ pn.right_node = some i) ∧
      ¬(gn.left_node = some p ∧ gn.right_node = some p) ∧
      (∀ a b, n.left_node = some a → n.right_node = some b → a ≠ b) ∧
      (∀ a b, pn.left_node = some a → pn.right_node = some b → a ≠ b) ∧
      (∀ c, n.left_node = some c ∨ n.right_node = some c →
          ∃ nc, getN t.nodes c = some nc ∧ c ≠ i ∧ c ≠ p ∧ c ≠ g) ∧
      (∀ w, pn.left_node = some w ∨ pn.right_node = some w →
          ∃ nw, getN t.nodes w = some nw ∧ w ≠ p ∧ w ≠ g) ∧
      (∀ u, gn.left_node = some u → gn.right_node = some p →
          ∃ nu, getN t.nodes u = some nu ∧ u ≠ g ∧ u ≠ p ∧ u ≠ i) ∧
      (∀ u, gn.right_node = some u → gn.left_node = some p →
          ∃ nu, getN t.nodes u = some nu ∧ u ≠ g ∧ u ≠ p ∧ u ≠ i) ∧
      (∀ q, gn.parent = some q →
          ∃ nq, getN t.nodes q = some nq ∧ q ≠ g ∧ q ≠ p ∧ q ≠ i ∧
            (∀ c, n.left_node = some c ∨ n.right_node = some c → q ≠ c) ∧
            (∀ w, pn.left_node = some w ∨ pn.right_node = some w → q ≠ w)) := by
  obtain ⟨hw, hnd, hpo, hrp⟩ := wfB_elim t hwf
  -- locate p as i's tree parent
  have hri : t.root ≠ some i := by
    intro hc
    have h0 := hrp i n hc hgi
    rw [hip] at h0
    exact Option.noConfusion h0
  obtain ⟨q0, nq0, hgq0, hqp0, hq0m, hslot0⟩ :=
    find_parent t.nodes (tFuel t) t.root i n hw hpo hmem hri hgi
  have hq0p : p = q0 := by
    rw [hip] at hqp0
    exact Option.some.inj hqp0
  subst hq0p
  have hnq0 : pn = nq0 := by
    rw [hgp] at hgq0
    exact Option.some.inj hgq0
  subst hnq0
  have hpm : p ∈ idsAux t.nodes (tFuel t) t.root := hq0m
  have hslotp : pn.left_node = some i ∨ pn.right_node = some i := hslot0
  -- locate g as p's tree parent
  have hrpn : t.root ≠ some p := by
    intro hc
    have h0 := hrp p pn hc hgp
    rw [hpg] at h0
    exact Option.noConfusion h0
  obtain ⟨q1, nq1, hgq1, hqp1, hq1m, hslot1⟩ :=
    find_parent t.nodes (tFuel t) t.root p pn hw hpo hpm hrpn hgp
  have hq1g : g = q1 := by
    rw [hpg] at hqp1
    exact Option.some.inj hqp1
  subst hq1g
  have hgm : g ∈ idsAux t.nodes (tFuel t) t.root := hq1m
  refine ⟨nq1, hgq1, hpm, hgm, ?_⟩
  set gn := nq1 with hgn
  have hgg : getN t.nodes g = some gn := hgq1
  have hslotg : gn.left_node = some p ∨ gn.right_node = some p := hslot1
  -- subtree of g, with its fuel
  obtain ⟨fg, hfgle, hwg0, hsubg⟩ :=
    sub_ids_sublist t.nodes (tFuel t) t.root g hw hgm
  have hndg0 : (idsAux t.nodes fg (some g)).Nodup := hnd.sublist hsubg
  obtain ⟨fg', rfl⟩ : ∃ fg', fg = fg' + 1 :=
    ⟨fg - 1, by have := within_fuel_pos t.nodes fg g hwg0; omega⟩
  have hchg := within_children t.nodes fg' g gn hwg0 hgg
  have hwp : withinB t.nodes fg' (some p) = true := by
    rcases hslotg with h | h
    · rw [← h]; exact hchg.1
    · rw [← h]; exact hchg.2
  obtain ⟨fp, rfl⟩ : ∃ fp, fg' = fp + 1 :=
    ⟨fg' - 1, by have := within_fuel_pos t.nodes fg' p hwp; omega⟩
  have hchp := within_children t.nodes fp p pn hwp hgp
  have hwi : withinB t.nodes fp (some i) = true := by
    rcases hslotp with h | h
    · rw [← h]; exact hchp.1
    · rw [← h]; exact hchp.2
  obtain ⟨fi, rfl⟩ : ∃ fi, fp = fi + 1 :=
    ⟨fp - 1, by have := within_fuel_pos t.nodes fp i hwi; omega⟩
  have hchi := within_children t.nodes fi i n hwi hgi
  -- tail of g and the nodup structure
  have hexpg := idsAux_some t.nodes ((fi + 1) + 1) g gn hgg
  rw [hexpg] at hndg0
  have hgnt : g ∉ idsAux t.nodes ((fi + 1) + 1) gn.left_node ++ idsAux t.nodes ((fi + 1) + 1) gn.right_node :=
    (List.nodup_cons.mp hndg0).1
  have hndtg : (idsAux t.nodes ((fi + 1) + 1) gn.left_node ++ idsAux t.nodes ((fi + 1) + 1) gn.right_node).Nodup :=
    (List.nodup_cons.mp hndg0).2
  have hdisg : (idsAux t.nodes ((fi + 1) + 1) gn.left_node).Disjoint (idsAux t.nodes ((fi + 1) + 1) gn.right_node) :=
    (List.nodup_append.mp hndtg).2.2
  -- memberships in the tail of g
  have hptail : p ∈ idsAux t.nodes ((fi + 1) + 1) gn.left_node ++ idsAux t.nodes ((fi + 1) + 1) gn.right_node := by
    rcases hslotg with h | h
    · exact List.mem_append_left _ (by rw [h]; exact head_mem_ids t.nodes (fi + 1) p)
    · exact List.mem_append_right _ (by rw [h]; exact head_mem_ids t.nodes (fi + 1) p)
  have hisubp : i ∈ idsAux t.nodes ((fi + 1) + 1) (some p) := by
    rcases hslotp with h | h
    · exact child_left_mem_ids t.nodes (fi + 1) p i pn hwp hgp h
    · exact child_right_mem_ids t.nodes (fi + 1) p i pn hwp hgp h
  have hitail : i ∈ idsAux t.nodes ((fi + 1) + 1) gn.left_node ++ idsAux t.nodes ((fi + 1) + 1) gn.right_node := by
    rcases hslotg with h | h
    · exact List.mem_append_left _ (by rw [h]; exact hisubp)
    · exact List.mem_append_right _ (by rw [h]; exact hisubp)
  have hcsubp : ∀ c, n.left_node = some c ∨ n.right_node = some c →
      c ∈ idsAux t.nodes ((fi + 1) + 1) (some p) := by
    intro c hc
    have hci : c ∈ idsAux t.nodes (fi + 1) (some i) := by
      rcases hc with h | h
      · exact child_left_mem_ids t.nodes fi i c n hwi hgi h
      · exact child_right_mem_ids t.nodes fi i c n hwi hgi h
    rcases hslotp with h | h
    · exact mem_ids_left t.nodes (fi + 1) p c pn hgp (by rw [h]; exact hci)
    · exact mem_ids_right t.nodes (fi + 1) p c pn hgp (by rw [h]; exact hci)
  have hctail : ∀ c, n.left_node = some c ∨ n.right_node = some c →
      c ∈ idsAux t.nodes ((fi + 1) + 1) gn.left_node ++ idsAux t.nodes ((fi + 1) + 1) gn.right_node := by
    intro c hc
    rcases hslotg with h | h
    · exact List.mem_append_left _ (by rw [h]; exact hcsubp c hc)
    · exact List.mem_append_right _ (by rw [h]; exact hcsubp c hc)
  have hwsubp : ∀ w, pn.left_node = some w ∨ pn.right_node = some w →
      w ∈ idsAux t.nodes ((fi + 1) + 1) (some p) := by
    intro w hc
    rcases hc with h | h
    · exact child_left_mem_ids t.nodes (fi + 1) p w pn hwp hgp h
    · exact child_right_mem_ids t.nodes (fi + 1) p w pn hwp hgp h
  have hwtail : ∀ w, pn.left_node = some w ∨ pn.right_node = some w →
      w ∈ idsAux t.nodes ((fi + 1) + 1) gn.left_node ++ idsAux t.nodes ((fi + 1) + 1) gn.right_node := by
    intro w hc
    rcases hslotg with h | h
    · exact List.mem_append_left _ (by rw [h]; exact hwsubp w hc)
    · exact List.mem_append_right _ (by rw [h]; exact hwsubp w hc)
  -- global membership of everything in g's tail, and stored entries
  have htailglob : ∀ z, z ∈ idsAux t.nodes ((fi + 1) + 1) gn.left_node ++ idsAux t.nodes ((fi + 1) + 1) gn.right_node →
      z ∈ idsAux t.nodes (tFuel t) t.root := by
    intro z hz
    exact hsubg.subset (by rw [hexpg]; exact List.mem_cons_of_mem _ hz)
  -- no-child-back instances
  have NBg := no_child_back t.nodes ((fi + 1) + 1) g gn hwg0 (by rw [hexpg]; exact hndg0) hgg
  have hndsubp : (idsAux t.nodes ((fi + 1) + 1) (some p)).Nodup := by
    rcases hslotg with h | h
    · have := (List.nodup_append.mp hndtg).1
      rw [h] at this
      exact this
    · have := (List.nodup_append.mp hndtg).2.1
      rw [h] at this
      exact this
  have NBp := no_child_back t.nodes (fi + 1) p pn hwp
    (by
      have h := hndsubp
      rw [idsAux_some t.nodes (fi + 1) p pn hgp] at h
      rw [idsAux_some t.nodes (fi + 1) p pn hgp]
      exact h) hgp
  have hexpp := idsAux_some t.nodes (fi + 1) p pn hgp
  have hndtp : (idsAux t.nodes (fi + 1) pn.left_node ++ idsAux t.nodes (fi + 1) pn.right_node).Nodup := by
    have h := hndsubp
    rw [hexpp] at h
    exact (List.nodup_cons.mp h).2
  have hdisp : (idsAux t.nodes (fi + 1) pn.left_node).Disjoint (idsAux t.nodes (fi + 1) pn.right_node) :=
    (List.nodup_append.mp hndtp).2.2
  have hitailp : i ∈ idsAux t.nodes (fi + 1) pn.left_node ++ idsAux t.nodes (fi + 1) pn.right_node := by
    rcases hslotp with h | h
    · exact List.mem_append_left _ (by rw [h]; exact head_mem_ids t.nodes fi i)
    · exact List.mem_append_right _ (by rw [h]; exact head_mem_ids t.nodes fi i)
  have hctailp : ∀ c, n.left_node = some c ∨ n.right_node = some c →
      c ∈ idsAux t.nodes (fi + 1) pn.left_node ++ idsAux t.nodes (fi + 1) pn.right_node := by
    intro c hc
    have hci : c ∈ idsAux t.nodes (fi + 1) (some i) := by
      rcases hc with h | h
      · exact child_left_mem_ids t.nodes fi i c n hwi hgi h
      · exact child_right_mem_ids t.nodes fi i c n hwi hgi h
    rcases hslotp with h | h
    · exact List.mem_append_left _ (by rw [h]; exact hci)
    · exact List.mem_append_right _ (by rw [h]; exact hci)
  have hwtailp : ∀ w, pn.left_node = some w ∨ pn.right_node = some w →
      w ∈ idsAux t.nodes (fi + 1) pn.left_node ++ idsAux t.nodes (fi + 1) pn.right_node := by
    intro w hc
    rcases hc with h | h
    · refine List.mem_append_left _ ?_
      rw [h]
      exact head_mem_ids t.nodes fi w
    · refine List.mem_append_right _ ?_
      rw [h]
      exact head_mem_ids t.nodes fi w
  have hndsubi : (idsAux t.nodes (fi + 1) (some i)).Nodup := by
    rcases hslotp with h | h
    · have := (List.nodup_append.mp hndtp).1
      rw [h] at this
      exact this
    · have := (List.nodup_append.mp hndtp).2.1
      rw [h] at this
      exact this
  have NBi := no_child_back t.nodes fi i n hwi hndsubi hgi
  -- distinctness of the triple
  have hip_ne : i ≠ p := (NBp i hitailp).1
  have hig_ne : i ≠ g := (NBg i hitail).1
  have hpg_ne : p ≠ g := (NBg p hptail).1
  refine ⟨hip_ne, hig_ne, hpg_ne, hslotp, hslotg, ?_, ?_, ?_, ?_, ?_, ?_, ?_, ?_, ?_⟩
  · -- p does not hold i in both slots
    rintro ⟨h1, h2⟩
    have hiL : i ∈ idsAux t.nodes (fi + 1) pn.left_node := by
      rw [h1]; exact head_mem_ids t.nodes fi i
    have hiR : i ∈ idsAux t.nodes (fi + 1) pn.right_node := by
      rw [h2]; exact head_mem_ids t.nodes fi i
    exact hdisp hiL hiR
  · -- g does not hold p in both slots
    rintro ⟨h1, h2⟩
    have hpL : p ∈ idsAux t.nodes ((fi + 1) + 1) gn.left_node := by
      rw [h1]; exact head_mem_ids t.nodes (fi + 1) p
    have hpR : p ∈ idsAux t.nodes ((fi + 1) + 1) gn.right_node := by
      rw [h2]; exact head_mem_ids t.nodes (fi + 1) p
    exact hdisg hpL hpR
  · -- the two children of i are distinct
    intro a b ha hb hc
    subst hc
    have hwa : withinB t.nodes fi (some a) = true := by rw [← ha]; exact hchi.1
    obtain ⟨fa, rfl⟩ : ∃ fa, fi = fa + 1 :=
      ⟨fi - 1, by have := within_fuel_pos t.nodes fi a hwa; omega⟩
    have hexpi := idsAux_some t.nodes (fa + 1) i n hgi
    have h := hndsubi
    rw [hexpi] at h
    have hdisi : (idsAux t.nodes (fa + 1) n.left_node).Disjoint (idsAux t.nodes (fa + 1) n.right_node) :=
      (List.nodup_append.mp (List.nodup_cons.mp h).2).2.2
    exact hdisi (by rw [ha]; exact head_mem_ids t.nodes fa a)
      (by rw [hb]; exact head_mem_ids t.nodes fa a)
  · -- the two children of p are distinct
    intro a b ha hb hc
    subst hc
    exact hdisp (by rw [ha]; exact head_mem_ids t.nodes fi a)
      (by rw [hb]; exact head_mem_ids t.nodes fi a)
  · -- children of i: stored, and distinct from i, p, g
    intro c hc
    obtain ⟨nc, hgc⟩ := ids_present t.nodes (tFuel t) t.root c hw (htailglob c (hctail c hc))
    exact ⟨nc, hgc, (NBi c (by
      rcases hc with h | h
      · have hwc : withinB t.nodes fi (some c) = true := by rw [← h]; exact hchi.1
        obtain ⟨fc, rfl⟩ : ∃ fc, fi = fc + 1 :=
          ⟨fi - 1, by have := within_fuel_pos t.nodes fi c hwc; omega⟩
        exact List.mem_append_left _ (by rw [h]; exact head_mem_ids t.nodes fc c)
      · have hwc : withinB t.nodes fi (some c) = true := by rw [← h]; exact hchi.2
        obtain ⟨fc, rfl⟩ : ∃ fc, fi = fc + 1 :=
          ⟨fi - 1, by have := within_fuel_pos t.nodes fi c hwc; omega⟩
        exact List.mem_append_right _ (by rw [h]; exact head_mem_ids t.nodes fc c))).1,
      (NBp c (hctailp c hc)).1, (NBg c (hctail c hc)).1⟩
  · -- children of p: stored, and distinct from p, g
    intro w hc
    obtain ⟨nw, hgw⟩ := ids_present t.nodes (tFuel t) t.root w hw (htailglob w (hwtail w hc))
    exact ⟨nw, hgw, (NBp w (hwtailp w hc)).1, (NBg w (hwtail w hc)).1⟩
  · -- uncle on the left when p is the right child
    intro u hu hpr
    have huL : u ∈ idsAux t.nodes ((fi + 1) + 1) gn.left_node := by
      have hwu : withinB t.nodes ((fi + 1) + 1) (some u) = true := by rw [← hu]; exact hchg.1
      rw [hu]
      exact head_mem_ids t.nodes (fi + 1) u
    have hut : u ∈ idsAux t.nodes ((fi + 1) + 1) gn.left_node ++ idsAux t.nodes ((fi + 1) + 1) gn.right_node :=
      List.mem_append_left _ huL
    obtain ⟨nu, hgu⟩ := ids_present t.nodes (tFuel t) t.root u hw (htailglob u hut)
    have hpR : p ∈ idsAux t.nodes ((fi + 1) + 1) gn.right_node := by
      rw [hpr]; exact head_mem_ids t.nodes (fi + 1) p
    have hiR : i ∈ idsAux t.nodes ((fi + 1) + 1) gn.right_node := by
      rw [hpr]; exact hisubp
    exact ⟨nu, hgu, (NBg u hut).1,
      fun hcc => hdisg (hcc ▸ huL) hpR,
      fun hcc => hdisg (hcc ▸ huL) hiR⟩
  · -- uncle on the right when p is the left child
    intro u hu hpl
    have huR : u ∈ idsAux t.nodes ((fi + 1) + 1) gn.right_node := by
      rw [hu]
      exact head_mem_ids t.nodes (fi + 1) u
    have hut : u ∈ idsAux t.nodes ((fi + 1) + 1) gn.left_node ++ idsAux t.nodes ((fi + 1) + 1) gn.right_node :=
      List.mem_append_right _ huR
    obtain ⟨nu, hgu⟩ := ids_present t.nodes (tFuel t) t.root u hw (htailglob u hut)
    have hpL : p ∈ idsAux t.nodes ((fi + 1) + 1) gn.left_node := by
      rw [hpl]; exact head_mem_ids t.nodes (fi + 1) p
    have hiL : i ∈ idsAux t.nodes ((fi + 1) + 1) gn.left_node := by
      rw [hpl]; exact hisubp
    exact ⟨nu, hgu, (NBg u hut).1,
      fun hcc => hdisg hpL (hcc ▸ huR),
      fun hcc => hdisg hiL (hcc ▸ huR)⟩
  · -- the grandparent's own parent
    intro q hq
    have hrg : t.root ≠ some g := by
      intro hc
      have h0 := hrp g gn hc hgg
      rw [hq] at h0
      exact Option.noConfusion h0
    obtain ⟨q3, nq3, hgq3, hqp3, hq3m, hslot3⟩ :=
      find_parent t.nodes (tFuel t) t.root g gn hw hpo hgm hrg hgg
    have hq3q : q = q3 := by
      rw [hq] at hqp3
      exact Option.some.inj hqp3
    subst hq3q
    refine ⟨nq3, hgq3, ?_, ?_, ?_, ?_, ?_⟩
    · intro hcc
      subst hcc
      have hnq3g : nq3 = gn := by
        rw [hgg] at hgq3
        exact (Option.some.inj hgq3).symm
      rw [hnq3g] at hslot3
      rcases hslot3 with h | h
      · exact hgnt (List.mem_append_left _ (by rw [h]; exact head_mem_ids t.nodes (fi + 1) q))
      · exact hgnt (List.mem_append_right _ (by rw [h]; exact head_mem_ids t.nodes (fi + 1) q))
    · intro hcc
      subst hcc
      have hnq3p : nq3 = pn := by
        rw [hgp] at hgq3
        exact (Option.some.inj hgq3).symm
      rw [hnq3p] at hslot3
      rcases hslot3 with h | h
      · exact ((NBg q hptail).2 pn hgp).1 h
      · exact ((NBg q hptail).2 pn hgp).2 h
    · intro hcc
      subst hcc
      have hnq3i : nq3 = n := by
        rw [hgi] at hgq3
        exact (Option.some.inj hgq3).symm
      rw [hnq3i] at hslot3
      rcases hslot3 with h | h
      · exact ((NBg q hitail).2 n hgi).1 h
      · exact ((NBg q hitail).2 n hgi).2 h
    · intro c hc hcc
      subst hcc
      obtain ⟨nc, hgc⟩ := ids_present t.nodes (tFuel t) t.root q hw (htailglob q (hctail q hc))
      have hnq3c : nq3 = nc := by
        rw [hgc] at hgq3
        exact (Option.some.inj hgq3).symm
      rw [hnq3c] at hslot3
      rcases hslot3 with h | h
      · exact ((NBg q (hctail q hc)).2 nc hgc).1 h
      · exact ((NBg q (hctail q hc)).2 nc hgc).2 h
    · intro w hc hcc
      subst hcc
      obtain ⟨nw, hgw⟩ := ids_present t.nodes (tFuel t) t.root q hw (htailglob q (hwtail q hc))
      have hnq3w : nq3 = nw := by
        rw [hgw] at hgq3
        exact (Option.some.inj hgq3).symm
      rw [hnq3w] at hslot3
      rcases hslot3 with h | h
      · exact ((NBg q (hwtail q hc)).2 nw hgw).1 h
      · exact ((NBg q (hwtail q hc)).2 nw hgw).2 h

/-- One uncle-red iteration of the insert-fixup loop (parent is a right
child): the three recolourings keep the structure intact, the working node
moves to its grandparent, and its parent chain shortens by two, so the loop
cannot exhaust its fuel. -/
theorem fixup_uncle_red_A (t : RBTree) (i p g u f d : Nat) (n pn gn nu : NodeR)
    (ih : ∀ (t2 : RBTree) (i2 d2 : Nat), wfB t2 = true →
        i2 ∈ idsAux t2.nodes (tFuel t2) t2.root →
        pchainB t2.nodes (tFuel t2) (some i2) = some d2 → d2 < f →
        RBTree._balance_after_insert_loop f t2 i2 ≠ Res.fuel)
    (hwf : wfB t = true) (hmem : i ∈ idsAux t.nodes (tFuel t) t.root)
    (hgi : getN t.nodes i = some n) (hip : n.parent = some p)
    (hgp : getN t.nodes p = some pn) (hred : pn.is_red = true)
    (hpg : pn.parent = some g) (hgg : getN t.nodes g = some gn)
    (hpc : pchainB t.nodes (tFuel t) (some i) = some d) (hlt : d < f + 1)
    (hgrp : gn.right_node = some p) (hunc : gn.left_node = some u)
    (hgu : getN t.nodes u = some nu) (hunr : nu.is_red = true) :
    RBTree._balance_after_insert_loop (f + 1) t i ≠ Res.fuel := by
  obtain ⟨gn', hgg', hpm, hgm, hipne, higne, hpgne, hslotp, hslotg, hnds_p, hnds_g,
      hcdn, hcdp, hC, hW, hUL, hUR, hQ⟩ :=
    fixup_cluster t i p g n pn hwf hmem hgi hip hgp hpg
  have hgneq : gn = gn' := by
    rw [hgg] at hgg'
    exact Option.some.inj hgg'
  subst hgneq
  obtain ⟨nu', hgu', hung, hunp, huni⟩ := hUL u hunc hgrp
  have hnueq : nu = nu' := by
    rw [hgu] at hgu'
    exact Option.some.inj hgu'
  subst hnueq
  -- evaluate the loop body
  unfold RBTree._balance_after_insert_loop
  have hd1 : derefA t.nodes (some i) = Res.ok n := by simp [derefA, hgi]
  have hd2 : derefA t.nodes n.parent = Res.ok pn := by rw [hip]; simp [derefA, hgp]
  simp only [hd1, hd2, bind, Res.bind]
  have hnotred : (!pn.is_red) = false := by rw [hred]; rfl
  simp only [hnotred, Bool.false_eq_true, if_false]
  simp only [hip, pure, bind, Res.bind]
  have hprs : is_right_sonA t.nodes p
      = Res.ok (gn.right_node.isSome && (gn.right_node == some p)) := by
    unfold is_right_sonA
    simp only [derefA, hgp, bind, Res.bind, hpg, hgg, pure]
  simp only [hprs, Res.bind]
  have hcond : (gn.right_node.isSome && (gn.right_node == some p)) = true := by
    simp [hgrp]
  simp only [hcond, if_true]
  have hgf : grandfather_nodeA t.nodes i = Res.ok (some g) := by
    unfold grandfather_nodeA
    simp only [derefA, hgi, bind, Res.bind, hip, hgp, hpg, pure]
  simp only [hgf, Res.bind]
  have hd3 : derefA t.nodes (some g) = Res.ok gn := by simp [derefA, hgg]
  simp only [hd3, Res.bind, hunc]
  have hd4 : derefA t.nodes (some u) = Res.ok nu := by simp [derefA, hgu]
  simp only [hd4, bind, Res.bind, pure, hunr, if_true]
  obtain ⟨hw, hnd, hpo, hrp⟩ := wfB_elim t hwf
  set ma := updF t.nodes u fun x => { x with colour := Colour.black } with hma
  have hai : getN ma i = some n := by
    rw [hma, getN_updF_ne t.nodes u i _ (Ne.symm huni)]
    exact hgi
  have hd5 : derefA ma (some i) = Res.ok n := by simp [derefA, hai]
  simp only [hd5, Res.bind, hip]
  set mb := updF ma p fun x => { x with colour := Colour.black } with hmb
  have hap : getN ma p = some pn := by
    rw [hma, getN_updF_ne t.nodes u p _ (Ne.symm hunp)]
    exact hgp
  have hbp : getN mb p = some { pn with colour := Colour.black } := by
    rw [hmb]
    exact getN_updF_self ma p _ pn hap
  have hbi : getN mb i = some n := by
    rw [hmb, getN_updF_ne ma p i _ hipne]
    exact hai
  have hgf2 : grandfather_nodeA mb i = Res.ok (some g) := by
    unfold grandfather_nodeA
    simp only [derefA, hbi, bind, Res.bind, hip, hbp, pure, hpg]
  simp only [hgf2, Res.bind]
  set mc := updF mb g fun x => { x with colour := Colour.red } with hmc
  have hcp : getN mc p = some { pn with colour := Colour.black } := by
    rw [hmc, getN_updF_ne mb g p _ hpgne]
    exact hbp
  have hci : getN mc i = some n := by
    rw [hmc, getN_updF_ne mb g i _ higne]
    exact hbi
  have hgf3 : grandfather_nodeA mc i = Res.ok (some g) := by
    unfold grandfather_nodeA
    simp only [derefA, hci, bind, Res.bind, hip, hcp, pure, hpg]
  simp only [hgf3, Res.bind]
  -- the working node is now the grandparent; transfer facts to the new arena
  have hlink : ∀ j, (getN mc j).map linksOf = (getN t.nodes j).map linksOf := by
    intro j
    calc (getN mc j).map linksOf
        = (getN mb j).map linksOf := by rw [hmc]; exact colour_upd_links mb g Colour.red j
      _ = (getN ma j).map linksOf := by rw [hmb]; exact colour_upd_links ma p Colour.black j
      _ = (getN t.nodes j).map linksOf := by rw [hma]; exact colour_upd_links t.nodes u Colour.black j
  have hshape : ∀ j, sameShape t.nodes mc j := by
    intro j
    have e1 : (getN mc j).map shapeOf = (getN mb j).map shapeOf := by
      rw [hmc]; exact colour_upd_shape mb g Colour.red j
    have e2 : (getN mb j).map shapeOf = (getN ma j).map shapeOf := by
      rw [hmb]; exact colour_upd_shape ma p Colour.black j
    have e3 : (getN ma j).map shapeOf = (getN t.nodes j).map shapeOf := by
      rw [hma]; exact colour_upd_shape t.nodes u Colour.black j
    exact (e1.trans e2).trans e3
  have htrav := traversal_congr t.nodes mc (tFuel t) t.root (fun j _ => hshape j)
  have hlen : mc.length = t.nodes.length := by
    rw [hmc, updF_length, hmb, updF_length, hma, updF_length]
  have hwf2 : wfB { root := t.root, nodes := mc } = true := by
    have h1 : withinB mc (tFuel t) t.root = true := by rw [htrav.2.2]; exact hw
    have h2 : (idsAux mc (tFuel t) t.root).Nodup := by rw [htrav.2.1]; exact hnd
    have h3 : parentOkB mc (tFuel t) t.root = true := by
      rw [parentOk_congr t.nodes mc hlink]
      exact hpo
    have h4 : (match t.root with
        | none => true
        | some r =>
            match getN mc r with
            | none => false
            | some rn => rn.parent.isNone) = true := by
      cases hr : t.root with
      | none => rfl
      | some r =>
          have hwr : withinB t.nodes (tFuel t) (some r) = true := by rw [← hr]; exact hw
          simp only [tFuel] at hwr
          obtain ⟨nr, hgr⟩ := within_getN_some t.nodes t.nodes.length r hwr
          have hrn : nr.parent = none := hrp r nr hr hgr
          have hl := hlink r
          rw [hgr] at hl
          cases hgr2 : getN mc r with
          | none => rw [hgr2] at hl; simp at hl
          | some nr2 =>
              rw [hgr2] at hl
              simp at hl
              simp only [hgr2]
              rw [(linksOf_fields hl).1, hrn]
              rfl
    unfold wfB
    simp only [tFuel, hlen, Bool.and_eq_true, decide_eq_true_eq]
    refine ⟨⟨⟨?_, ?_⟩, ?_⟩, ?_⟩
    · exact h1
    · exact h2
    · exact h3
    · exact h4
  have hmem2 : g ∈ idsAux mc (tFuel t) t.root := by
    rw [htrav.2.1]
    exact hgm
  -- the parent chain of the grandparent is two shorter
  have hL1 : 1 ≤ t.nodes.length := getN_some_length_pos t.nodes i n hgi
  obtain ⟨L, hLL⟩ : ∃ L, t.nodes.length = L + 1 := ⟨t.nodes.length - 1, by omega⟩
  have hpc' := hpc
  simp only [tFuel] at hpc'
  rw [hLL] at hpc'
  simp only [pchainB, hgi, hip] at hpc'
  simp only [pchainB, hgp, hpg] at hpc'
  cases hd2c : pchainB t.nodes L (some g) with
  | none => rw [hd2c] at hpc'; simp at hpc'
  | some d2 =>
      rw [hd2c] at hpc'
      simp only [Option.map_map, Option.map_some'] at hpc'
      have hdd : d2 + 1 + 1 = d := Option.some.inj hpc'
      have hpcg : pchainB t.nodes (tFuel t) (some g) = some d2 :=
        pchain_mono t.nodes L (some g) d2 hd2c (tFuel t) (by simp only [tFuel]; omega)
      have hpc2 : pchainB mc (tFuel t) (some g) = some d2 := by
        rw [pchain_congr t.nodes mc hlink]
        exact hpcg
      -- root check, then recurse through the induction hypothesis
      by_cases hrg : t.root = some g
      · have hbeq : (t.root == some g) = true := by simp [hrg]
        have hnr : ({ root := t.root, nodes := mc } : RBTree)._node_is_root g = true := by
          unfold RBTree._node_is_root
          exact hbeq
        simp only [hnr, if_true]
        rw [hrg]
        exact fun hc => Res.noConfusion hc
      · have hbeq : (t.root == some g) = false := by
          simp only [beq_eq_false_iff_ne, ne_eq]
          exact hrg
        have hnr : ({ root := t.root, nodes := mc } : RBTree)._node_is_root g = false := by
          unfold RBTree._node_is_root
          exact hbeq
        simp only [hnr, Bool.false_eq_true, if_false]
        have hmem2' : g ∈ idsAux ({ root := t.root, nodes := mc } : RBTree).nodes
            (tFuel { root := t.root, nodes := mc }) ({ root := t.root, nodes := mc } : RBTree).root := by
          show g ∈ idsAux mc (mc.length + 1) t.root
          rw [hlen]
          exact hmem2
        have hpc2' : pchainB ({ root := t.root, nodes := mc } : RBTree).nodes
            (tFuel { root := t.root, nodes := mc }) (some g) = some d2 := by
          show pchainB mc (mc.length + 1) (some g) = some d2
          rw [hlen]
          exact hpc2
        exact ih { root := t.root, nodes := mc } g d2 hwf2 hmem2' hpc2' (by omega)

/-- Mirror of `fixup_uncle_red_A`: the parent is a left child and the red
uncle is the grandparent's right child. -/
theorem fixup_uncle_red_B (t : RBTree) (i p g u f d : Nat) (n pn gn nu : NodeR)
    (ih : ∀ (t2 : RBTree) (i2 d2 : Nat), wfB t2 = true →
        i2 ∈ idsAux t2.nodes (tFuel t2) t2.root →
        pchainB t2.nodes (tFuel t2) (some i2) = some d2 → d2 < f →
        RBTree._balance_after_insert_loop f t2 i2 ≠ Res.fuel)
    (hwf : wfB t = true) (hmem : i ∈ idsAux t.nodes (tFuel t) t.root)
    (hgi : getN t.nodes i = some n) (hip : n.parent = some p)
    (hgp : getN t.nodes p = some pn) (hred : pn.is_red = true)
    (hpg : pn.parent = some g) (hgg : getN t.nodes g = some gn)
    (hpc : pchainB t.nodes (tFuel t) (some i) = some d) (hlt : d < f + 1)
    (hglp : gn.left_node = some p) (hgrne : gn.right_node ≠ some p)
    (hunc : gn.right_node = some u)
    (hgu : getN t.nodes u = some nu) (hunr : nu.is_red = true) :
    RBTree._balance_after_insert_loop (f + 1) t i ≠ Res.fuel := by
  obtain ⟨gn', hgg', hpm, hgm, hipne, higne, hpgne, hslotp, hslotg, hnds_p, hnds_g,
      hcdn, hcdp, hC, hW, hUL, hUR, hQ⟩ :=
    fixup_cluster t i p g n pn hwf hmem hgi hip hgp hpg
  have hgneq : gn = gn' := by
    rw [hgg] at hgg'
    exact Option.some.inj hgg'
  subst hgneq
  obtain ⟨nu', hgu', hung, hunp, huni⟩ := hUR u hunc hglp
  have hnueq : nu = nu' := by
    rw [hgu] at hgu'
    exact Option.some.inj hgu'
  subst hnueq
  -- evaluate the loop body
  unfold RBTree._balance_after_insert_loop
  have hd1 : derefA t.nodes (some i) = Res.ok n := by simp [derefA, hgi]
  have hd2 : derefA t.nodes n.parent = Res.ok pn := by rw [hip]; simp [derefA, hgp]
  simp only [hd1, hd2, bind, Res.bind]
  have hnotred : (!pn.is_red) = false := by rw [hred]; rfl
  simp only [hnotred, Bool.false_eq_true, if_false]
  simp only [hip, pure, bind, Res.bind]
  have hprs : is_right_sonA t.nodes p
      = Res.ok (gn.right_node.isSome && (gn.right_node == some p)) := by
    unfold is_right_sonA
    simp only [derefA, hgp, bind, Res.bind, hpg, hgg, pure]
  simp only [hprs, Res.bind]
  have hcond : (gn.right_node.isSome && (gn.right_node == some p)) = false := by
    cases hx : gn.right_node with
    | none => rfl
    | some z =>
        simp only [Option.isSome_some, Bool.true_and]
        rw [hx] at hgrne
        exact beq_eq_false_iff_ne.mpr hgrne
  simp only [hcond, Bool.false_eq_true, if_false]
  have hgf : grandfather_nodeA t.nodes i = Res.ok (some g) := by
    unfold grandfather_nodeA
    simp only [derefA, hgi, bind, Res.bind, hip, hgp, hpg, pure]
  simp only [hgf, Res.bind]
  have hd3 : derefA t.nodes (some g) = Res.ok gn := by simp [derefA, hgg]
  simp only [hd3, Res.bind, hunc]
  have hd4 : derefA t.nodes (some u) = Res.ok nu := by simp [derefA, hgu]
  simp only [hd4, bind, Res.bind, pure, hunr, if_true]
  obtain ⟨hw, hnd, hpo, hrp⟩ := wfB_elim t hwf
  set ma := updF t.nodes u fun x => { x with colour := Colour.black } with hma
  have hai : getN ma i = some n := by
    rw [hma, getN_updF_ne t.nodes u i _ (Ne.symm huni)]
    exact hgi
  have hd5 : derefA ma (some i) = Res.ok n := by simp [derefA, hai]
  simp only [hd5, Res.bind, hip]
  set mb := updF ma p fun x => { x with colour := Colour.black } with hmb
  have hap : getN ma p = some pn := by
    rw [hma, getN_updF_ne t.nodes u p _ (Ne.symm hunp)]
    exact hgp
  have hbp : getN mb p = some { pn with colour := Colour.black } := by
    rw [hmb]
    exact getN_updF_self ma p _ pn hap
  have hbi : getN mb i = some n := by
    rw [hmb, getN_updF_ne ma p i _ hipne]
    exact hai
  have hgf2 : grandfather_nodeA mb i = Res.ok (some g) := by
    unfold grandfather_nodeA
    simp only [derefA, hbi, bind, Res.bind, hip, hbp, pure, hpg]
  simp only [hgf2, Res.bind]
  set mc := updF mb g fun x => { x with colour := Colour.red } with hmc
  have hcp : getN mc p = some { pn with colour := Colour.black } := by
    rw [hmc, getN_updF_ne mb g p _ hpgne]
    exact hbp
  have hci : getN mc i = some n := by
    rw [hmc, getN_updF_ne mb g i _ higne]
    exact hbi
  have hgf3 : grandfather_nodeA mc i = Res.ok (some g) := by
    unfold grandfather_nodeA
    simp only [derefA, hci, bind, Res.bind, hip, hcp, pure, hpg]
  simp only [hgf3, Res.bind]
  -- the working node is now the grandparent; transfer facts to the new arena
  have hlink : ∀ j, (getN mc j).map linksOf = (getN t.nodes j).map linksOf := by
    intro j
    calc (getN mc j).map linksOf
        = (getN mb j).map linksOf := by rw [hmc]; exact colour_upd_links mb g Colour.red j
      _ = (getN ma j).map linksOf := by rw [hmb]; exact colour_upd_links ma p Colour.black j
      _ = (getN t.nodes j).map linksOf := by rw [hma]; exact colour_upd_links t.nodes u Colour.black j
  have hshape : ∀ j, sameShape t.nodes mc j := by
    intro j
    have e1 : (getN mc j).map shapeOf = (getN mb j).map shapeOf := by
      rw [hmc]; exact colour_upd_shape mb g Colour.red j
    have e2 : (getN mb j).map shapeOf = (getN ma j).map shapeOf := by
      rw [hmb]; exact colour_upd_shape ma p Colour.black j
    have e3 : (getN ma j).map shapeOf = (getN t.nodes j).map shapeOf := by
      rw [hma]; exact colour_upd_shape t.nodes u Colour.black j
    exact (e1.trans e2).trans e3
  have htrav := traversal_congr t.nodes mc (tFuel t) t.root (fun j _ => hshape j)
  have hlen : mc.length = t.nodes.length := by
    rw [hmc, updF_length, hmb, updF_length, hma, updF_length]
  have hwf2 : wfB { root := t.root, nodes := mc } = true := by
    have h1 : withinB mc (tFuel t) t.root = true := by rw [htrav.2.2]; exact hw
    have h2 : (idsAux mc (tFuel t) t.root).Nodup := by rw [htrav.2.1]; exact hnd
    have h3 : parentOkB mc (tFuel t) t.root = true := by
      rw [parentOk_congr t.nodes mc hlink]
      exact hpo
    have h4 : (match t.root with
        | none => true
        | some r =>
            match getN mc r with
            | none => false
            | some rn => rn.parent.isNone) = true := by
      cases hr : t.root with
      | none => rfl
      | some r =>
          have hwr : withinB t.nodes (tFuel t) (some r) = true := by rw [← hr]; exact hw
          simp only [tFuel] at hwr
          obtain ⟨nr, hgr⟩ := within_getN_some t.nodes t.nodes.length r hwr
          have hrn : nr.parent = none := hrp r nr hr hgr
          have hl := hlink r
          rw [hgr] at hl
          cases hgr2 : getN mc r with
          | none => rw [hgr2] at hl; simp at hl
          | some nr2 =>
              rw [hgr2] at hl
              simp at hl
              simp only [hgr2]
              rw [(linksOf_fields hl).1, hrn]
              rfl
    unfold wfB
    simp only [tFuel, hlen, Bool.and_eq_true, decide_eq_true_eq]
    refine ⟨⟨⟨?_, ?_⟩, ?_⟩, ?_⟩
    · exact h1
    · exact h2
    · exact h3
    · exact h4
  have hmem2 : g ∈ idsAux mc (tFuel t) t.root := by
    rw [htrav.2.1]
    exact hgm
  -- the parent chain of the grandparent is two shorter
  have hL1 : 1 ≤ t.nodes.length := getN_some_length_pos t.nodes i n hgi
  obtain ⟨L, hLL⟩ : ∃ L, t.nodes.length = L + 1 := ⟨t.nodes.length - 1, by omega⟩
  have hpc' := hpc
  simp only [tFuel] at hpc'
  rw [hLL] at hpc'
  simp only [pchainB, hgi, hip] at hpc'
  simp only [pchainB, hgp, hpg] at hpc'
  cases hd2c : pchainB t.nodes L (some g) with
  | none => rw [hd2c] at hpc'; simp at hpc'
  | some d2 =>
      rw [hd2c] at hpc'
      simp only [Option.map_map, Option.map_some'] at hpc'
      have hdd : d2 + 1 + 1 = d := Option.some.inj hpc'
      have hpcg : pchainB t.nodes (tFuel t) (some g) = some d2 :=
        pchain_mono t.nodes L (some g) d2 hd2c (tFuel t) (by simp only [tFuel]; omega)
      have hpc2 : pchainB mc (tFuel t) (some g) = some d2 := by
        rw [pchain_congr t.nodes mc hlink]
        exact hpcg
      -- root check, then recurse through the induction hypothesis
      by_cases hrg : t.root = some g
      · have hbeq : (t.root == some g) = true := by simp [hrg]
        have hnr : ({ root := t.root, nodes := mc } : RBTree)._node_is_root g = true := by
          unfold RBTree._node_is_root
          exact hbeq
        simp only [hnr, if_true]
        rw [hrg]
        exact fun hc => Res.noConfusion hc
      · have hbeq : (t.root == some g) = false := by
          simp only [beq_eq_false_iff_ne, ne_eq]
          exact hrg
        have hnr : ({ root := t.root, nodes := mc } : RBTree)._node_is_root g = false := by
          unfold RBTree._node_is_root
          exact hbeq
        simp only [hnr, Bool.false_eq_true, if_false]
        have hmem2' : g ∈ idsAux ({ root := t.root, nodes := mc } : RBTree).nodes
            (tFuel { root := t.root, nodes := mc }) ({ root := t.root, nodes := mc } : RBTree).root := by
          show g ∈ idsAux mc (mc.length + 1) t.root
          rw [hlen]
          exact hmem2
        have hpc2' : pchainB ({ root := t.root, nodes := mc } : RBTree).nodes
            (tFuel { root := t.root, nodes := mc }) (some g) = some d2 := by
          show pchainB mc (mc.length + 1) (some g) = some d2
          rw [hlen]
          exact hpc2
        exact ih { root := t.root, nodes := mc } g d2 hwf2 hmem2' hpc2' (by omega)

/-- When the working node's stored parent is not red, the next iteration of
the fixup loop exits through the root-blackening epilogue, so fuel is not
exhausted. -/
theorem loop_exit_black (f : Nat) (t1 : RBTree) (i1 p1 : Nat) (n1 pn1 : NodeR)
    (hg1 : getN t1.nodes i1 = some n1) (h1p : n1.parent = some p1)
    (hg2 : getN t1.nodes p1 = some pn1) (hblack : pn1.is_red = false) :
    RBTree._balance_after_insert_loop (f + 1) t1 i1 ≠ Res.fuel := by
  unfold RBTree._balance_after_insert_loop
  have hd1 : derefA t1.nodes (some i1) = Res.ok n1 := by simp [derefA, hg1]
  have hd2 : derefA t1.nodes n1.parent = Res.ok pn1 := by rw [h1p]; simp [derefA, hg2]
  simp only [hd1, hd2, bind, Res.bind, hblack, Bool.not_false, if_true]
  cases hr : t1.root with
  | none => simp only [hr]; exact fun hc => Res.noConfusion hc
  | some r => simp only [hr]; exact fun hc => Res.noConfusion hc

set_option maxHeartbeats 1000000 in
/-- Rotation iteration of the insert-fixup loop, parent a right child with a
black-or-absent uncle: after the rotations the working node's parent is the
freshly blackened node, so the loop's next condition check exits and fuel is
never exhausted. -/
theorem fixup_rot_A (t : RBTree) (i p g f : Nat) (n pn gn : NodeR)
    (hwf : wfB t = true) (hmem : i ∈ idsAux t.nodes (tFuel t) t.root)
    (hgi : getN t.nodes i = some n) (hip : n.parent = some p)
    (hgp : getN t.nodes p = some pn) (hred : pn.is_red = true)
    (hpg : pn.parent = some g) (hgg : getN t.nodes g = some gn)
    (hgrp : gn.right_node = some p)
    (huncb : ∀ u nu, gn.left_node = some u → getN t.nodes u = some nu → nu.is_red = false)
    (hf : 1 ≤ f) :
    RBTree._balance_after_insert_loop (f + 1) t i ≠ Res.fuel := by
  obtain ⟨gn', hgg', hpm, hgm, hipne, higne, hpgne, hslotp, hslotg, hnds_p, hnds_g,
      hcdn, hcdp, hC, hW, hUL, hUR, hQ⟩ :=
    fixup_cluster t i p g n pn hwf hmem hgi hip hgp hpg
  have hgneq : gn = gn' := by
    rw [hgg] at hgg'
    exact Option.some.inj hgg'
  subst hgneq
  unfold RBTree._balance_after_insert_loop
  have hd1 : derefA t.nodes (some i) = Res.ok n := by simp [derefA, hgi]
  have hd2 : derefA t.nodes n.parent = Res.ok pn := by rw [hip]; simp [derefA, hgp]
  simp only [hd1, hd2, bind, Res.bind]
  have hnotred : (!pn.is_red) = false := by rw [hred]; rfl
  simp only [hnotred, Bool.false_eq_true, if_false]
  simp only [hip, pure, bind, Res.bind]
  have hprs : is_right_sonA t.nodes p
      = Res.ok (gn.right_node.isSome && (gn.right_node == some p)) := by
    unfold is_right_sonA
    simp only [derefA, hgp, bind, Res.bind, hpg, hgg, pure]
  simp only [hprs, Res.bind]
  have hcond : (gn.right_node.isSome && (gn.right_node == some p)) = true := by
    simp [hgrp]
  simp only [hcond, if_true]
  have hgf : grandfather_nodeA t.nodes i = Res.ok (some g) := by
    unfold grandfather_nodeA
    simp only [derefA, hgi, bind, Res.bind, hip, hgp, hpg, pure]
  simp only [hgf, Res.bind]
  have hd3 : derefA t.nodes (some g) = Res.ok gn := by simp [derefA, hgg]
  simp only [hd3, Res.bind]
  cases hunc : gn.left_node with
  | none =>
      simp only [pure, Res.bind, Bool.false_eq_true, if_false]
      have hils : is_left_sonA t.nodes i
          = Res.ok (pn.left_node.isSome && (pn.left_node == some i)) := by
        unfold is_left_sonA
        simp only [derefA, hgi, bind, Res.bind, hip, hgp, pure]
      simp only [hils, Res.bind]
      by_cases hlsi : pn.left_node = some i
      · -- the working node is a left child: inner right rotation at the parent
        have hcondl : (pn.left_node.isSome && (pn.left_node == some i)) = true := by
          simp [hlsi]
        simp only [hcondl, if_true]
        have hbbI : ∀ bb, n.right_node = some bb →
            ∃ nb, getN t.nodes bb = some nb ∧ bb ≠ p ∧ bb ≠ i := by
          intro bb hbb
          obtain ⟨nb, hgb, hbI, hbP, hbG⟩ := hC bb (Or.inr hbb)
          exact ⟨nb, hgb, hbP, hbI⟩
        have hqqI : ∀ q, pn.parent = some q → ∃ nq, getN t.nodes q = some nq ∧ q ≠ p ∧ q ≠ i ∧
            ∀ bb, n.right_node = some bb → q ≠ bb := by
          intro q hq
          have hqg : g = q := by rw [hpg] at hq; exact Option.some.inj hq
          subst hqg
          refine ⟨gn, hgg, fun hc => hpgne hc.symm, fun hc => higne hc.symm, ?_⟩
          intro bb hbb hc
          obtain ⟨nb, hgb, hbI, hbP, hbG⟩ := hC bb (Or.inr hbb)
          exact hbG hc.symm
        obtain ⟨m6, hrun6, h6x, h6y, h6b, h6q, h6f, h6len⟩ :=
          right_rotate_exec t p i pn n hgp hlsi hgi hipne hbbI hqqI
        simp only [hpg] at hrun6
        simp only [hrun6, Res.bind, pure]
        have hd6 : derefA m6 (some p)
            = Res.ok { pn with left_node := n.right_node, parent := some i } := by
          simp [derefA, h6x]
        simp only [hd6, Res.bind, pure]
        set mA := updF m6 i fun x => { x with colour := Colour.black } with hmA
        have hAp : getN mA p
            = some { pn with left_node := n.right_node, parent := some i } := by
          rw [hmA, getN_updF_ne m6 i p _ (Ne.symm hipne)]
          exact h6x
        have hAi : getN mA i
            = some { { n with right_node := some p, parent := pn.parent }
                with colour := Colour.black } := by
          rw [hmA]
          exact getN_updF_self m6 i _ _ h6y
        have hgfA : grandfather_nodeA mA p = Res.ok (some g) := by
          unfold grandfather_nodeA
          simp only [derefA, hAp, bind, Res.bind, hAi, pure, hpg]
        simp only [hgfA, Res.bind]
        set mB := updF mA g fun x => { x with colour := Colour.red } with hmB
        have hBp : getN mB p
            = some { pn with left_node := n.right_node, parent := some i } := by
          rw [hmB, getN_updF_ne mA g p _ hpgne]
          exact hAp
        have hBi : getN mB i
            = some { { n with right_node := some p, parent := pn.parent }
                with colour := Colour.black } := by
          rw [hmB, getN_updF_ne mA g i _ higne]
          exact hAi
        have hgfB : grandfather_nodeA mB p = Res.ok (some g) := by
          unfold grandfather_nodeA
          simp only [derefA, hBp, bind, Res.bind, hBi, pure, hpg]
        simp only [hgfB, Res.bind]
        have h6g : getN m6 g = some { gn with right_node := some i } := by
          have h := h6q g gn hpg hgg
          rw [if_pos hgrp] at h
          exact h
        have hBg : getN mB g
            = some { { gn with right_node := some i } with colour := Colour.red } := by
          rw [hmB]
          refine getN_updF_self mA g _ _ ?_
          rw [hmA, getN_updF_ne m6 i g _ (Ne.symm higne)]
          exact h6g
        have hbbO : ∀ bb, ({ { n with right_node := some p, parent := pn.parent }
              with colour := Colour.black } : NodeR).left_node = some bb →
            ∃ nb, getN mB bb = some nb ∧ bb ≠ g ∧ bb ≠ i := by
          intro bb hbb
          have hbb2 : n.left_node = some bb := hbb
          obtain ⟨nb, hgb, hbI, hbP, hbG⟩ := hC bb (Or.inl hbb2)
          refine ⟨nb, ?_, hbG, hbI⟩
          rw [hmB, getN_updF_ne mA g bb _ hbG, hmA, getN_updF_ne m6 i bb _ hbI]
          rw [h6f bb hbP hbI (fun b2 hb2 => hcdn bb b2 hbb2 hb2)
            (fun q hq => by rw [hpg] at hq; cases Option.some.inj hq; exact hbG)]
          exact hgb
        have hqqO : ∀ q, ({ { gn with right_node := some i }
              with colour := Colour.red } : NodeR).parent = some q →
            ∃ nq, getN mB q = some nq ∧ q ≠ g ∧ q ≠ i ∧
              ∀ bb, ({ { n with right_node := some p, parent := pn.parent }
                  with colour := Colour.black } : NodeR).left_node = some bb → q ≠ bb := by
          intro q hq
          have hq2 : gn.parent = some q := hq
          obtain ⟨nq, hgq, hqG, hqP, hqI, hqC, hqW⟩ := hQ q hq2
          refine ⟨nq, ?_, hqG, hqI, fun bb hbb => hqC bb (Or.inl hbb)⟩
          rw [hmB, getN_updF_ne mA g q _ hqG, hmA, getN_updF_ne m6 i q _ hqI]
          rw [h6f q hqP hqI (fun b2 hb2 => hqC b2 (Or.inr hb2))
            (fun q2 hq2b => by rw [hpg] at hq2b; cases Option.some.inj hq2b; exact hqG)]
          exact hgq
        obtain ⟨m7, hrun7, h7x, h7y, h7b, h7q, h7f, h7len⟩ :=
          left_rotate_exec { root := t.root, nodes := mB } g i _ _ hBg rfl hBi higne hbbO hqqO
        have h7p : getN m7 p
            = some { pn with left_node := n.right_node, parent := some i } := by
          rw [h7f p hpgne (Ne.symm hipne)
            (fun bb hbb => by
              obtain ⟨nb, hgb, hbI, hbP, hbG⟩ := hC bb (Or.inl hbb)
              exact fun hc => hbP hc.symm)
            (fun q hq => by
              have hq2 : gn.parent = some q := hq
              obtain ⟨nq, hgq, hqG, hqP, hqI, hqC, hqW⟩ := hQ q hq2
              exact fun hc => hqP hc.symm)]
          exact hBp
        cases hgpar : gn.parent with
        | none =>
            have hrun7b : RBTree._left_rotate { root := t.root, nodes := mB } g
                = Res.ok { root := some i, nodes := m7 } := by
              rw [hrun7]
              simp only [hgpar]
            simp only [hrun7b, Res.bind, pure]
            have hnr : ({ root := some i, nodes := m7 } : RBTree)._node_is_root p = false := by
              unfold RBTree._node_is_root
              exact beq_eq_false_iff_ne.mpr (fun hc => hipne (Option.some.inj hc))
            simp only [hnr, Bool.false_eq_true, if_false]
            obtain ⟨f2, rfl⟩ : ∃ f2, f = f2 + 1 := ⟨f - 1, by omega⟩
            exact loop_exit_black f2 { root := some i, nodes := m7 } p i _ _ h7p rfl h7y rfl
        | some q0 =>
            have hrun7b : RBTree._left_rotate { root := t.root, nodes := mB } g
                = Res.ok { root := t.root, nodes := m7 } := by
              rw [hrun7]
              simp only [hgpar]
            simp only [hrun7b, Res.bind, pure]
            by_cases hrt : t.root = some p
            · have hnr : ({ root := t.root, nodes := m7 } : RBTree)._node_is_root p = true := by
                unfold RBTree._node_is_root
                simp [hrt]
              simp only [hnr, if_true]
              rw [hrt]
              exact fun hc => Res.noConfusion hc
            · have hnr : ({ root := t.root, nodes := m7 } : RBTree)._node_is_root p = false := by
                unfold RBTree._node_is_root
                exact beq_eq_false_iff_ne.mpr hrt
              simp only [hnr, Bool.false_eq_true, if_false]
              obtain ⟨f2, rfl⟩ : ∃ f2, f = f2 + 1 := ⟨f - 1, by omega⟩
              exact loop_exit_black f2 { root := t.root, nodes := m7 } p i _ _ h7p rfl h7y rfl
      · -- the working node is a right child: no inner rotation
        have hcondl : (pn.left_node.isSome && (pn.left_node == some i)) = false := by
          cases hx : pn.left_node with
          | none => rfl
          | some z =>
              simp only [Option.isSome_some, Bool.true_and]
              rw [hx] at hlsi
              exact beq_eq_false_iff_ne.mpr hlsi
        have hsri : pn.right_node = some i := hslotp.resolve_left hlsi
        simp only [hcondl, Bool.false_eq_true, if_false]
        set mA := updF t.nodes p fun x => { x with colour := Colour.black } with hmA
        have hAi : getN mA i = some n := by
          rw [hmA, getN_updF_ne t.nodes p i _ hipne]
          exact hgi
        have hAp : getN mA p = some { pn with colour := Colour.black } := by
          rw [hmA]
          exact getN_updF_self t.nodes p _ pn hgp
        have hgfA : grandfather_nodeA mA i = Res.ok (some g) := by
          unfold grandfather_nodeA
          simp only [derefA, hAi, bind, Res.bind, hip, hAp, pure, hpg]
        simp only [hgfA, Res.bind]
        set mB := updF mA g fun x => { x with colour := Colour.red } with hmB
        have hBi : getN mB i = some n := by
          rw [hmB, getN_updF_ne mA g i _ higne]
          exact hAi
        have hBp : getN mB p = some { pn with colour := Colour.black } := by
          rw [hmB, getN_updF_ne mA g p _ hpgne]
          exact hAp
        have hBg : getN mB g = some { gn with colour := Colour.red } := by
          rw [hmB]
          refine getN_updF_self mA g _ _ ?_
          rw [hmA, getN_updF_ne t.nodes p g _ (Ne.symm hpgne)]
          exact hgg
        have hgfB : grandfather_nodeA mB i = Res.ok (some g) := by
          unfold grandfather_nodeA
          simp only [derefA, hBi, bind, Res.bind, hip, hBp, pure, hpg]
        simp only [hgfB, Res.bind]
        have hbbO : ∀ bb, ({ pn with colour := Colour.black } : NodeR).left_node = some bb →
            ∃ nb, getN mB bb = some nb ∧ bb ≠ g ∧ bb ≠ p := by
          intro bb hbb
          have hbb2 : pn.left_node = some bb := hbb
          obtain ⟨nw, hgw, hwP, hwG⟩ := hW bb (Or.inl hbb2)
          refine ⟨nw, ?_, hwG, hwP⟩
          rw [hmB, getN_updF_ne mA g bb _ hwG, hmA, getN_updF_ne t.nodes p bb _ hwP]
          exact hgw
        have hqqO : ∀ q, ({ gn with colour := Colour.red } : NodeR).parent = some q →
            ∃ nq, getN mB q = some nq ∧ q ≠ g ∧ q ≠ p ∧
              ∀ bb, ({ pn with colour := Colour.black } : NodeR).left_node = some bb → q ≠ bb := by
          intro q hq
          have hq2 : gn.parent = some q := hq
          obtain ⟨nq, hgq, hqG, hqP, hqI, hqC, hqW⟩ := hQ q hq2
          refine ⟨nq, ?_, hqG, hqP, fun bb hbb => hqW bb (Or.inl hbb)⟩
          rw [hmB, getN_updF_ne mA g q _ hqG, hmA, getN_updF_ne t.nodes p q _ hqP]
          exact hgq
        obtain ⟨m7, hrun7, h7x, h7y, h7b, h7q, h7f, h7len⟩ :=
          left_rotate_exec { root := t.root, nodes := mB } g p _ _ hBg hgrp hBp hpgne hbbO hqqO
        have h7i : getN m7 i = some n := by
          rw [h7f i higne hipne
            (fun bb hbb => by
              have hbb2 : pn.left_node = some bb := hbb
              exact fun hc => hcdp bb i hbb2 hsri hc.symm)
            (fun q hq => by
              have hq2 : gn.parent = some q := hq
              obtain ⟨nq, hgq, hqG, hqP, hqI, hqC, hqW⟩ := hQ q hq2
              exact fun hc => hqI hc.symm)]
          exact hBi
        cases hgpar : gn.parent with
        | none =>
            have hrun7b : RBTree._left_rotate { root := t.root, nodes := mB } g
                = Res.ok { root := some p, nodes := m7 } := by
              rw [hrun7]
              simp only [hgpar]
            simp only [hrun7b, Res.bind, pure]
            have hnr : ({ root := some p, nodes := m7 } : RBTree)._node_is_root i = false := by
              unfold RBTree._node_is_root
              exact beq_eq_false_iff_ne.mpr (fun hc => hipne (Option.some.inj hc).symm)
            simp only [hnr, Bool.false_eq_true, if_false]
            obtain ⟨f2, rfl⟩ : ∃ f2, f = f2 + 1 := ⟨f - 1, by omega⟩
            exact loop_exit_black f2 { root := some p, nodes := m7 } i p _ _ h7i hip h7y rfl
        | some q0 =>
            have hrun7b : RBTree._left_rotate { root := t.root, nodes := mB } g
                = Res.ok { root := t.root, nodes := m7 } := by
              rw [hrun7]
              simp only [hgpar]
            simp only [hrun7b, Res.bind, pure]
            by_cases hrt : t.root = some i
            · have hnr : ({ root := t.root, nodes := m7 } : RBTree)._node_is_root i = true := by
                unfold RBTree._node_is_root
                simp [hrt]
              simp only [hnr, if_true]
              rw [hrt]
              exact fun hc => Res.noConfusion hc
            · have hnr : ({ root := t.root, nodes := m7 } : RBTree)._node_is_root i = false := by
                unfold RBTree._node_is_root
                exact beq_eq_false_iff_ne.mpr hrt
              simp only [hnr, Bool.false_eq_true, if_false]
              obtain ⟨f2, rfl⟩ : ∃ f2, f = f2 + 1 := ⟨f - 1, by omega⟩
              exact loop_exit_black f2 { root := t.root, nodes := m7 } i p _ _ h7i hip h7y rfl
  | some u =>
      obtain ⟨nu, hgu, hung, hunp, huni⟩ := hUL u hunc hgrp
      have hunb : nu.is_red = false := huncb u nu hunc hgu
      have hd4 : derefA t.nodes (some u) = Res.ok nu := by simp [derefA, hgu]
      simp only [hd4, bind, Res.bind, pure, hunb, Bool.false_eq_true, if_false]
      have hils : is_left_sonA t.nodes i
          = Res.ok (pn.left_node.isSome && (pn.left_node == some i)) := by
        unfold is_left_sonA
        simp only [derefA, hgi, bind, Res.bind, hip, hgp, pure]
      simp only [hils, Res.bind]
      by_cases hlsi : pn.left_node = some i
      · -- the working node is a left child: inner right rotation at the parent
        have hcondl : (pn.left_node.isSome && (pn.left_node == some i)) = true := by
          simp [hlsi]
        simp only [hcondl, if_true]
        have hbbI : ∀ bb, n.right_node = some bb →
            ∃ nb, getN t.nodes bb = some nb ∧ bb ≠ p ∧ bb ≠ i := by
          intro bb hbb
          obtain ⟨nb, hgb, hbI, hbP, hbG⟩ := hC bb (Or.inr hbb)
          exact ⟨nb, hgb, hbP, hbI⟩
        have hqqI : ∀ q, pn.parent = some q → ∃ nq, getN t.nodes q = some nq ∧ q ≠ p ∧ q ≠ i ∧
            ∀ bb, n.right_node = some bb → q ≠ bb := by
          intro q hq
          have hqg : g = q := by rw [hpg] at hq; exact Option.some.inj hq
          subst hqg
          refine ⟨gn, hgg, fun hc => hpgne hc.symm, fun hc => higne hc.symm, ?_⟩
          intro bb hbb hc
          obtain ⟨nb, hgb, hbI, hbP, hbG⟩ := hC bb (Or.inr hbb)
          exact hbG hc.symm
        obtain ⟨m6, hrun6, h6x, h6y, h6b, h6q, h6f, h6len⟩ :=
          right_rotate_exec t p i pn n hgp hlsi hgi hipne hbbI hqqI
        simp only [hpg] at hrun6
        simp only [hrun6, Res.bind, pure]
        have hd6 : derefA m6 (some p)
            = Res.ok { pn with left_node := n.right_node, parent := some i } := by
          simp [derefA, h6x]
        simp only [hd6, Res.bind, pure]
        set mA := updF m6 i fun x => { x with colour := Colour.black } with hmA
        have hAp : getN mA p
            = some { pn with left_node := n.right_node, parent := some i } := by
          rw [hmA, getN_updF_ne m6 i p _ (Ne.symm hipne)]
          exact h6x
        have hAi : getN mA i
            = some { { n with right_node := some p, parent := pn.parent }
                with colour := Colour.black } := by
          rw [hmA]
          exact getN_updF_self m6 i _ _ h6y
        have hgfA : grandfather_nodeA mA p = Res.ok (some g) := by
          unfold grandfather_nodeA
          simp only [derefA, hAp, bind, Res.bind, hAi, pure, hpg]
        simp only [hgfA, Res.bind]
        set mB := updF mA g fun x => { x with colour := Colour.red } with hmB
        have hBp : getN mB p
            = some { pn with left_node := n.right_node, parent := some i } := by
          rw [hmB, getN_updF_ne mA g p _ hpgne]
          exact hAp
        have hBi : getN mB i
            = some { { n with right_node := some p, parent := pn.parent }
                with colour := Colour.black } := by
          rw [hmB, getN_updF_ne mA g i _ higne]
          exact hAi
        have hgfB : grandfather_nodeA mB p = Res.ok (some g) := by
          unfold grandfather_nodeA
          simp only [derefA, hBp, bind, Res.bind, hBi, pure, hpg]
        simp only [hgfB, Res.bind]
        have h6g : getN m6 g = some { gn with right_node := some i } := by
          have h := h6q g gn hpg hgg
          rw [if_pos hgrp] at h
          exact h
        have hBg : getN mB g
            = some { { gn with right_node := some i } with colour := Colour.red } := by
          rw [hmB]
          refine getN_updF_self mA g _ _ ?_
          rw [hmA, getN_updF_ne m6 i g _ (Ne.symm higne)]
          exact h6g
        have hbbO : ∀ bb, ({ { n with right_node := some p, parent := pn.parent }
              with colour := Colour.black } : NodeR).left_node = some bb →
            ∃ nb, getN mB bb = some nb ∧ bb ≠ g ∧ bb ≠ i := by
          intro bb hbb
          have hbb2 : n.left_node = some bb := hbb
          obtain ⟨nb, hgb, hbI, hbP, hbG⟩ := hC bb (Or.inl hbb2)
          refine ⟨nb, ?_, hbG, hbI⟩
          rw [hmB, getN_updF_ne mA g bb _ hbG, hmA, getN_updF_ne m6 i bb _ hbI]
          rw [h6f bb hbP hbI (fun b2 hb2 => hcdn bb b2 hbb2 hb2)
            (fun q hq => by rw [hpg] at hq; cases Option.some.inj hq; exact hbG)]
          exact hgb
        have hqqO : ∀ q, ({ { gn with right_node := some i }
              with colour := Colour.red } : NodeR).parent = some q →
            ∃ nq, getN mB q = some nq ∧ q ≠ g ∧ q ≠ i ∧
              ∀ bb, ({ { n with right_node := some p, parent := pn.parent }
                  with colour := Colour.black } : NodeR).left_node = some bb → q ≠ bb := by
          intro q hq
          have hq2 : gn.parent = some q := hq
          obtain ⟨nq, hgq, hqG, hqP, hqI, hqC, hqW⟩ := hQ q hq2
          refine ⟨nq, ?_, hqG, hqI, fun bb hbb => hqC bb (Or.inl hbb)⟩
          rw [hmB, getN_updF_ne mA g q _ hqG, hmA, getN_updF_ne m6 i q _ hqI]
          rw [h6f q hqP hqI (fun b2 hb2 => hqC b2 (Or.inr hb2))
            (fun q2 hq2b => by rw [hpg] at hq2b; cases Option.some.inj hq2b; exact hqG)]
          exact hgq
        obtain ⟨m7, hrun7, h7x, h7y, h7b, h7q, h7f, h7len⟩ :=
          left_rotate_exec { root := t.root, nodes := mB } g i _ _ hBg rfl hBi higne hbbO hqqO
        have h7p : getN m7 p
            = some { pn with left_node := n.right_node, parent := some i } := by
          rw [h7f p hpgne (Ne.symm hipne)
            (fun bb hbb => by
              obtain ⟨nb, hgb, hbI, hbP, hbG⟩ := hC bb (Or.inl hbb)
              exact fun hc => hbP hc.symm)
            (fun q hq => by
              have hq2 : gn.parent = some q := hq
              obtain ⟨nq, hgq, hqG, hqP, hqI, hqC, hqW⟩ := hQ q hq2
              exact fun hc => hqP hc.symm)]
          exact hBp
        cases hgpar : gn.parent with
        | none =>
            have hrun7b : RBTree._left_rotate { root := t.root, nodes := mB } g
                = Res.ok { root := some i, nodes := m7 } := by
              rw [hrun7]
              simp only [hgpar]
            simp only [hrun7b, Res.bind, pure]
            have hnr : ({ root := some i, nodes := m7 } : RBTree)._node_is_root p = false := by
              unfold RBTree._node_is_root
              exact beq_eq_false_iff_ne.mpr (fun hc => hipne (Option.some.inj hc))
            simp only [hnr, Bool.false_eq_true, if_false]
            obtain ⟨f2, rfl⟩ : ∃ f2, f = f2 + 1 := ⟨f - 1, by omega⟩
            exact loop_exit_black f2 { root := some i, nodes := m7 } p i _ _ h7p rfl h7y rfl
        | some q0 =>
            have hrun7b : RBTree._left_rotate { root := t.root, nodes := mB } g
                = Res.ok { root := t.root, nodes := m7 } := by
              rw [hrun7]
              simp only [hgpar]
            simp only [hrun7b, Res.bind, pure]
            by_cases hrt : t.root = some p
            · have hnr : ({ root := t.root, nodes := m7 } : RBTree)._node_is_root p = true := by
                unfold RBTree._node_is_root
                simp [hrt]
              simp only [hnr, if_true]
              rw [hrt]
              exact fun hc => Res.noConfusion hc
            · have hnr : ({ root := t.root, nodes := m7 } : RBTree)._node_is_root p = false := by
                unfold RBTree._node_is_root
                exact beq_eq_false_iff_ne.mpr hrt
              simp only [hnr, Bool.false_eq_true, if_false]
              obtain ⟨f2, rfl⟩ : ∃ f2, f = f2 + 1 := ⟨f - 1, by omega⟩
              exact loop_exit_black f2 { root := t.root, nodes := m7 } p i _ _ h7p rfl h7y rfl
      · -- the working node is a right child: no inner rotation
        have hcondl : (pn.left_node.isSome && (pn.left_node == some i)) = false := by
          cases hx : pn.left_node with
          | none => rfl
          | some z =>
              simp only [Option.isSome_some, Bool.true_and]
              rw [hx] at hlsi
              exact beq_eq_false_iff_ne.mpr hlsi
        have hsri : pn.right_node = some i := hslotp.resolve_left hlsi
        simp only [hcondl, Bool.false_eq_true, if_false]
        set mA := updF t.nodes p fun x => { x with colour := Colour.black } with hmA
        have hAi : getN mA i = some n := by
          rw [hmA, getN_updF_ne t.nodes p i _ hipne]
          exact hgi
        have hAp : getN mA p = some { pn with colour := Colour.black } := by
          rw [hmA]
          exact getN_updF_self t.nodes p _ pn hgp
        have hgfA : grandfather_nodeA mA i = Res.ok (some g) := by
          unfold grandfather_nodeA
          simp only [derefA, hAi, bind, Res.bind, hip, hAp, pure, hpg]
        simp only [hgfA, Res.bind]
        set mB := updF mA g fun x => { x with colour := Colour.red } with hmB
        have hBi : getN mB i = some n := by
          rw [hmB, getN_updF_ne mA g i _ higne]
          exact hAi
        have hBp : getN mB p = some { pn with colour := Colour.black } := by
          rw [hmB, getN_updF_ne mA g p _ hpgne]
          exact hAp
        have hBg : getN mB g = some { gn with colour := Colour.red } := by
          rw [hmB]
          refine getN_updF_self mA g _ _ ?_
          rw [hmA, getN_updF_ne t.nodes p g _ (Ne.symm hpgne)]
          exact hgg
        have hgfB : grandfather_nodeA mB i = Res.ok (some g) := by
          unfold grandfather_nodeA
          simp only [derefA, hBi, bind, Res.bind, hip, hBp, pure, hpg]
        simp only [hgfB, Res.bind]
        have hbbO : ∀ bb, ({ pn with colour := Colour.black } : NodeR).left_node = some bb →
            ∃ nb, getN mB bb = some nb ∧ bb ≠ g ∧ bb ≠ p := by
          intro bb hbb
          have hbb2 : pn.left_node = some bb := hbb
          obtain ⟨nw, hgw, hwP, hwG⟩ := hW bb (Or.inl hbb2)
          refine ⟨nw, ?_, hwG, hwP⟩
          rw [hmB, getN_updF_ne mA g bb _ hwG, hmA, getN_updF_ne t.nodes p bb _ hwP]
          exact hgw
        have hqqO : ∀ q, ({ gn with colour := Colour.red } : NodeR).parent = some q →
            ∃ nq, getN mB q = some nq ∧ q ≠ g ∧ q ≠ p ∧
              ∀ bb, ({ pn with colour := Colour.black } : NodeR).left_node = some bb → q ≠ bb := by
          intro q hq
          have hq2 : gn.parent = some q := hq
          obtain ⟨nq, hgq, hqG, hqP, hqI, hqC, hqW⟩ := hQ q hq2
          refine ⟨nq, ?_, hqG, hqP, fun bb hbb => hqW bb (Or.inl hbb)⟩
          rw [hmB, getN_updF_ne mA g q _ hqG, hmA, getN_updF_ne t.nodes p q _ hqP]
          exact hgq
        obtain ⟨m7, hrun7, h7x, h7y, h7b, h7q, h7f, h7len⟩ :=
          left_rotate_exec { root := t.root, nodes := mB } g p _ _ hBg hgrp hBp hpgne hbbO hqqO
        have h7i : getN m7 i = some n := by
          rw [h7f i higne hipne
            (fun bb hbb => by
              have hbb2 : pn.left_node = some bb := hbb
              exact fun hc => hcdp bb i hbb2 hsri hc.symm)
            (fun q hq => by
              have hq2 : gn.parent = some q := hq
              obtain ⟨nq, hgq, hqG, hqP, hqI, hqC, hqW⟩ := hQ q hq2
              exact fun hc => hqI hc.symm)]
          exact hBi
        cases hgpar : gn.parent with
        | none =>
            have hrun7b : RBTree._left_rotate { root := t.root, nodes := mB } g
                = Res.ok { root := some p, nodes := m7 } := by
              rw [hrun7]
              simp only [hgpar]
            simp only [hrun7b, Res.bind, pure]
            have hnr : ({ root := some p, nodes := m7 } : RBTree)._node_is_root i = false := by
              unfold RBTree._node_is_root
              exact beq_eq_false_iff_ne.mpr (fun hc => hipne (Option.some.inj hc).symm)
            simp only [hnr, Bool.false_eq_true, if_false]
            obtain ⟨f2, rfl⟩ : ∃ f2, f = f2 + 1 := ⟨f - 1, by omega⟩
            exact loop_exit_black f2 { root := some p, nodes := m7 } i p _ _ h7i hip h7y rfl
        | some q0 =>
            have hrun7b : RBTree._left_rotate { root := t.root, nodes := mB } g
                = Res.ok { root := t.root, nodes := m7 } := by
              rw [hrun7]
              simp only [hgpar]
            simp only [hrun7b, Res.bind, pure]
            by_cases hrt : t.root = some i
            · have hnr : ({ root := t.root, nodes := m7 } : RBTree)._node_is_root i = true := by
                unfold RBTree._node_is_root
                simp [hrt]
              simp only [hnr, if_true]
              rw [hrt]
              exact fun hc => Res.noConfusion hc
            · have hnr : ({ root := t.root, nodes := m7 } : RBTree)._node_is_root i = false := by
                unfold RBTree._node_is_root
                exact beq_eq_false_iff_ne.mpr hrt
              simp only [hnr, Bool.false_eq_true, if_false]
              obtain ⟨f2, rfl⟩ : ∃ f2, f = f2 + 1 := ⟨f - 1, by omega⟩
              exact loop_exit_black f2 { root := t.root, nodes := m7 } i p _ _ h7i hip h7y rfl

set_option maxHeartbeats 1000000 in
/-- Mirror of `fixup_rot_A`: the parent is a left child, with the inner and
outer rotations mirrored. -/
theorem fixup_rot_B (t : RBTree) (i p g f : Nat) (n pn gn : NodeR)
    (hwf : wfB t = true) (hmem : i ∈ idsAux t.nodes (tFuel t) t.root)
    (hgi : getN t.nodes i = some n) (hip : n.parent = some p)
    (hgp : getN t.nodes p = some pn) (hred : pn.is_red = true)
    (hpg : pn.parent = some g) (hgg : getN t.nodes g = some gn)
    (hglp : gn.left_node = some p) (hgrne : gn.right_node ≠ some p)
    (huncb : ∀ u nu, gn.right_node = some u → getN t.nodes u = some nu → nu.is_red = false)
    (hf : 1 ≤ f) :
    RBTree._balance_after_insert_loop (f + 1) t i ≠ Res.fuel := by
  obtain ⟨gn', hgg', hpm, hgm, hipne, higne, hpgne, hslotp, hslotg, hnds_p, hnds_g,
      hcdn, hcdp, hC, hW, hUL, hUR, hQ⟩ :=
    fixup_cluster t i p g n pn hwf hmem hgi hip hgp hpg
  have hgneq : gn = gn' := by
    rw [hgg] at hgg'
    exact Option.some.inj hgg'
  subst hgneq
  unfold RBTree._balance_after_insert_loop
  have hd1 : derefA t.nodes (some i) = Res.ok n := by simp [derefA, hgi]
  have hd2 : derefA t.nodes n.parent = Res.ok pn := by rw [hip]; simp [derefA, hgp]
  simp only [hd1, hd2, bind, Res.bind]
  have hnotred : (!pn.is_red) = false := by rw [hred]; rfl
  simp only [hnotred, Bool.false_eq_true, if_false]
  simp only [hip, pure, bind, Res.bind]
  have hprs : is_right_sonA t.nodes p
      = Res.ok (gn.right_node.isSome && (gn.right_node == some p)) := by
    unfold is_right_sonA
    simp only [derefA, hgp, bind, Res.bind, hpg, hgg, pure]
  simp only [hprs, Res.bind]
  have hcond : (gn.right_node.isSome && (gn.right_node == some p)) = false := by
    cases hx : gn.right_node with
    | none => rfl
    | some z =>
        simp only [Option.isSome_some, Bool.true_and]
        rw [hx] at hgrne
        exact beq_eq_false_iff_ne.mpr hgrne
  simp only [hcond, Bool.false_eq_true, if_false]
  have hgf : grandfather_nodeA t.nodes i = Res.ok (some g) := by
    unfold grandfather_nodeA
    simp only [derefA, hgi, bind, Res.bind, hip, hgp, hpg, pure]
  simp only [hgf, Res.bind]
  have hd3 : derefA t.nodes (some g) = Res.ok gn := by simp [derefA, hgg]
  simp only [hd3, Res.bind]
  cases hunc : gn.right_node with
  | none =>
      simp only [pure, Res.bind, Bool.false_eq_true, if_false]
      have hils : is_right_sonA t.nodes i
          = Res.ok (pn.right_node.isSome && (pn.right_node == some i)) := by
        unfold is_right_sonA
        simp only [derefA, hgi, bind, Res.bind, hip, hgp, pure]
      simp only [hils, Res.bind]
      by_cases hlsi : pn.right_node = some i
      · -- the working node is a left child: inner right rotation at the parent
        have hcondl : (pn.right_node.isSome && (pn.right_node == some i)) = true := by
          simp [hlsi]
        simp only [hcondl, if_true]
        have hbbI : ∀ bb, n.left_node = some bb →
            ∃ nb, getN t.nodes bb = some nb ∧ bb ≠ p ∧ bb ≠ i := by
          intro bb hbb
          obtain ⟨nb, hgb, hbI, hbP, hbG⟩ := hC bb (Or.inl hbb)
          exact ⟨nb, hgb, hbP, hbI⟩
        have hqqI : ∀ q, pn.parent = some q → ∃ nq, getN t.nodes q = some nq ∧ q ≠ p ∧ q ≠ i ∧
            ∀ bb, n.left_node = some bb → q ≠ bb := by
          intro q hq
          have hqg : g = q := by rw [hpg] at hq; exact Option.some.inj hq
          subst hqg
          refine ⟨gn, hgg, fun hc => hpgne hc.symm, fun hc => higne hc.symm, ?_⟩
          intro bb hbb hc
          obtain ⟨nb, hgb, hbI, hbP, hbG⟩ := hC bb (Or.inl hbb)
          exact hbG hc.symm
        obtain ⟨m6, hrun6, h6x, h6y, h6b, h6q, h6f, h6len⟩ :=
          left_rotate_exec t p i pn n hgp hlsi hgi hipne hbbI hqqI
        simp only [hpg] at hrun6
        simp only [hrun6, Res.bind, pure]
        have hd6 : derefA m6 (some p)
            = Res.ok { pn with right_node := n.left_node, parent := some i } := by
          simp [derefA, h6x]
        simp only [hd6, Res.bind, pure]
        set mA := updF m6 i fun x => { x with colour := Colour.black } with hmA
        have hAp : getN mA p
            = some { pn with right_node := n.left_node, parent := some i } := by
          rw [hmA, getN_updF_ne m6 i p _ (Ne.symm hipne)]
          exact h6x
        have hAi : getN mA i
            = some { { n with left_node := some p, parent := pn.parent }
                with colour := Colour.black } := by
          rw [hmA]
          exact getN_updF_self m6 i _ _ h6y
        have hgfA : grandfather_nodeA mA p = Res.ok (some g) := by
          unfold grandfather_nodeA
          simp only [derefA, hAp, bind, Res.bind, hAi, pure, hpg]
        simp only [hgfA, Res.bind]
        set mB := updF mA g fun x => { x with colour := Colour.red } with hmB
        have hBp : getN mB p
            = some { pn with right_node := n.left_node, parent := some i } := by
          rw [hmB, getN_updF_ne mA g p _ hpgne]
          exact hAp
        have hBi : getN mB i
            = some { { n with left_node := some p, parent := pn.parent }
                with colour := Colour.black } := by
          rw [hmB, getN_updF_ne mA g i _ higne]
          exact hAi
        have hgfB : grandfather_nodeA mB p = Res.ok (some g) := by
          unfold grandfather_nodeA
          simp only [derefA, hBp, bind, Res.bind, hBi, pure, hpg]
        simp only [hgfB, Res.bind]
        have h6g : getN m6 g = some { gn with left_node := some i } := by
          have h := h6q g gn hpg hgg
          rw [if_pos hglp] at h
          exact h
        have hBg : getN mB g
            = some { { gn with left_node := some i } with colour := Colour.red } := by
          rw [hmB]
          refine getN_updF_self mA g _ _ ?_
          rw [hmA, getN_updF_ne m6 i g _ (Ne.symm higne)]
          exact h6g
        have hbbO : ∀ bb, ({ { n with left_node := some p, parent := pn.parent }
              with colour := Colour.black } : NodeR).right_node = some bb →
            ∃ nb, getN mB bb = some nb ∧ bb ≠ g ∧ bb ≠ i := by
          intro bb hbb
          have hbb2 : n.right_node = some bb := hbb
          obtain ⟨nb, hgb, hbI, hbP, hbG⟩ := hC bb (Or.inr hbb2)
          refine ⟨nb, ?_, hbG, hbI⟩
          rw [hmB, getN_updF_ne mA g bb _ hbG, hmA, getN_updF_ne m6 i bb _ hbI]
          rw [h6f bb hbP hbI (fun b2 hb2 => Ne.symm (hcdn b2 bb hb2 hbb2))
            (fun q hq => by rw [hpg] at hq; cases Option.some.inj hq; exact hbG)]
          exact hgb
        have hqqO : ∀ q, ({ { gn with left_node := some i }
              with colour := Colour.red } : NodeR).parent = some q →
            ∃ nq, getN mB q = some nq ∧ q ≠ g ∧ q ≠ i ∧
              ∀ bb, ({ { n with left_node := some p, parent := pn.parent }
                  with colour := Colour.black } : NodeR).right_node = some bb → q ≠ bb := by
          intro q hq
          have hq2 : gn.parent = some q := hq
          obtain ⟨nq, hgq, hqG, hqP, hqI, hqC, hqW⟩ := hQ q hq2
          refine ⟨nq, ?_, hqG, hqI, fun bb hbb => hqC bb (Or.inr hbb)⟩
          rw [hmB, getN_updF_ne mA g q _ hqG, hmA, getN_updF_ne m6 i q _ hqI]
          rw [h6f q hqP hqI (fun b2 hb2 => hqC b2 (Or.inl hb2))
            (fun q2 hq2b => by rw [hpg] at hq2b; cases Option.some.inj hq2b; exact hqG)]
          exact hgq
        obtain ⟨m7, hrun7, h7x, h7y, h7b, h7q, h7f, h7len⟩ :=
          right_rotate_exec { root := t.root, nodes := mB } g i _ _ hBg rfl hBi higne hbbO hqqO
        have h7p : getN m7 p
            = some { pn with right_node := n.left_node, parent := some i } := by
          rw [h7f p hpgne (Ne.symm hipne)
            (fun bb hbb => by
              obtain ⟨nb, hgb, hbI, hbP, hbG⟩ := hC bb (Or.inr hbb)
              exact fun hc => hbP hc.symm)
            (fun q hq => by
              have hq2 : gn.parent = some q := hq
              obtain ⟨nq, hgq, hqG, hqP, hqI, hqC, hqW⟩ := hQ q hq2
              exact fun hc => hqP hc.symm)]
          exact hBp
        cases hgpar : gn.parent with
        | none =>
            have hrun7b : RBTree._right_rotate { root := t.root, nodes := mB } g
                = Res.ok { root := some i, nodes := m7 } := by
              rw [hrun7]
              simp only [hgpar]
            simp only [hrun7b, Res.bind, pure]
            have hnr : ({ root := some i, nodes := m7 } : RBTree)._node_is_root p = false := by
              unfold RBTree._node_is_root
              exact beq_eq_false_iff_ne.mpr (fun hc => hipne (Option.some.inj hc))
            simp only [hnr, Bool.false_eq_true, if_false]
            obtain ⟨f2, rfl⟩ : ∃ f2, f = f2 + 1 := ⟨f - 1, by omega⟩
            exact loop_exit_black f2 { root := some i, nodes := m7 } p i _ _ h7p rfl h7y rfl
        | some q0 =>
            have hrun7b : RBTree._right_rotate { root := t.root, nodes := mB } g
                = Res.ok { root := t.root, nodes := m7 } := by
              rw [hrun7]
              simp only [hgpar]
            simp only [hrun7b, Res.bind, pure]
            by_cases hrt : t.root = some p
            · have hnr : ({ root := t.root, nodes := m7 } : RBTree)._node_is_root p = true := by
                unfold RBTree._node_is_root
                simp [hrt]
              simp only [hnr, if_true]
              rw [hrt]
              exact fun hc => Res.noConfusion hc
            · have hnr : ({ root := t.root, nodes := m7 } : RBTree)._node_is_root p = false := by
                unfold RBTree._node_is_root
                exact beq_eq_false_iff_ne.mpr hrt
              simp only [hnr, Bool.false_eq_true, if_false]
              obtain ⟨f2, rfl⟩ : ∃ f2, f = f2 + 1 := ⟨f - 1, by omega⟩
              exact loop_exit_black f2 { root := t.root, nodes := m7 } p i _ _ h7p rfl h7y rfl
      · -- the working node is a right child: no inner rotation
        have hcondl : (pn.right_node.isSome && (pn.right_node == some i)) = false := by
          cases hx : pn.right_node with
          | none => rfl
          | some z =>
              simp only [Option.isSome_some, Bool.true_and]
              rw [hx] at hlsi
              exact beq_eq_false_iff_ne.mpr hlsi
        have hsri : pn.left_node = some i := hslotp.resolve_right hlsi
        simp only [hcondl, Bool.false_eq_true, if_false]
        set mA := updF t.nodes p fun x => { x with colour := Colour.black } with hmA
        have hAi : getN mA i = some n := by
          rw [hmA, getN_updF_ne t.nodes p i _ hipne]
          exact hgi
        have hAp : getN mA p = some { pn with colour := Colour.black } := by
          rw [hmA]
          exact getN_updF_self t.nodes p _ pn hgp
        have hgfA : grandfather_nodeA mA i = Res.ok (some g) := by
          unfold grandfather_nodeA
          simp only [derefA, hAi, bind, Res.bind, hip, hAp, pure, hpg]
        simp only [hgfA, Res.bind]
        set mB := updF mA g fun x => { x with colour := Colour.red } with hmB
        have hBi : getN mB i = some n := by
          rw [hmB, getN_updF_ne mA g i _ higne]
          exact hAi
        have hBp : getN mB p = some { pn with colour := Colour.black } := by
          rw [hmB, getN_updF_ne mA g p _ hpgne]
          exact hAp
        have hBg : getN mB g = some { gn with colour := Colour.red } := by
          rw [hmB]
          refine getN_updF_self mA g _ _ ?_
          rw [hmA, getN_updF_ne t.nodes p g _ (Ne.symm hpgne)]
          exact hgg
        have hgfB : grandfather_nodeA mB i = Res.ok (some g) := by
          unfold grandfather_nodeA
          simp only [derefA, hBi, bind, Res.bind, hip, hBp, pure, hpg]
        simp only [hgfB, Res.bind]
        have hbbO : ∀ bb, ({ pn with colour := Colour.black } : NodeR).right_node = some bb →
            ∃ nb, getN mB bb = some nb ∧ bb ≠ g ∧ bb ≠ p := by
          intro bb hbb
          have hbb2 : pn.right_node = some bb := hbb
          obtain ⟨nw, hgw, hwP, hwG⟩ := hW bb (Or.inr hbb2)
          refine ⟨nw, ?_, hwG, hwP⟩
          rw [hmB, getN_updF_ne mA g bb _ hwG, hmA, getN_updF_ne t.nodes p bb _ hwP]
          exact hgw
        have hqqO : ∀ q, ({ gn with colour := Colour.red } : NodeR).parent = some q →
            ∃ nq, getN mB q = some nq ∧ q ≠ g ∧ q ≠ p ∧
              ∀ bb, ({ pn with colour := Colour.black } : NodeR).right_node = some bb → q ≠ bb := by
          intro q hq
          have hq2 : gn.parent = some q := hq
          obtain ⟨nq, hgq, hqG, hqP, hqI, hqC, hqW⟩ := hQ q hq2
          refine ⟨nq, ?_, hqG, hqP, fun bb hbb => hqW bb (Or.inr hbb)⟩
          rw [hmB, getN_updF_ne mA g q _ hqG, hmA, getN_updF_ne t.nodes p q _ hqP]
          exact hgq
        obtain ⟨m7, hrun7, h7x, h7y, h7b, h7q, h7f, h7len⟩ :=
          right_rotate_exec { root := t.root, nodes := mB } g p _ _ hBg hglp hBp hpgne hbbO hqqO
        have h7i : getN m7 i = some n := by
          rw [h7f i higne hipne
            (fun bb hbb => by
              have hbb2 : pn.right_node = some bb := hbb
              exact hcdp i bb hsri hbb2)
            (fun q hq => by
              have hq2 : gn.parent = some q := hq
              obtain ⟨nq, hgq, hqG, hqP, hqI, hqC, hqW⟩ := hQ q hq2
              exact fun hc => hqI hc.symm)]
          exact hBi
        cases hgpar : gn.parent with
        | none =>
            have hrun7b : RBTree._right_rotate { root := t.root, nodes := mB } g
                = Res.ok { root := some p, nodes := m7 } := by
              rw [hrun7]
              simp only [hgpar]
            simp only [hrun7b, Res.bind, pure]
            have hnr : ({ root := some p, nodes := m7 } : RBTree)._node_is_root i = false := by
              unfold RBTree._node_is_root
              exact beq_eq_false_iff_ne.mpr (fun hc => hipne (Option.some.inj hc).symm)
            simp only [hnr, Bool.false_eq_true, if_false]
            obtain ⟨f2, rfl⟩ : ∃ f2, f = f2 + 1 := ⟨f - 1, by omega⟩
            exact loop_exit_black f2 { root := some p, nodes := m7 } i p _ _ h7i hip h7y rfl
        | some q0 =>
            have hrun7b : RBTree._right_rotate { root := t.root, nodes := mB } g
                = Res.ok { root := t.root, nodes := m7 } := by
              rw [hrun7]
              simp only [hgpar]
            simp only [hrun7b, Res.bind, pure]
            by_cases hrt : t.root = some i
            · have hnr : ({ root := t.root, nodes := m7 } : RBTree)._node_is_root i = true := by
                unfold RBTree._node_is_root
                simp [hrt]
              simp only [hnr, if_true]
              rw [hrt]
              exact fun hc => Res.noConfusion hc
            · have hnr : ({ root := t.root, nodes := m7 } : RBTree)._node_is_root i = false := by
                unfold RBTree._node_is_root
                exact beq_eq_false_iff_ne.mpr hrt
              simp only [hnr, Bool.false_eq_true, if_false]
              obtain ⟨f2, rfl⟩ : ∃ f2, f = f2 + 1 := ⟨f - 1, by omega⟩
              exact loop_exit_black f2 { root := t.root, nodes := m7 } i p _ _ h7i hip h7y rfl
  | some u =>
      obtain ⟨nu, hgu, hung, hunp, huni⟩ := hUR u hunc hglp
      have hunb : nu.is_red = false := huncb u nu hunc hgu
      have hd4 : derefA t.nodes (some u) = Res.ok nu := by simp [derefA, hgu]
      simp only [hd4, bind, Res.bind, pure, hunb, Bool.false_eq_true, if_false]
      have hils : is_right_sonA t.nodes i
          = Res.ok (pn.right_node.isSome && (pn.right_node == some i)) := by
        unfold is_right_sonA
        simp only [derefA, hgi, bind, Res.bind, hip, hgp, pure]
      simp only [hils, Res.bind]
      by_cases hlsi : pn.right_node = some i
      · -- the working node is a left child: inner right rotation at the parent
        have hcondl : (pn.right_node.isSome && (pn.right_node == some i)) = true := by
          simp [hlsi]
        simp only [hcondl, if_true]
        have hbbI : ∀ bb, n.left_node = some bb →
            ∃ nb, getN t.nodes bb = some nb ∧ bb ≠ p ∧ bb ≠ i := by
          intro bb hbb
          obtain ⟨nb, hgb, hbI, hbP, hbG⟩ := hC bb (Or.inl hbb)
          exact ⟨nb, hgb, hbP, hbI⟩
        have hqqI : ∀ q, pn.parent = some q → ∃ nq, getN t.nodes q = some nq ∧ q ≠ p ∧ q ≠ i ∧
            ∀ bb, n.left_node = some bb → q ≠ bb := by
          intro q hq
          have hqg : g = q := by rw [hpg] at hq; exact Option.some.inj hq
          subst hqg
          refine ⟨gn, hgg, fun hc => hpgne hc.symm, fun hc => higne hc.symm, ?_⟩
          intro bb hbb hc
          obtain ⟨nb, hgb, hbI, hbP, hbG⟩ := hC bb (Or.inl hbb)
          exact hbG hc.symm
        obtain ⟨m6, hrun6, h6x, h6y, h6b, h6q, h6f, h6len⟩ :=
          left_rotate_exec t p i pn n hgp hlsi hgi hipne hbbI hqqI
        simp only [hpg] at hrun6
        simp only [hrun6, Res.bind, pure]
        have hd6 : derefA m6 (some p)
            = Res.ok { pn with right_node := n.left_node, parent := some i } := by
          simp [derefA, h6x]
        simp only [hd6, Res.bind, pure]
        set mA := updF m6 i fun x => { x with colour := Colour.black } with hmA
        have hAp : getN mA p
            = some { pn with right_node := n.left_node, parent := some i } := by
          rw [hmA, getN_updF_ne m6 i p _ (Ne.symm hipne)]
          exact h6x
        have hAi : getN mA i
            = some { { n with left_node := some p, parent := pn.parent }
                with colour := Colour.black } := by
          rw [hmA]
          exact getN_updF_self m6 i _ _ h6y
        have hgfA : grandfather_nodeA mA p = Res.ok (some g) := by
          unfold grandfather_nodeA
          simp only [derefA, hAp, bind, Res.bind, hAi, pure, hpg]
        simp only [hgfA, Res.bind]
        set mB := updF mA g fun x => { x with colour := Colour.red } with hmB
        have hBp : getN mB p
            = some { pn with right_node := n.left_node, parent := some i } := by
          rw [hmB, getN_updF_ne mA g p _ hpgne]
          exact hAp
        have hBi : getN mB i
            = some { { n with left_node := some p, parent := pn.parent }
                with colour := Colour.black } := by
          rw [hmB, getN_updF_ne mA g i _ higne]
          exact hAi
        have hgfB : grandfather_nodeA mB p = Res.ok (some g) := by
          unfold grandfather_nodeA
          simp only [derefA, hBp, bind, Res.bind, hBi, pure, hpg]
        simp only [hgfB, Res.bind]
        have h6g : getN m6 g = some { gn with left_node := some i } := by
          have h := h6q g gn hpg hgg
          rw [if_pos hglp] at h
          exact h
        have hBg : getN mB g
            = some { { gn with left_node := some i } with colour := Colour.red } := by
          rw [hmB]
          refine getN_updF_self mA g _ _ ?_
          rw [hmA, getN_updF_ne m6 i g _ (Ne.symm higne)]
          exact h6g
        have hbbO : ∀ bb, ({ { n with left_node := some p, parent := pn.parent }
              with colour := Colour.black } : NodeR).right_node = some bb →
            ∃ nb, getN mB bb = some nb ∧ bb ≠ g ∧ bb ≠ i := by
          intro bb hbb
          have hbb2 : n.right_node = some bb := hbb
          obtain ⟨nb, hgb, hbI, hbP, hbG⟩ := hC bb (Or.inr hbb2)
          refine ⟨nb, ?_, hbG, hbI⟩
          rw [hmB, getN_updF_ne mA g bb _ hbG, hmA, getN_updF_ne m6 i bb _ hbI]
          rw [h6f bb hbP hbI (fun b2 hb2 => Ne.symm (hcdn b2 bb hb2 hbb2))
            (fun q hq => by rw [hpg] at hq; cases Option.some.inj hq; exact hbG)]
          exact hgb
        have hqqO : ∀ q, ({ { gn with left_node := some i }
              with colour := Colour.red } : NodeR).parent = some q →
            ∃ nq, getN mB q = some nq ∧ q ≠ g ∧ q ≠ i ∧
              ∀ bb, ({ { n with left_node := some p, parent := pn.parent }
                  with colour := Colour.black } : NodeR).right_node = some bb → q ≠ bb := by
          intro q hq
          have hq2 : gn.parent = some q := hq
          obtain ⟨nq, hgq, hqG, hqP, hqI, hqC, hqW⟩ := hQ q hq2
          refine ⟨nq, ?_, hqG, hqI, fun bb hbb => hqC bb (Or.inr hbb)⟩
          rw [hmB, getN_updF_ne mA g q _ hqG, hmA, getN_updF_ne m6 i q _ hqI]
          rw [h6f q hqP hqI (fun b2 hb2 => hqC b2 (Or.inl hb2))
            (fun q2 hq2b => by rw [hpg] at hq2b; cases Option.some.inj hq2b; exact hqG)]
          exact hgq
        obtain ⟨m7, hrun7, h7x, h7y, h7b, h7q, h7f, h7len⟩ :=
          right_rotate_exec { root := t.root, nodes := mB } g i _ _ hBg rfl hBi higne hbbO hqqO
        have h7p : getN m7 p
            = some { pn with right_node := n.left_node, parent := some i } := by
          rw [h7f p hpgne (Ne.symm hipne)
            (fun bb hbb => by
              obtain ⟨nb, hgb, hbI, hbP, hbG⟩ := hC bb (Or.inr hbb)
              exact fun hc => hbP hc.symm)
            (fun q hq => by
              have hq2 : gn.parent = some q := hq
              obtain ⟨nq, hgq, hqG, hqP, hqI, hqC, hqW⟩ := hQ q hq2
              exact fun hc => hqP hc.symm)]
          exact hBp
        cases hgpar : gn.parent with
        | none =>
            have hrun7b : RBTree._right_rotate { root := t.root, nodes := mB } g
                = Res.ok { root := some i, nodes := m7 } := by
              rw [hrun7]
              simp only [hgpar]
            simp only [hrun7b, Res.bind, pure]
            have hnr : ({ root := some i, nodes := m7 } : RBTree)._node_is_root p = false := by
              unfold RBTree._node_is_root
              exact beq_eq_false_iff_ne.mpr (fun hc => hipne (Option.some.inj hc))
            simp only [hnr, Bool.false_eq_true, if_false]
            obtain ⟨f2, rfl⟩ : ∃ f2, f = f2 + 1 := ⟨f - 1, by omega⟩
            exact loop_exit_black f2 { root := some i, nodes := m7 } p i _ _ h7p rfl h7y rfl
        | some q0 =>
            have hrun7b : RBTree._right_rotate { root := t.root, nodes := mB } g
                = Res.ok { root := t.root, nodes := m7 } := by
              rw [hrun7]
              simp only [hgpar]
            simp only [hrun7b, Res.bind, pure]
            by_cases hrt : t.root = some p
            · have hnr : ({ root := t.root, nodes := m7 } : RBTree)._node_is_root p = true := by
                unfold RBTree._node_is_root
                simp [hrt]
              simp only [hnr, if_true]
              rw [hrt]
              exact fun hc => Res.noConfusion hc
            · have hnr : ({ root := t.root, nodes := m7 } : RBTree)._node_is_root p = false := by
                unfold RBTree._node_is_root
                exact beq_eq_false_iff_ne.mpr hrt
              simp only [hnr, Bool.false_eq_true, if_false]
              obtain ⟨f2, rfl⟩ : ∃ f2, f = f2 + 1 := ⟨f - 1, by omega⟩
              exact loop_exit_black f2 { root := t.root, nodes := m7 } p i _ _ h7p rfl h7y rfl
      · -- the working node is a right child: no inner rotation
        have hcondl : (pn.right_node.isSome && (pn.right_node == some i)) = false := by
          cases hx : pn.right_node with
          | none => rfl
          | some z =>
              simp only [Option.isSome_some, Bool.true_and]
              rw [hx] at hlsi
              exact beq_eq_false_iff_ne.mpr hlsi
        have hsri : pn.left_node = some i := hslotp.resolve_right hlsi
        simp only [hcondl, Bool.false_eq_true, if_false]
        set mA := updF t.nodes p fun x => { x with colour := Colour.black } with hmA
        have hAi : getN mA i = some n := by
          rw [hmA, getN_updF_ne t.nodes p i _ hipne]
          exact hgi
        have hAp : getN mA p = some { pn with colour := Colour.black } := by
          rw [hmA]
          exact getN_updF_self t.nodes p _ pn hgp
        have hgfA : grandfather_nodeA mA i = Res.ok (some g) := by
          unfold grandfather_nodeA
          simp only [derefA, hAi, bind, Res.bind, hip, hAp, pure, hpg]
        simp only [hgfA, Res.bind]
        set mB := updF mA g fun x => { x with colour := Colour.red } with hmB
        have hBi : getN mB i = some n := by
          rw [hmB, getN_updF_ne mA g i _ higne]
          exact hAi
        have hBp : getN mB p = some { pn with colour := Colour.black } := by
          rw [hmB, getN_updF_ne mA g p _ hpgne]
          exact hAp
        have hBg : getN mB g = some { gn with colour := Colour.red } := by
          rw [hmB]
          refine getN_updF_self mA g _ _ ?_
          rw [hmA, getN_updF_ne t.nodes p g _ (Ne.symm hpgne)]
          exact hgg
        have hgfB : grandfather_nodeA mB i = Res.ok (some g) := by
          unfold grandfather_nodeA
          simp only [derefA, hBi, bind, Res.bind, hip, hBp, pure, hpg]
        simp only [hgfB, Res.bind]
        have hbbO : ∀ bb, ({ pn with colour := Colour.black } : NodeR).right_node = some bb →
            ∃ nb, getN mB bb = some nb ∧ bb ≠ g ∧ bb ≠ p := by
          intro bb hbb
          have hbb2 : pn.right_node = some bb := hbb
          obtain ⟨nw, hgw, hwP, hwG⟩ := hW bb (Or.inr hbb2)
          refine ⟨nw, ?_, hwG, hwP⟩
          rw [hmB, getN_updF_ne mA g bb _ hwG, hmA, getN_updF_ne t.nodes p bb _ hwP]
          exact hgw
        have hqqO : ∀ q, ({ gn with colour := Colour.red } : NodeR).parent = some q →
            ∃ nq, getN mB q = some nq ∧ q ≠ g ∧ q ≠ p ∧
              ∀ bb, ({ pn with colour := Colour.black } : NodeR).right_node = some bb → q ≠ bb := by
          intro q hq
          have hq2 : gn.parent = some q := hq
          obtain ⟨nq, hgq, hqG, hqP, hqI, hqC, hqW⟩ := hQ q hq2
          refine ⟨nq, ?_, hqG, hqP, fun bb hbb => hqW bb (Or.inr hbb)⟩
          rw [hmB, getN_updF_ne mA g q _ hqG, hmA, getN_updF_ne t.nodes p q _ hqP]
          exact hgq
        obtain ⟨m7, hrun7, h7x, h7y, h7b, h7q, h7f, h7len⟩ :=
          right_rotate_exec { root := t.root, nodes := mB } g p _ _ hBg hglp hBp hpgne hbbO hqqO
        have h7i : getN m7 i = some n := by
          rw [h7f i higne hipne
            (fun bb hbb => by
              have hbb2 : pn.right_node = some bb := hbb
              exact hcdp i bb hsri hbb2)
            (fun q hq => by
              have hq2 : gn.parent = some q := hq
              obtain ⟨nq, hgq, hqG, hqP, hqI, hqC, hqW⟩ := hQ q hq2
              exact fun hc => hqI hc.symm)]
          exact hBi
        cases hgpar : gn.parent with
        | none =>
            have hrun7b : RBTree._right_rotate { root := t.root, nodes := mB } g
                = Res.ok { root := some p, nodes := m7 } := by
              rw [hrun7]
              simp only [hgpar]
            simp only [hrun7b, Res.bind, pure]
            have hnr : ({ root := some p, nodes := m7 } : RBTree)._node_is_root i = false := by
              unfold RBTree._node_is_root
              exact beq_eq_false_iff_ne.mpr (fun hc => hipne (Option.some.inj hc).symm)
            simp only [hnr, Bool.false_eq_true, if_false]
            obtain ⟨f2, rfl⟩ : ∃ f2, f = f2 + 1 := ⟨f - 1, by omega⟩
            exact loop_exit_black f2 { root := some p, nodes := m7 } i p _ _ h7i hip h7y rfl
        | some q0 =>
            have hrun7b : RBTree._right_rotate { root := t.root, nodes := mB } g
                = Res.ok { root := t.root, nodes := m7 } := by
              rw [hrun7]
              simp only [hgpar]
            simp only [hrun7b, Res.bind, pure]
            by_cases hrt : t.root = some i
            · have hnr : ({ root := t.root, nodes := m7 } : RBTree)._node_is_root i = true := by
                unfold RBTree._node_is_root
                simp [hrt]
              simp only [hnr, if_true]
              rw [hrt]
              exact fun hc => Res.noConfusion hc
            · have hnr : ({ root := t.root, nodes := m7 } : RBTree)._node_is_root i = false := by
                unfold RBTree._node_is_root
                exact beq_eq_false_iff_ne.mpr hrt
              simp only [hnr, Bool.false_eq_true, if_false]
              obtain ⟨f2, rfl⟩ : ∃ f2, f = f2 + 1 := ⟨f - 1, by omega⟩
              exact loop_exit_black f2 { root := t.root, nodes := m7 } i p _ _ h7i hip h7y rfl

/-- The insert-fixup loop never exhausts its fuel once the fuel exceeds the
working node's depth: every iteration with a red parent either recolours and
ascends two levels (shrinking the parent chain by two) or rotates and exits
at the next check. -/
theorem balance_loop_no_fuel :
    ∀ (fuel : Nat) (t : RBTree) (i d : Nat), wfB t = true →
      i ∈ idsAux t.nodes (tFuel t) t.root →
      pchainB t.nodes (tFuel t) (some i) = some d → d < fuel →
      RBTree._balance_after_insert_loop fuel t i ≠ Res.fuel := by
  intro fuel
  induction fuel with
  | zero => intro t i d _ _ _ hlt; omega
  | succ f ih =>
      intro t i d hwf hmem hpc hlt
      obtain ⟨hw, hnd, hpo, hrp⟩ := wfB_elim t hwf
      obtain ⟨n, hgi⟩ := ids_present t.nodes (tFuel t) t.root i hw hmem
      cases hip : n.parent with
      | none =>
          unfold RBTree._balance_after_insert_loop
          have hd1 : derefA t.nodes (some i) = Res.ok n := by simp [derefA, hgi]
          simp only [hd1, bind, Res.bind, hip]
          simp only [derefA, Res.bind]
          exact fun hc => Res.noConfusion hc
      | some p =>
          have hri : t.root ≠ some i := by
            intro hc
            have h0 := hrp i n hc hgi
            rw [hip] at h0
            exact Option.noConfusion h0
          obtain ⟨p0, pn, hgp, hqp0, hpm0, hslot0⟩ :=
            find_parent t.nodes (tFuel t) t.root i n hw hpo hmem hri hgi
          have hpe : p = p0 := by rw [hip] at hqp0; exact Option.some.inj hqp0
          subst hpe
          by_cases hred : pn.is_red = true
          · cases hpg : pn.parent with
            | none =>
                unfold RBTree._balance_after_insert_loop
                have hd1 : derefA t.nodes (some i) = Res.ok n := by simp [derefA, hgi]
                have hd2x : derefA t.nodes n.parent = Res.ok pn := by
                  rw [hip]; simp [derefA, hgp]
                simp only [hd1, hd2x, bind, Res.bind]
                have hnotred : (!pn.is_red) = false := by rw [hred]; rfl
                simp only [hnotred, Bool.false_eq_true, if_false]
                simp only [hip, pure, bind, Res.bind]
                have hprs : is_right_sonA t.nodes p = Res.ok false := by
                  unfold is_right_sonA
                  simp only [derefA, hgp, bind, Res.bind, hpg, pure]
                simp only [hprs, Res.bind, Bool.false_eq_true, if_false]
                have hgf : grandfather_nodeA t.nodes i = Res.ok none := by
                  unfold grandfather_nodeA
                  simp only [derefA, hgi, bind, Res.bind, hip, hgp, pure, hpg]
                simp only [hgf, Res.bind]
                simp only [derefA, Res.bind]
                exact fun hc => Res.noConfusion hc
            | some g =>
                obtain ⟨gn, hgg, hpm, hgm, hipne, higne, hpgne, hslotp, hslotg, hnds_p,
                    hnds_g, hcdn, hcdp, hC, hW, hUL, hUR, hQ⟩ :=
                  fixup_cluster t i p g n pn hwf hmem hgi hip hgp hpg
                have hL1 : 1 ≤ t.nodes.length := getN_some_length_pos t.nodes i n hgi
                obtain ⟨L, hLL⟩ : ∃ L, t.nodes.length = L + 1 := ⟨t.nodes.length - 1, by omega⟩
                have hpc' := hpc
                simp only [tFuel] at hpc'
                rw [hLL] at hpc'
                simp only [pchainB, hgi, hip] at hpc'
                simp only [pchainB, hgp, hpg] at hpc'
                cases hd2c : pchainB t.nodes L (some g) with
                | none => rw [hd2c] at hpc'; simp at hpc'
                | some d2 =>
                    rw [hd2c] at hpc'
                    simp only [Option.map_map, Option.map_some'] at hpc'
                    have hdd : d2 + 1 + 1 = d := Option.some.inj hpc'
                    have hf : 1 ≤ f := by omega
                    by_cases hgrp : gn.right_node = some p
                    · cases hunc : gn.left_node with
                      | none =>
                          exact fixup_rot_A t i p g f n pn gn hwf hmem hgi hip hgp hred hpg
                            hgg hgrp
                            (fun u nu hu _ => by rw [hunc] at hu; exact Option.noConfusion hu)
                            hf
                      | some u =>
                          obtain ⟨nu, hgu, hung, hunp, huni⟩ := hUL u hunc hgrp
                          by_cases hunr : nu.is_red = true
                          · exact fixup_uncle_red_A t i p g u f d n pn gn nu ih hwf hmem hgi
                              hip hgp hred hpg hgg hpc hlt hgrp hunc hgu hunr
                          · exact fixup_rot_A t i p g f n pn gn hwf hmem hgi hip hgp hred hpg
                              hgg hgrp
                              (fun u2 nu2 hu2 hgu2 => by
                                rw [hunc] at hu2
                                cases Option.some.inj hu2
                                rw [hgu] at hgu2
                                cases Option.some.inj hgu2
                                cases h2 : nu.is_red with
                                | false => rfl
                                | true => exact absurd h2 hunr)
                              hf
                    · have hglp : gn.left_node = some p := hslotg.resolve_right hgrp
                      cases hunc : gn.right_node with
                      | none =>
                          exact fixup_rot_B t i p g f n pn gn hwf hmem hgi hip hgp hred hpg
                            hgg hglp hgrp
                            (fun u nu hu _ => by rw [hunc] at hu; exact Option.noConfusion hu)
                            hf
                      | some u =>
                          obtain ⟨nu, hgu, hung, hunp, huni⟩ := hUR u hunc hglp
                          by_cases hunr : nu.is_red = true
                          · exact fixup_uncle_red_B t i p g u f d n pn gn nu ih hwf hmem hgi
                              hip hgp hred hpg hgg hpc hlt hglp hgrp hunc hgu hunr
                          · exact fixup_rot_B t i p g f n pn gn hwf hmem hgi hip hgp hred hpg
                              hgg hglp hgrp
                              (fun u2 nu2 hu2 hgu2 => by
                                rw [hunc] at hu2
                                cases Option.some.inj hu2
                                rw [hgu] at hgu2
                                cases Option.some.inj hgu2
                                cases h2 : nu.is_red with
                                | false => rfl
                                | true => exact absurd h2 hunr)
                              hf
          · have hb : pn.is_red = false := by
              cases h2 : pn.is_red with
              | false => rfl
              | true => exact absurd h2 hred
            exact loop_exit_black f t i p n pn hgi hip hgp hb

theorem getN_mem_keys (m : Arena) (j : Nat) (n : NodeR)
    (h : getN m j = some n) : j ∈ m.map Prod.fst := by
  induction m with
  | nil => simp [getN] at h
  | cons e rest ih =>
      simp only [getN] at h
      by_cases hj : e.1 = j
      · simp [hj]
      · rw [if_neg hj] at h
        simp only [List.map_cons, List.mem_cons]
        exact Or.inr (ih h)

theorem pchainB_none_zero (m : Arena) (f : Nat) : pchainB m f none = some 0 := by
  cases f <;> rfl

/-- Walking down a parent-consistent subtree whose root has parent-chain
length `k`, every visited node has a defined parent chain, of length less
than `k` plus the number of visited nodes. -/
theorem pchain_depth (m : Arena) :
    ∀ (f : Nat) (r : Option Nat) (k F : Nat),
      withinB m f r = true → parentOkB m f r = true →
      (∀ rt, r = some rt → pchainB m F (some rt) = some k) →
      ∀ j, j ∈ idsAux m f r →
        ∃ dj, dj + 1 ≤ k + (idsAux m f r).length ∧
          pchainB m (F + f) (some j) = some dj := by
  intro f
  induction f with
  | zero =>
      intro r k F hw _ _ j hj
      cases r with
      | none => simp [idsAux] at hj
      | some i => simp [withinB] at hw
  | succ f ih =>
      intro r k F hw hpo hk j hj
      cases r with
      | none => simp [idsAux] at hj
      | some rt =>
          obtain ⟨nrt, hgrt⟩ := within_getN_some m f rt hw
          have hch := within_children m f rt nrt hw hgrt
          have hpe := parentOk_elim m f rt nrt hpo hgrt
          have hexp := idsAux_some m f rt nrt hgrt
          have hkrt := hk rt rfl
          rcases mem_ids_elim m f rt j nrt hgrt hj with rfl | hjl | hjr
          · refine ⟨k, ?_, pchain_mono m F (some j) k hkrt (F + (f + 1)) (by omega)⟩
            rw [hexp]
            simp only [List.length_cons]
            omega
          · have hkc : ∀ rt2, nrt.left_node = some rt2 →
                pchainB m (F + 1) (some rt2) = some (k + 1) := by
              intro rt2 hc
              obtain ⟨cn, hgc, hcp⟩ := hpe.1 rt2 hc
              obtain ⟨F1, hF1⟩ : ∃ F1, F + 1 = F1 + 1 := ⟨F, rfl⟩
              simp only [pchainB, hgc, hcp]
              rw [pchain_mono m F (some rt) k hkrt F (le_refl F)]
              rfl
            obtain ⟨dj, hle, hpc⟩ := ih nrt.left_node (k + 1) (F + 1) hch.1 hpe.2.2.1 hkc j hjl
            refine ⟨dj, ?_, ?_⟩
            · rw [hexp]
              simp only [List.length_cons, List.length_append]
              omega
            · have : F + 1 + f = F + (f + 1) := by omega
              rw [← this]
              exact hpc
          · have hkc : ∀ rt2, nrt.right_node = some rt2 →
                pchainB m (F + 1) (some rt2) = some (k + 1) := by
              intro rt2 hc
              obtain ⟨cn, hgc, hcp⟩ := hpe.2.1 rt2 hc
              simp only [pchainB, hgc, hcp]
              rw [pchain_mono m F (some rt) k hkrt F (le_refl F)]
              rfl
            obtain ⟨dj, hle, hpc⟩ := ih nrt.right_node (k + 1) (F + 1) hch.2 hpe.2.2.2 hkc j hjr
            refine ⟨dj, ?_, ?_⟩
            · rw [hexp]
              simp only [List.length_cons, List.length_append]
              omega
            · have : F + 1 + f = F + (f + 1) := by omega
              rw [← this]
              exact hpc

/-- In a wellformed tree every reachable node's parent-chain length is less
than the canonical fuel (one more than the number of stored nodes). -/
theorem pchain_lt_tFuel (t : RBTree) (i d : Nat)
    (hwf : wfB t = true) (hmem : i ∈ idsAux t.nodes (tFuel t) t.root)
    (hd : pchainB t.nodes (tFuel t) (some i) = some d) : d < tFuel t := by
  obtain ⟨hw, hnd, hpo, hrp⟩ := wfB_elim t hwf
  have hk : ∀ rt, t.root = some rt → pchainB t.nodes (tFuel t) (some rt) = some 1 := by
    intro rt hr
    have hwr : withinB t.nodes (tFuel t) (some rt) = true := by rw [← hr]; exact hw
    simp only [tFuel] at hwr
    obtain ⟨nr, hgr⟩ := within_getN_some t.nodes t.nodes.length rt hwr
    have hrn : nr.parent = none := hrp rt nr hr hgr
    simp only [tFuel, pchainB, hgr, hrn]
    rw [pchainB_none_zero]
    rfl
  obtain ⟨dj, hle, hpc⟩ :=
    pchain_depth t.nodes (tFuel t) t.root 1 (tFuel t) hw hpo hk i hmem
  have hdj : dj = d := by
    have h1 := pchain_mono t.nodes (tFuel t) (some i) d hd (tFuel t + tFuel t) (by omega)
    rw [h1] at hpc
    exact (Option.some.inj hpc).symm
  subst hdj
  -- the traversal visits at most as many nodes as are stored
  have hsub : idsAux t.nodes (tFuel t) t.root ⊆ t.nodes.map Prod.fst := by
    intro j hj
    obtain ⟨nj, hgj⟩ := ids_present t.nodes (tFuel t) t.root j hw hj
    exact getN_mem_keys t.nodes j nj hgj
  have hlen : (idsAux t.nodes (tFuel t) t.root).length ≤ t.nodes.length := by
    have hperm := List.subperm_of_subset hnd hsub
    have := hperm.length_le
    simpa using this
  simp only [tFuel] at hle hlen ⊢
  omega

/-- Claim C9: for every structurally wellformed tree in which the working
node `i` has a well-defined depth `d` (the length of its parent chain,
which is at most the tree height, itself below `tFuel t`), the insert-fixup
loop terminates: one unit of fuel is spent per iteration, and with any fuel
budget above `d` the loop never exhausts it — each iteration with a red
parent either recolours and ascends two levels (shrinking the parent chain
by two) or performs its rotations and exits at the next condition check; in
particular `_balance_after_insert`, which runs the loop with the canonical
fuel, never exhausts it. -/
theorem C9_insert_fixup_terminates (t : RBTree) (i d : Nat)
    (hwf : wfB t = true) (hmem : i ∈ idsAux t.nodes (tFuel t) t.root)
    (hd : pchainB t.nodes (tFuel t) (some i) = some d) :
    d < tFuel t ∧
    (∀ fuel, d < fuel → RBTree._balance_after_insert_loop fuel t i ≠ Res.fuel) ∧
    RBTree._balance_after_insert t i ≠ Res.fuel := by
  have hdlt : d < tFuel t := pchain_lt_tFuel t i d hwf hmem hd
  refine ⟨hdlt, fun fuel hlt => balance_loop_no_fuel fuel t i d hwf hmem hd hlt, ?_⟩
  obtain ⟨hw, hnd, hpo, hrp⟩ := wfB_elim t hwf
  obtain ⟨n, hgi⟩ := ids_present t.nodes (tFuel t) t.root i hw hmem
  unfold RBTree._balance_after_insert
  have hd1 : derefA t.nodes (some i) = Res.ok n := by simp [derefA, hgi]
  simp only [hd1, bind, Res.bind]
  cases hip : n.parent with
  | none => exact fun hc => Res.noConfusion hc
  | some p =>
      have hri : t.root ≠ some i := by
        intro hc
        have h0 := hrp i n hc hgi
        rw [hip] at h0
        exact Option.noConfusion h0
      obtain ⟨p0, pn, hgp, hqp0, hpm0, hslot0⟩ :=
        find_parent t.nodes (tFuel t) t.root i n hw hpo hmem hri hgi
      have hpe : p = p0 := by rw [hip] at hqp0; exact Option.some.inj hqp0
      subst hpe
      have hd2 : derefA t.nodes (some p) = Res.ok pn := by simp [derefA, hgp]
      simp only [hd2, bind, Res.bind]
      cases hpg : pn.parent with
      | none => exact fun hc => Res.noConfusion hc
      | some g =>
          exact balance_loop_no_fuel (t.nodes.length + 1) t i d hwf hmem hd
            (by have := hdlt; simp only [tFuel] at this; exact this)

/-- Witness for C9: in the five-node tree `tree5` the node stored under
identifier 3 sits at parent-chain depth 3, and the fixup loop and
`_balance_after_insert` terminate on it without exhausting fuel. -/
theorem C9_witness :
    wfB tree5 = true ∧ 3 ∈ idsAux tree5.nodes (tFuel tree5) tree5.root ∧
    pchainB tree5.nodes (tFuel tree5) (some 3) = some 3 ∧
    (3 < tFuel tree5 ∧
      (∀ fuel, 3 < fuel → RBTree._balance_after_insert_loop fuel tree5 3 ≠ Res.fuel) ∧
      RBTree._balance_after_insert tree5 3 ≠ Res.fuel) :=
  ⟨by decide, by decide, by decide,
    C9_insert_fixup_terminates tree5 3 3 (by decide) (by decide) (by decide)⟩
